/-
Verification of the RDF projection-and-derivation engine of spec-parser
(src/spec_parser/rdf.py): reference resolution, the inheritance walker,
XSD range mapping, ontology graph construction, and JSON-LD context
derivation.  The Python source is shallowly embedded: dictionaries become
association lists, RDF terms become an inductive type, rdflib graphs
become lists of triples in emission order (rdflib stores a set; list
membership models graph membership), logging becomes an accumulated list
of diagnostic strings, and Python exceptions (KeyError from a failed
dictionary index, ValueError from int()) become Except.error.
-/
import Mathlib

set_option maxHeartbeats 1000000

/-! # RDF terms

rdflib terms.  Term equality models rdflib identity of terms: a URIRef,
a BNode and Literals with different language tags or datatypes are
pairwise distinct even when their string forms coincide (rdflib
Identifier equality is type-strict). -/

inductive Term where
  | uri (s : String)
  | blank (n : Nat)
  | lit (s : String)
  | litLang (s : String) (lang : String)
  | litInt (n : Int)
deriving DecidableEq, Repr

/-- str() of an rdflib term: its lexical form.  BNode labels are modelled
deterministically from the allocation counter (Python labels are opaque
fresh strings; no behaviour proved here depends on their exact text). -/
def Term.pyStr : Term → String
  | .uri s => s
  | .blank n => "N" ++ toString n
  | .lit s => s
  | .litLang s _ => s
  | .litInt n => toString n

abbrev Triple := Term × Term × Term

/-! ## Vocabulary constants (rdflib namespace members used by rdf.py) -/

def URI_BASE : String := "https://rdf.spdx.org/v3/"

def tRDF_type : Term := .uri "http://www.w3.org/1999/02/22-rdf-syntax-ns#type"
def tRDF_Property : Term := .uri "http://www.w3.org/1999/02/22-rdf-syntax-ns#Property"
def tRDFS_Class : Term := .uri "http://www.w3.org/2000/01/rdf-schema#Class"
def tRDFS_comment : Term := .uri "http://www.w3.org/2000/01/rdf-schema#comment"
def tRDFS_subClassOf : Term := .uri "http://www.w3.org/2000/01/rdf-schema#subClassOf"
def tRDFS_label : Term := .uri "http://www.w3.org/2000/01/rdf-schema#label"
def tRDFS_range : Term := .uri "http://www.w3.org/2000/01/rdf-schema#range"
def tOWL_Ontology : Term := .uri "http://www.w3.org/2002/07/owl#Ontology"
def tOWL_versionIRI : Term := .uri "http://www.w3.org/2002/07/owl#versionIRI"
def tOWL_Class : Term := .uri "http://www.w3.org/2002/07/owl#Class"
def tOWL_NamedIndividual : Term := .uri "http://www.w3.org/2002/07/owl#NamedIndividual"
def tOWL_sameAs : Term := .uri "http://www.w3.org/2002/07/owl#sameAs"
def tOWL_ObjectProperty : Term := .uri "http://www.w3.org/2002/07/owl#ObjectProperty"
def tOWL_DatatypeProperty : Term := .uri "http://www.w3.org/2002/07/owl#DatatypeProperty"
def tSH_NodeShape : Term := .uri "http://www.w3.org/ns/shacl#NodeShape"
def tSH_property : Term := .uri "http://www.w3.org/ns/shacl#property"
def tSH_path : Term := .uri "http://www.w3.org/ns/shacl#path"
def tSH_class : Term := .uri "http://www.w3.org/ns/shacl#class"
def tSH_pattern : Term := .uri "http://www.w3.org/ns/shacl#pattern"
def tSH_datatype : Term := .uri "http://www.w3.org/ns/shacl#datatype"
def tSH_minCount : Term := .uri "http://www.w3.org/ns/shacl#minCount"
def tSH_maxCount : Term := .uri "http://www.w3.org/ns/shacl#maxCount"
def tSPDXS_referenceable : Term := .uri "https://rdf.spdx.org/ns/schema#referenceable"
def tSPDXS_idPropertyName : Term := .uri "https://rdf.spdx.org/ns/schema#idPropertyName"
def XSD_BASE : String := "http://www.w3.org/2001/XMLSchema#"

/-! # The model

Read-only inputs to the core, owned by the external model loader.
Python string-keyed metadata dictionaries are embedded as named fields:
keys read with .get() (absence allowed) become Option fields, keys read
with [] indexing (whose absence would be a KeyError in an invalid model)
become plain fields.  Ordered Python dicts become association lists. -/

structure SPNamespace where
  name : String
deriving DecidableEq, Repr

/-- One entry of Class.properties: the record with keys fqname, minCount,
maxCount.  The counts are kept as strings exactly as in the model;
rdf.py converts them with int() at use sites. -/
structure PropRef where
  fqname : String
  minCount : String
  maxCount : String
deriving DecidableEq, Repr

structure SPClass where
  name : String
  ns : SPNamespace
  iri : String
  summary : Option String
  subclassOf : Option String    -- metadata.get("SubclassOf")
  referenceable : Option String -- metadata["Referenceable"] when present
  properties : List (String × PropRef)
deriving DecidableEq, Repr

structure SPProperty where
  name : String
  ns : SPNamespace
  iri : String
  summary : Option String
  nature : String  -- metadata["Nature"]
  range : String   -- metadata["Range"]
deriving DecidableEq, Repr

structure SPVocab where
  name : String
  ns : SPNamespace
  iri : String
  summary : Option String
  entries : List (String × String)
deriving DecidableEq, Repr

structure SPDatatype where
  name : String
  ns : SPNamespace
  iri : String
  subclassOf : String            -- metadata["SubclassOf"]
  formatPattern : Option String  -- format["pattern"] when present
deriving DecidableEq, Repr

structure SPIndividual where
  name : String
  ns : SPNamespace
  iri : String
  summary : Option String
  typeRef : String          -- metadata["type"]
  customIri : Option String -- metadata.get("IRI")
deriving DecidableEq, Repr

/-- The aggregate model.  model.types is the combined fqname lookup used
for property ranges and individual types; rdf.py only ever reads the
.iri attribute of its values, so it is embedded as fqname-to-iri. -/
structure Model where
  classes : List (String × SPClass)
  properties : List (String × SPProperty)
  vocabularies : List (String × SPVocab)
  datatypes : List (String × SPDatatype)
  individuals : List (String × SPIndividual)
  types : List (String × String)
deriving DecidableEq, Repr

/-! ## Computable string primitives

The core String functions used by rdf.py (startswith, split, lower,
int(), the in-operator on characters, join, lexicographic comparison)
are embedded as structurally recursive character-list functions with
Python's semantics (code-point comparison, ASCII case mapping), so that
every definition in this file evaluates inside the kernel. -/

def listIsPrefix : List Char → List Char → Bool
  | [], _ => true
  | _ :: _, [] => false
  | a :: as, b :: bs => decide (a = b) && listIsPrefix as bs

/-- s.startswith(pre). -/
def pyStartsWith (s pre : String) : Bool := listIsPrefix pre.data s.data

/-- c in s. -/
def pyContains (s : String) (c : Char) : Bool := s.data.any (fun a => decide (a = c))

def splitChars (sep : Char) : List Char → List (List Char)
  | [] => [[]]
  | c :: cs =>
    if c = sep then [] :: splitChars sep cs
    else match splitChars sep cs with
      | h :: t => (c :: h) :: t
      | [] => [[c]]

/-- s.split(sep) for a one-character separator. -/
def pySplit (s : String) (sep : Char) : List String := (splitChars sep s.data).map String.mk

/-- s.lower(). -/
def pyToLower (s : String) : String := String.mk (s.data.map Char.toLower)

def digitsVal : List Char → Nat → Option Nat
  | [], acc => some acc
  | c :: cs, acc =>
    if c.isDigit then digitsVal cs (acc * 10 + (c.toNat - '0'.toNat)) else none

/-- int(s), as a partial function: optional sign followed by at least
one decimal digit. -/
def pyInt? (s : String) : Option Int :=
  match s.data with
  | [] => none
  | '-' :: ds =>
    (match ds with
     | [] => none
     | _ :: _ => (digitsVal ds 0).map (fun n => -(n : Int)))
  | '+' :: ds =>
    (match ds with
     | [] => none
     | _ :: _ => (digitsVal ds 0).map (fun n => (n : Int)))
  | ds => (digitsVal ds 0).map (fun n => (n : Int))

/-- Code-point lexicographic string order (Python string comparison). -/
def listLeChars : List Char → List Char → Bool
  | [], _ => true
  | _ :: _, [] => false
  | a :: as, b :: bs => if a = b then listLeChars as bs else decide (a < b)

def pyStrLe (a b : String) : Bool := listLeChars a.data b.data

/-- sep.join(l). -/
def myIntercalate (sep : String) : List String → String
  | [] => ""
  | s :: rest =>
    match rest with
    | [] => s
    | _ :: _ => s ++ sep ++ myIntercalate sep rest

/-! ## Python-semantics helpers -/

/-- Dictionary lookup (first binding wins, as Python dicts have unique
keys). -/
def dictGet {α : Type} : List (String × α) → String → Option α
  | [], _ => none
  | (k, v) :: d, key => if k = key then some v else dictGet d key

/-- Dictionary indexing d[k]: KeyError when absent. -/
def dictGetE {α : Type} (d : List (String × α)) (k : String) : Except String α :=
  match dictGet d k with
  | some v => .ok v
  | none => .error ("KeyError: " ++ k)

/-- Python string truthiness of an optional string: None and the empty
string are falsy. -/
def pyTruthy : Option String → Option String
  | some s => if s = "" then none else some s
  | none => none

/-- Python int(s): ValueError when the string does not parse. -/
def pyIntE (s : String) : Except String Int :=
  match pyInt? s with
  | some n => .ok n
  | none => .error ("ValueError: " ++ s)

/-- s.rsplit("/")[-1]: the last slash-separated component. -/
def lastComponent (s : String) : String :=
  (pySplit s '/').getLastD ""

/-- s.rsplit("/", 2) unpacked into three parts; none when the string has
fewer than two separators (Python raises ValueError, caught and turned
into a skip by jsonld_context). -/
def rsplit2 (s : String) : Option (String × String × String) :=
  match (pySplit s '/').reverse with
  | name :: ns :: rest₁ :: rest₂ =>
      some (myIntercalate "/" (rest₁ :: rest₂).reverse, ns, name)
  | _ => none

/-- s.rstrip("/"). -/
def rstripSlash (s : String) : String :=
  String.mk ((s.data.reverse.dropWhile (· = '/')).reverse)

/-! # Reference Resolver (rdf.py lines 61, 121-124, 172-173, 201-202)

The shared namespace-resolution pattern: an absolute reference (leading
slash) is used unchanged, anything else is prefixed with the
referencing entity's namespace. -/

def resolve_ref (s : String) (nsname : String) : String :=
  (if pyStartsWith s "/" then "" else "/" ++ nsname ++ "/") ++ s

/-- get_parent(c, model) (rdf.py lines 57-62).  Returns .ok none when
the class has no (or a falsy) SubclassOf entry, .error on the KeyError
raised when the referenced parent is absent from model.classes. -/
def get_parent (c : SPClass) (model : Model) : Except String (Option SPClass) :=
  match pyTruthy c.subclassOf with
  | none => .ok none
  | some parent =>
    match dictGet model.classes (resolve_ref parent c.ns.name) with
    | some p => .ok (some p)
    | none => .error ("KeyError: " ++ resolve_ref parent c.ns.name)

/-! # XSD Range Mapper (rdf.py lines 50-55) -/

/-- xsd_range(rng, propname): a XMLSchema datatype URI for any reference
with the recognized xsd: namespace marker; otherwise no term and one
logged diagnostic.  Returned alongside the diagnostics it logs. -/
def xsd_range (rng : String) (propname : String) : Option Term × List String :=
  if pyStartsWith rng "xsd:" then
    (some (.uri (XSD_BASE ++ String.mk (rng.data.drop 4))), [])
  else
    (none, ["Uknown namespace in range <" ++ rng ++ "> of property " ++ propname])

/-! # Inheritance Walker (rdf.py lines 84-103)

The while-loop over parent links, with fuel standing in for the
unbounded Python loop: walk_inherit returns .ok none exactly when fuel
runs out before the walk reaches a class with no parent (the marker for
a non-terminating Python run), and .error on a KeyError. -/

/-- The namespace-qualified display name of an identifying property
(rdf.py lines 96-98). -/
def qualify_id_name (prop : SPProperty) (fqprop : String) : String :=
  let n := lastComponent fqprop
  if prop.ns.name ≠ "Core" then pyToLower prop.ns.name ++ "_" ++ n else n

/-- The inner for-loop over one class's declared properties (rdf.py
lines 92-98): every IdProperty match overwrites the accumulator. -/
def scan_id_property (model : Model) : List (String × PropRef) → Option String →
    Except String (Option String)
  | [], acc => .ok acc
  | (_, pr) :: rest, acc =>
    match dictGetE model.properties pr.fqname with
    | .error e => .error e
    | .ok prop =>
      scan_id_property model rest
        (if prop.nature = "IdProperty" then some (qualify_id_name prop pr.fqname) else acc)

/-- One full walk: the two facts are accumulated independently,
each class being consulted only while its fact is still unresolved. -/
def walk_inherit (model : Model) : Nat → Option SPClass → Option String → Option String →
    Except String (Option (Option String × Option String))
  | _, none, refble, idp => .ok (some (refble, idp))
  | 0, some _, _, _ => .ok none
  | fuel + 1, some p, refble, idp =>
    let refble := if refble.isNone then p.referenceable else refble
    match (if idp.isNone && !p.properties.isEmpty then
             scan_id_property model p.properties idp
           else .ok idp) with
    | .error e => .error e
    | .ok idp =>
      match get_parent p model with
      | .error e => .error e
      | .ok parent => walk_inherit model fuel parent refble idp

/-- The walker's resolution for one class, applying the "optional"
default (rdf.py lines 102-103). -/
def resolve_class_inherit (model : Model) (c : SPClass) (fuel : Nat) :
    Except String (Option (String × Option String)) :=
  match walk_inherit model fuel (some c) none none with
  | .error e => .error e
  | .ok none => .ok none
  | .ok (some (refble, idp)) => .ok (some (refble.getD "optional", idp))

/-! # Ontology Graph Builder (rdf.py gen_rdf_ontology)

Each section of the Python loop body becomes a function returning the
triples it adds (in add order) and the diagnostics it logs; BNode()
allocation is modelled by a threaded counter so distinct allocations
give distinct blank nodes. -/

/-- Concatenation of per-element emissions. -/
def joinMap {α β : Type} (f : α → List β) : List α → List β
  | [] => []
  | a :: l => f a ++ joinMap f l

/-- The range-constraint part of a property shape (rdf.py lines
119-143): class constraint for classes and vocabularies, pattern and
datatype for registered datatypes, datatype via the mapper otherwise. -/
def shape_typename (prop : SPProperty) : String :=
  if !(pyContains prop.range ':') then resolve_ref prop.range prop.ns.name
  else prop.range

def rng_triples (model : Model) (bnode : Term) (prop : SPProperty) :
    List Triple × List String :=
  let typename := shape_typename prop
  match dictGet model.classes typename with
  | some dt => ([(bnode, tSH_class, .uri dt.iri)], [])
  | none =>
    match dictGet model.vocabularies typename with
    | some dt => ([(bnode, tSH_class, .uri dt.iri)], [])
    | none =>
      match dictGet model.datatypes typename with
      | some dt =>
        let patT : List Triple := match dt.formatPattern with
          | some pat => [(bnode, tSH_pattern, Term.lit pat)]
          | none => []
        let (t, d) := xsd_range dt.subclassOf prop.iri
        (patT ++ (match t with | some tm => [(bnode, tSH_datatype, tm)] | none => []), d)
      | none =>
        let (t, d) := xsd_range typename prop.iri
        ((match t with | some tm => [(bnode, tSH_datatype, tm)] | none => []), d)

/-- One iteration of the property-shape loop (rdf.py lines 110-151).
Identifying properties allocate nothing and emit nothing. -/
def shape_prop (model : Model) (node : Term) (ctr : Nat) (pr : PropRef) :
    Except String (List Triple × List String × Nat) :=
  match dictGetE model.properties pr.fqname with
  | .error e => .error e
  | .ok prop =>
    if prop.nature = "IdProperty" then .ok ([], [], ctr)
    else
      let bnode := Term.blank ctr
      let head : List Triple := [(node, tSH_property, bnode), (bnode, tSH_path, .uri prop.iri)]
      let (rngT, rngD) := rng_triples model bnode prop
      match pyIntE pr.minCount with
      | .error e => .error e
      | .ok mc =>
        let minT : List Triple :=
          if mc ≠ 0 then [(bnode, tSH_minCount, .litInt mc)] else []
        if pr.maxCount ≠ "*" then
          match pyIntE pr.maxCount with
          | .error e => .error e
          | .ok mx =>
            .ok (head ++ rngT ++ minT ++ [(bnode, tSH_maxCount, .litInt mx)], rngD, ctr + 1)
        else .ok (head ++ rngT ++ minT, rngD, ctr + 1)

/-- The whole property-shape loop of one class. -/
def shape_props (model : Model) (node : Term) :
    Nat → List (String × PropRef) → Except String (List Triple × List String × Nat)
  | ctr, [] => .ok ([], [], ctr)
  | ctr, (_, pr) :: rest =>
    match shape_prop model node ctr pr with
    | .error e => .error e
    | .ok (t, d, ctr₁) =>
      match shape_props model node ctr₁ rest with
      | .error e => .error e
      | .ok (ts, ds, ctr₂) => .ok (t ++ ts, d ++ ds, ctr₂)

/-- One iteration of the class loop (rdf.py lines 74-151).  The walker
runs with fuel one past the number of classes, enough for every
terminating Python walk; exhaustion (a cyclic model, on which Python
loops forever) is surfaced as an error. -/
def class_triples (model : Model) (c : SPClass) (ctr : Nat) :
    Except String (List Triple × List String × Nat) :=
  let node := Term.uri c.iri
  let t0 : List Triple := [(node, tRDF_type, tRDFS_Class), (node, tRDF_type, tOWL_Class)]
  let t1 : List Triple := match pyTruthy c.summary with
    | some s => [(node, tRDFS_comment, .litLang s "en")]
    | none => []
  match get_parent c model with
  | .error e => .error e
  | .ok parentRes =>
    let t2 : List Triple := match parentRes with
      | some p => [(node, tRDFS_subClassOf, .uri p.iri)]
      | none => []
    match resolve_class_inherit model c (model.classes.length + 1) with
    | .error e => .error e
    | .ok none => .error "SubclassOf cycle: inheritance walk does not terminate"
    | .ok (some (refble, idp)) =>
      let t3 : List Triple := [(node, tSPDXS_referenceable, .lit refble)] ++
        (match idp with
         | some n => [(node, tSPDXS_idPropertyName, .lit n)]
         | none => [])
      if !c.properties.isEmpty then
        match shape_props model node ctr c.properties with
        | .error e => .error e
        | .ok (ts, ds, ctr₁) =>
          .ok (t0 ++ t1 ++ t2 ++ t3 ++ [(node, tRDF_type, tSH_NodeShape)] ++ ts, ds, ctr₁)
      else .ok (t0 ++ t1 ++ t2 ++ t3, [], ctr)

/-- The class loop over model.classes, threading the BNode counter. -/
def classes_triples (model : Model) :
    Nat → List (String × SPClass) → Except String (List Triple × List String × Nat)
  | ctr, [] => .ok ([], [], ctr)
  | ctr, (_, c) :: rest =>
    match class_triples model c ctr with
    | .error e => .error e
    | .ok (t, d, ctr₁) =>
      match classes_triples model ctr₁ rest with
      | .error e => .error e
      | .ok (ts, ds, ctr₂) => .ok (t ++ ts, d ++ ds, ctr₂)

/-- One iteration of the property loop (rdf.py lines 154-180).
Identifying properties are skipped entirely. -/
def property_triples (model : Model) (p : SPProperty) :
    Except String (List Triple × List String) :=
  if p.nature = "IdProperty" then .ok ([], [])
  else
    let node := Term.uri p.iri
    let t0 : List Triple := [(node, tRDF_type, tRDF_Property)]
    let t1 : List Triple := match pyTruthy p.summary with
      | some s => [(node, tRDFS_comment, .litLang s "en")]
      | none => []
    let t2 : List Triple :=
      if p.nature = "ObjectProperty" then [(node, tRDF_type, tOWL_ObjectProperty)]
      else if p.nature = "DataProperty" then [(node, tRDF_type, tOWL_DatatypeProperty)]
      else []
    if pyContains p.range ':' then
      let (t, d) := xsd_range p.range p.name
      .ok (t0 ++ t1 ++ t2 ++
        (match t with | some tm => [(node, tRDFS_range, tm)] | none => []), d)
    else
      let typename := resolve_ref p.range p.ns.name
      match dictGet model.datatypes typename with
      | some dt =>
        let (t, d) := xsd_range dt.subclassOf p.name
        .ok (t0 ++ t1 ++ t2 ++
          (match t with | some tm => [(node, tRDFS_range, tm)] | none => []), d)
      | none =>
        match dictGetE model.types typename with
        | .error e => .error e
        | .ok iri => .ok (t0 ++ t1 ++ t2 ++ [(node, tRDFS_range, .uri iri)], [])

/-- The property loop over model.properties. -/
def properties_triples (model : Model) :
    List (String × SPProperty) → Except String (List Triple × List String)
  | [] => .ok ([], [])
  | (_, p) :: rest =>
    match property_triples model p with
    | .error e => .error e
    | .ok (t, d) =>
      match properties_triples model rest with
      | .error e => .error e
      | .ok (ts, ds) => .ok (t ++ ts, d ++ ds)

/-- One vocabulary entry (rdf.py lines 188-193). -/
def entry_triples (node : Term) (viri : String) (e : String × String) : List Triple :=
  let enode := Term.uri (viri ++ "/" ++ e.1)
  [(enode, tRDF_type, tOWL_NamedIndividual), (enode, tRDF_type, node),
   (enode, tRDFS_label, .lit e.1), (enode, tRDFS_comment, .litLang e.2 "en")]

/-- One vocabulary (rdf.py lines 182-193). -/
def vocab_triples (v : SPVocab) : List Triple :=
  let node := Term.uri v.iri
  [(node, tRDF_type, tRDFS_Class), (node, tRDF_type, tOWL_Class)] ++
  (match pyTruthy v.summary with
   | some s => [(node, tRDFS_comment, .litLang s "en")]
   | none => []) ++
  joinMap (entry_triples node v.iri) v.entries

def vocabs_triples : List (String × SPVocab) → List Triple :=
  joinMap (fun x => vocab_triples x.2)

/-- One individual (rdf.py lines 195-207). -/
def individual_triples (model : Model) (i : SPIndividual) : Except String (List Triple) :=
  let node := Term.uri i.iri
  let t0 : List Triple := [(node, tRDF_type, tOWL_NamedIndividual)]
  let t1 : List Triple := match pyTruthy i.summary with
    | some s => [(node, tRDFS_comment, .litLang s "en")]
    | none => []
  match dictGetE model.types (resolve_ref i.typeRef i.ns.name) with
  | .error e => .error e
  | .ok iri =>
    let t2 : List Triple := [(node, tRDFS_range, .uri iri)]
    let t3 : List Triple := match pyTruthy i.customIri with
      | some ci => [(node, tOWL_sameAs, .uri ci)]
      | none => []
    .ok (t0 ++ t1 ++ t2 ++ t3)

def individuals_triples (model : Model) :
    List (String × SPIndividual) → Except String (List Triple)
  | [] => .ok []
  | (_, i) :: rest =>
    match individual_triples model i with
    | .error e => .error e
    | .ok t =>
      match individuals_triples model rest with
      | .error e => .error e
      | .ok ts => .ok (t ++ ts)

/-- gen_rdf_ontology(model): the full statement graph (as the ordered
list of g.add calls) together with every diagnostic logged while
building it. -/
def gen_rdf_ontology (model : Model) : Except String (List Triple × List String) :=
  let node := Term.uri URI_BASE
  let t0 : List Triple := [(node, tRDF_type, tOWL_Ontology), (node, tOWL_versionIRI, node)]
  match classes_triples model 0 model.classes with
  | .error e => .error e
  | .ok (tc, dc, _) =>
    match properties_triples model model.properties with
    | .error e => .error e
    | .ok (tp, dp) =>
      let tv := vocabs_triples model.vocabularies
      match individuals_triples model model.individuals with
      | .error e => .error e
      | .ok ti => .ok (t0 ++ tc ++ tp ++ tv ++ ti, dc ++ dp)

/-- The built graph, for stating concrete evaluations (empty on error). -/
def genGraph (model : Model) : List Triple :=
  match gen_rdf_ontology model with
  | .ok (g, _) => g
  | .error _ => []

/-- The diagnostics logged during graph construction (empty on error). -/
def genDiags (model : Model) : List String :=
  match gen_rdf_ontology model with
  | .ok (_, d) => d
  | .error _ => []

/-! # Context Deriver (rdf.py jsonld_context, lines 212-270)

The terms table is a Python dict keyed by either a plain str (the seed
keys and each derived compact key) or an rdflib term (each object of an
idPropertyName annotation); rdflib term equality is type-strict, so a
Literal key never collides with an equal-looking str key.  The table is
embedded as an insertion-ordered association list with dict assignment
semantics.  Python set iteration orders (over objects and subjects) are
modelled by dedup of the emission-ordered list; sorted() over subjects
uses the rdflib term order: BNodes before URIRefs before Literals, each
kind ordered by its string form. -/

inductive CtxVal where
  | str (s : String)
  | idObj (id : String)
  | vocabObj (id : String) (vocab : String)
deriving DecidableEq, Repr

inductive CtxKey where
  | str (s : String)
  | term (t : Term)
deriving DecidableEq, Repr

def ctxGet : List (CtxKey × CtxVal) → CtxKey → Option CtxVal
  | [], _ => none
  | (k, v) :: d, key => if k = key then some v else ctxGet d key

/-- Python dict assignment terms[k] = v: overwrite in place when the key
exists, append otherwise. -/
def ctxInsert (d : List (CtxKey × CtxVal)) (k : CtxKey) (v : CtxVal) :
    List (CtxKey × CtxVal) :=
  if (ctxGet d k).isSome then
    d.map (fun kv => if kv.1 = k then (k, v) else kv)
  else d ++ [(k, v)]

/-- Classes having at least one ontology-level named-individual member
(rdf.py lines 238-242); only membership in this collection is consulted. -/
def has_named_individuals (g : List Triple) : List Term :=
  joinMap (fun s => g.filterMap (fun t =>
      if t.1 = s ∧ t.2.1 = tRDF_type then some t.2.2 else none))
    (g.filterMap (fun t =>
      if t.2.1 = tRDF_type ∧ t.2.2 = tOWL_NamedIndividual then some t.1 else none))

/-- The range-classification loop of get_subject_term (rdf.py lines
221-235), iterating the graph in storage order. -/
def classify_ranges (g : List Triple) (hni : List Term) (subject : Term) :
    List Triple → CtxVal
  | [] => .str subject.pyStr
  | (s, p, o) :: rest =>
    if s = subject ∧ p = tRDFS_range then
      if o ∈ hni then .vocabObj subject.pyStr (o.pyStr ++ "/")
      else if (o, tRDF_type, tRDFS_Class) ∈ g then .idObj subject.pyStr
      else classify_ranges g hni subject rest
    else classify_ranges g hni subject rest

def get_subject_term (g : List Triple) (hni : List Term) (subject : Term) : CtxVal :=
  if (subject, tRDF_type, tOWL_ObjectProperty) ∈ g then
    classify_ranges g hni subject g
  else .str subject.pyStr

/-- The already-mapped target displayed in a duplicate-key diagnostic:
the @id entry of a dict-valued term, the value itself otherwise. -/
def currentOf : CtxVal → String
  | .str s => s
  | .idObj i => i
  | .vocabObj i _ => i

def dupMsg (key : String) (subject : Term) (current : String) : String :=
  "ERROR: Duplicate context key '" ++ key ++ "' for '" ++ subject.pyStr ++
  "'. Already mapped to '" ++ current ++ "'"

/-- The compact term key a subject derives (rdf.py lines 249-260), none
when the subject is skipped (undecomposable identifier or foreign base). -/
def derive_key (subject : Term) : Option String :=
  match rsplit2 subject.pyStr with
  | none => none
  | some (base, ns, name) =>
    if base ≠ rstripSlash URI_BASE then none
    else some (if ns = "Core" then name else pyToLower ns ++ "_" ++ name)

/-- The main subject loop (rdf.py lines 244-269), accumulating the terms
table and the collision diagnostics. -/
def process_subjects (g : List Triple) (hni : List Term) :
    List Term → List (CtxKey × CtxVal) → List String →
    List (CtxKey × CtxVal) × List String
  | [], terms, diags => (terms, diags)
  | subject :: rest, terms, diags =>
    if (subject, tRDF_type, tOWL_NamedIndividual) ∈ g then
      process_subjects g hni rest terms diags
    else
      match derive_key subject with
      | none => process_subjects g hni rest terms diags
      | some key =>
        match ctxGet terms (.str key) with
        | some cur =>
          process_subjects g hni rest terms
            (diags ++ [dupMsg key subject (currentOf cur)])
        | none =>
          process_subjects g hni rest
            (ctxInsert terms (.str key) (get_subject_term g hni subject)) diags

/-- The two fixed seed entries (rdf.py lines 213-215). -/
def seed_terms : List (CtxKey × CtxVal) :=
  [(.str "spdx", .str URI_BASE), (.str "type", .str "@type")]

/-- set(g.objects(predicate=SPDXS.idPropertyName)). -/
def id_prop_names (g : List Triple) : List Term :=
  (g.filterMap (fun t => if t.2.1 = tSPDXS_idPropertyName then some t.2.2 else none)).dedup

/-- rdflib term sort rank: BNode before URIRef before Literal. -/
def termRank : Term → Nat
  | .blank _ => 1
  | .uri _ => 2
  | .lit _ => 3
  | .litLang _ _ => 3
  | .litInt _ => 3

def termLeB (a b : Term) : Bool :=
  if termRank a = termRank b then pyStrLe a.pyStr b.pyStr
  else decide (termRank a < termRank b)

def termLe (a b : Term) : Prop := termLeB a b = true

instance : DecidableRel termLe := fun a b => instDecidableEqBool (termLeB a b) true

/-- sorted(g.subjects(unique=True)). -/
def subjects_sorted (g : List Triple) : List Term :=
  List.insertionSort termLe ((g.map (fun t => t.1)).dedup)

/-- jsonld_context(g): the derived term-mapping table and the collision
diagnostics logged while deriving it. -/
def jsonld_context (g : List Triple) : List (CtxKey × CtxVal) × List String :=
  let terms := (id_prop_names g).foldl
    (fun ts o => ctxInsert ts (.term o) (.str "@id")) seed_terms
  let hni := has_named_individuals g
  process_subjects g hni (subjects_sorted g) terms []

/-! ## Sorted-key serialization (gen_rdf: json.dump(ctx, sort_keys=True))

A JSON rendering of the context table with keys emitted in sorted order
(nested objects likewise render their fixed keys in sorted order).
Strings arising in this domain contain no characters needing JSON
escapes, so quoting is plain. -/

def jstr (s : String) : String := "\"" ++ s ++ "\""

def renderKey : CtxKey → String
  | .str s => s
  | .term t => t.pyStr

def renderVal : CtxVal → String
  | .str s => jstr s
  | .idObj i => "\x7b\"@id\": " ++ jstr i ++ ", \"@type\": \"@id\"\x7d"
  | .vocabObj i voc =>
    "\x7b\"@context\": \x7b\"@vocab\": " ++ jstr voc ++ "\x7d, \"@id\": " ++
    jstr i ++ ", \"@type\": \"@vocab\"\x7d"

def ctxEntryLe (a b : CtxKey × CtxVal) : Prop :=
  pyStrLe (renderKey a.1) (renderKey b.1) = true

instance : DecidableRel ctxEntryLe :=
  fun a b => instDecidableEqBool (pyStrLe (renderKey a.1) (renderKey b.1)) true

def serialize_context (terms : List (CtxKey × CtxVal)) : String :=
  "\x7b\"@context\": \x7b" ++
  myIntercalate ", "
    ((List.insertionSort ctxEntryLe terms).map
      (fun kv => jstr (renderKey kv.1) ++ ": " ++ renderVal kv.2)) ++
  "\x7d\x7d"

/-! # Parent chains

Spec-side description of the walk: the full parent chain of a class,
as a list starting at the class and ending at the first class with no
parent reference. -/

def isOkNone : Except String (Option SPClass) → Bool
  | .ok none => true
  | _ => false

def isOkSome (e : Except String (Option SPClass)) (p : SPClass) : Bool :=
  match e with
  | .ok (some q) => decide (q = p)
  | _ => false

/-- Every adjacent pair of the list is one parent step. -/
def stepsToB (model : Model) : List SPClass → Bool
  | [] => true
  | a :: rest =>
    match rest with
    | [] => true
    | b :: _ => isOkSome (get_parent a model) b && stepsToB model rest

/-- The last element has no parent reference. -/
def lastNoParentB (model : Model) : List SPClass → Bool
  | [] => false
  | a :: rest =>
    match rest with
    | [] => isOkNone (get_parent a model)
    | _ :: _ => lastNoParentB model rest

/-- chainFromB model c chain: chain lists the classes the inheritance
walk visits from c (inclusive), in order, ending at the first class
whose get_parent yields none. -/
def chainFromB (model : Model) (c : SPClass) (chain : List SPClass) : Bool :=
  decide (chain.head? = some c) && stepsToB model chain && lastNoParentB model chain

/-- The claim's nearest-ancestor Referenceable value: the value declared
by the first chain element that declares one. -/
def nearestReferenceable : List SPClass → Option String
  | [] => none
  | c :: rest => c.referenceable.or (nearestReferenceable rest)

/-- The claim's resolved referenceable: the nearest ancestor's declared
value, defaulting to "optional" when no ancestor declares one. -/
def spec_referenceable (chain : List SPClass) : String :=
  (nearestReferenceable chain).getD "optional"

/-- The claim's display name for an identifying property: bare name in
the root namespace Core, lower-cased namespace name and underscore
otherwise. -/
def spec_display_name (p : SPProperty) (fqname : String) : String :=
  if p.ns.name = "Core" then lastComponent fqname
  else pyToLower p.ns.name ++ "_" ++ lastComponent fqname

/-- The claim's per-class identifying property: the first declared
property whose Nature is IdProperty (resolvable entries only). -/
def spec_class_id_name (model : Model) : List (String × PropRef) → Option String
  | [] => none
  | (_, pr) :: rest =>
    match dictGet model.properties pr.fqname with
    | some p =>
      if p.nature = "IdProperty" then some (spec_display_name p pr.fqname)
      else spec_class_id_name model rest
    | none => spec_class_id_name model rest

/-- The claim's resolved identifying-property name: that of the first
chain element declaring one. -/
def spec_id_name (model : Model) : List SPClass → Option String
  | [] => none
  | c :: rest =>
    match spec_class_id_name model c.properties with
    | some v => some v
    | none => spec_id_name model rest

/-- Total version of the per-class IdProperty scan, agreeing with
scan_id_property on property lists whose entries all resolve. -/
def scan_total (model : Model) : List (String × PropRef) → Option String → Option String
  | [], acc => acc
  | (_, pr) :: rest, acc =>
    match dictGet model.properties pr.fqname with
    | some p =>
      scan_total model rest
        (if p.nature = "IdProperty" then some (qualify_id_name p pr.fqname) else acc)
    | none => scan_total model rest acc

/-- The qualified names of a property list's IdProperty entries, in
declaration order. -/
def idEntries (model : Model) : List (String × PropRef) → List String
  | [] => []
  | (_, pr) :: rest =>
    match dictGet model.properties pr.fqname with
    | some p =>
      if p.nature = "IdProperty" then qualify_id_name p pr.fqname :: idEntries model rest
      else idEntries model rest
    | none => idEntries model rest

/-- The walker's cross-class identifying-property resolution (first
class with a match wins; within a class the scan's result stands). -/
def chainIdOpt (model : Model) : List SPClass → Option String
  | [] => none
  | c :: rest => (scan_total model c.properties none).or (chainIdOpt model rest)

/-- At most one declared IdProperty (the claim's implicit reading). -/
abbrev atMostOneId (model : Model) (props : List (String × PropRef)) : Prop :=
  (idEntries model props).length ≤ 1

/-! ## Scenario A: Core/Agent (Referenceable=yes, IdProperty name) with
subclass Core/Person declaring nothing. -/

def nsCore : SPNamespace := ⟨"Core"⟩

def propName : SPProperty :=
  ⟨"name", nsCore, "https://rdf.spdx.org/v3/Core/name", none, "IdProperty", "xsd:string"⟩

def clsAgent : SPClass :=
  ⟨"Agent", nsCore, "https://rdf.spdx.org/v3/Core/Agent", none, none, some "yes",
   [("name", ⟨"/Core/name", "1", "1"⟩)]⟩

def clsPerson : SPClass :=
  ⟨"Person", nsCore, "https://rdf.spdx.org/v3/Core/Person", none, some "Agent", none, []⟩

def scenarioA : Model :=
  ⟨[("/Core/Agent", clsAgent), ("/Core/Person", clsPerson)],
   [("/Core/name", propName)], [], [], [], []⟩

/-- The n-fold parent iterate of a class: .ok (some x) while walking,
.ok none after the walk has reached a class with no parent, .error on
a failed parent lookup. -/
def iterParentE (model : Model) (c : SPClass) : Nat → Except String (Option SPClass)
  | 0 => .ok (some c)
  | n + 1 =>
    match iterParentE model c n with
    | .error e => .error e
    | .ok none => .ok none
    | .ok (some p) => get_parent p model

/-! ## A class with two IdProperty declarations (for the overwrite
behaviour of the scan). -/

def propFirstId : SPProperty :=
  ⟨"first", nsCore, "https://rdf.spdx.org/v3/Core/first", none, "IdProperty", "xsd:string"⟩

def propSecondId : SPProperty :=
  ⟨"second", nsCore, "https://rdf.spdx.org/v3/Core/second", none, "IdProperty", "xsd:string"⟩

def clsTwoIds : SPClass :=
  ⟨"Thing", nsCore, "https://rdf.spdx.org/v3/Core/Thing", none, none, none,
   [("first", ⟨"/Core/first", "1", "1"⟩), ("second", ⟨"/Core/second", "1", "1"⟩)]⟩

def twoIdModel : Model :=
  ⟨[("/Core/Thing", clsTwoIds)],
   [("/Core/first", propFirstId), ("/Core/second", propSecondId)], [], [], [], []⟩

def emptyModel : Model := ⟨[], [], [], [], [], []⟩

def propDataStr : SPProperty :=
  ⟨"str", nsCore, "https://rdf.spdx.org/v3/Core/str", none, "DataProperty", "xsd:string"⟩

def strModel : Model := ⟨[], [("/Core/str", propDataStr)], [], [], [], []⟩

/-- A class declaring one non-identifying property, for the shape part
of the node-shape claim. -/
def clsItem : SPClass :=
  ⟨"Item", nsCore, "https://rdf.spdx.org/v3/Core/Item", none, none, none,
   [("str", ⟨"/Core/str", "1", "1"⟩)]⟩

def c2model : Model :=
  ⟨[("/Core/Item", clsItem)], [("/Core/str", propDataStr)], [], [], [], []⟩

/-! ## Scenario C input: Core/color with Range xsd:hue, plus a range
with a truly unknown namespace marker. -/

def propColor : SPProperty :=
  ⟨"color", nsCore, "https://rdf.spdx.org/v3/Core/color", none, "DataProperty", "xsd:hue"⟩

def propWeird : SPProperty :=
  ⟨"weird", nsCore, "https://rdf.spdx.org/v3/Core/weird", none, "DataProperty", "foo:hue"⟩

def c5model : Model :=
  ⟨[], [("/Core/color", propColor)], [], [], [], []⟩

/-! ## Shapes of emitted triples, per section

These predicates enumerate every triple shape a section of
gen_rdf_ontology can emit; the backbone lemmas below show every triple
of the built graph matches one of them. -/

/-- The declared properties of a class that resolve to a non-identifying
property, in declaration order. -/
def nonIdProps (model : Model) : List (String × PropRef) → List SPProperty
  | [] => []
  | (_, pr) :: rest =>
    match dictGet model.properties pr.fqname with
    | some p =>
      if p.nature = "IdProperty" then nonIdProps model rest
      else p :: nonIdProps model rest
    | none => nonIdProps model rest

def ShapeBodyForm (model : Model) (c : SPClass) (t : Triple) : Prop :=
  ∃ pr prop, (∃ nm, (nm, pr) ∈ c.properties) ∧
    dictGet model.properties pr.fqname = some prop ∧ prop.nature ≠ "IdProperty" ∧
    ((∃ k, t = (Term.blank k, tSH_path, Term.uri prop.iri)) ∨
     ((∃ k, t.1 = Term.blank k) ∧
      (t.2.1 = tSH_class ∨ t.2.1 = tSH_pattern ∨ t.2.1 = tSH_datatype ∨
       t.2.1 = tSH_minCount ∨ t.2.1 = tSH_maxCount)))

def ClassTripleForm (model : Model) (c : SPClass) (t : Triple) : Prop :=
  (t = (Term.uri c.iri, tRDF_type, tRDFS_Class)) ∨
  (t = (Term.uri c.iri, tRDF_type, tOWL_Class)) ∨
  (t = (Term.uri c.iri, tRDF_type, tSH_NodeShape) ∧ c.properties ≠ []) ∨
  (∃ s, t = (Term.uri c.iri, tRDFS_comment, Term.litLang s "en")) ∨
  (∃ i, t = (Term.uri c.iri, tRDFS_subClassOf, Term.uri i)) ∨
  (∃ v, t = (Term.uri c.iri, tSPDXS_referenceable, Term.lit v)) ∨
  (∃ v, t = (Term.uri c.iri, tSPDXS_idPropertyName, Term.lit v)) ∨
  (∃ k, t = (Term.uri c.iri, tSH_property, Term.blank k)) ∨
  ShapeBodyForm model c t

def PropTripleForm (p : SPProperty) (t : Triple) : Prop :=
  p.nature ≠ "IdProperty" ∧
  (t = (Term.uri p.iri, tRDF_type, tRDF_Property) ∨
   (∃ s, t = (Term.uri p.iri, tRDFS_comment, Term.litLang s "en")) ∨
   t = (Term.uri p.iri, tRDF_type, tOWL_ObjectProperty) ∨
   t = (Term.uri p.iri, tRDF_type, tOWL_DatatypeProperty) ∨
   (∃ o, t = (Term.uri p.iri, tRDFS_range, o)))

def VocabTripleForm (v : SPVocab) (t : Triple) : Prop :=
  t = (Term.uri v.iri, tRDF_type, tRDFS_Class) ∨
  t = (Term.uri v.iri, tRDF_type, tOWL_Class) ∨
  (∃ s, t = (Term.uri v.iri, tRDFS_comment, Term.litLang s "en")) ∨
  (∃ e, t = (Term.uri (v.iri ++ "/" ++ e), tRDF_type, tOWL_NamedIndividual)) ∨
  (∃ e, t = (Term.uri (v.iri ++ "/" ++ e), tRDF_type, Term.uri v.iri)) ∨
  (∃ e, t = (Term.uri (v.iri ++ "/" ++ e), tRDFS_label, Term.lit e)) ∨
  (∃ e d, t = (Term.uri (v.iri ++ "/" ++ e), tRDFS_comment, Term.litLang d "en"))

def IndivTripleForm (i : SPIndividual) (t : Triple) : Prop :=
  t = (Term.uri i.iri, tRDF_type, tOWL_NamedIndividual) ∨
  (∃ s, t = (Term.uri i.iri, tRDFS_comment, Term.litLang s "en")) ∨
  (∃ o, t = (Term.uri i.iri, tRDFS_range, o)) ∨
  (∃ o, t = (Term.uri i.iri, tOWL_sameAs, o))

def GenTripleForm (model : Model) (t : Triple) : Prop :=
  t = (Term.uri URI_BASE, tRDF_type, tOWL_Ontology) ∨
  t = (Term.uri URI_BASE, tOWL_versionIRI, Term.uri URI_BASE) ∨
  (∃ x ∈ model.classes, ClassTripleForm model x.2 t) ∨
  (∃ x ∈ model.properties, PropTripleForm x.2 t) ∨
  (∃ x ∈ model.vocabularies, VocabTripleForm x.2 t) ∨
  (∃ x ∈ model.individuals, IndivTripleForm x.2 t)

/-! ## Context-derivation eligibility (for the duplicate-key claim) -/

/-- The compact key a subject would contribute in the main loop: none
when the subject is skipped (NamedIndividual-typed, or an identifier the
key derivation rejects). -/
def eligKey (g : List Triple) (s : Term) : Option String :=
  if (s, tRDF_type, tOWL_NamedIndividual) ∈ g then none else derive_key s

/-- Two subjects that cannot contribute the same compact key. -/
def distinctKeys (g : List Triple) (x y : Term) : Prop :=
  ∀ kx, eligKey g x = some kx → eligKey g y ≠ some kx

/-! ## Duplicate-key scenario: two subjects deriving the key x_y -/

def subjX : Term := .uri "https://rdf.spdx.org/v3/Core/x_y"

def subjY : Term := .uri "https://rdf.spdx.org/v3/X/y"

def c6graph : List Triple :=
  [(subjX, tRDF_type, tRDFS_Class), (subjY, tRDF_type, tRDFS_Class)]

/-! ## Determinism scenario: the same two statements in both storage
orders -/

def subjA : Term := .uri "https://rdf.spdx.org/v3/Core/aaa"

def subjB : Term := .uri "https://rdf.spdx.org/v3/Core/bbb"

def c7g1 : List Triple :=
  [(subjA, tRDF_type, tRDFS_Class), (subjB, tRDF_type, tRDFS_Class)]

def c7g2 : List Triple :=
  [(subjB, tRDF_type, tRDFS_Class), (subjA, tRDF_type, tRDFS_Class)]

/-! # Theorems -/

lemma getLast?_cons_or {α : Type} (a : α) (l : List α) :
    (a :: l).getLast? = l.getLast?.or (some a) := by
  induction l with
  | nil => rfl
  | cons b t _ =>
    rw [List.getLast?_cons_cons]
    cases h2 : (b :: t).getLast? with
    | none => exact absurd (List.getLast?_eq_none_iff.mp h2) (by simp)
    | some v => rfl

lemma scan_total_eq_getLast (model : Model) :
    ∀ props acc, scan_total model props acc = (idEntries model props).getLast?.or acc := by
  intro props
  induction props with
  | nil => intro acc; rfl
  | cons x rest ih =>
    intro acc
    obtain ⟨n, pr⟩ := x
    cases h : dictGet model.properties pr.fqname with
    | none => simp only [scan_total, idEntries, h]; exact ih acc
    | some p =>
      simp only [scan_total, idEntries, h]
      by_cases hn : p.nature = "IdProperty"
      · rw [if_pos hn, if_pos hn, ih, getLast?_cons_or]
        cases (idEntries model rest).getLast? <;> rfl
      · rw [if_neg hn, if_neg hn]
        exact ih acc

lemma spec_class_eq_head (model : Model) :
    ∀ props, spec_class_id_name model props = (idEntries model props).head? := by
  intro props
  induction props with
  | nil => rfl
  | cons x rest ih =>
    obtain ⟨n, pr⟩ := x
    cases h : dictGet model.properties pr.fqname with
    | none => simp only [spec_class_id_name, idEntries, h]; exact ih
    | some p =>
      simp only [spec_class_id_name, idEntries, h]
      by_cases hn : p.nature = "IdProperty"
      · rw [if_pos hn, if_pos hn]
        simp only [List.head?_cons, spec_display_name, qualify_id_name]
        by_cases hc : p.ns.name = "Core"
        · rw [if_pos hc, if_neg (by rw [hc]; exact fun h => h rfl)]
        · rw [if_neg hc, if_pos hc]
      · rw [if_neg hn, if_neg hn]
        exact ih

lemma scan_id_property_ok (model : Model) :
    ∀ props acc, (∀ x ∈ props, (dictGet model.properties x.2.fqname).isSome = true) →
    scan_id_property model props acc = .ok (scan_total model props acc) := by
  intro props
  induction props with
  | nil => intro acc _; rfl
  | cons x rest ih =>
    intro acc hall
    obtain ⟨n, pr⟩ := x
    have hx := hall (n, pr) (by simp)
    cases h : dictGet model.properties pr.fqname with
    | none => rw [h] at hx; cases hx
    | some p =>
      simp only [scan_id_property, scan_total, dictGetE, h]
      exact ih _ (fun y hy => hall y (List.mem_cons_of_mem _ hy))

lemma ite_isNone_or (r v : Option String) :
    (if r.isNone then v else r) = r.or v := by
  cases r <;> rfl

/-- The walk along a known chain, with arbitrary accumulators: each fact
resolves to the accumulator when already set, otherwise to the first
value the chain provides. -/
lemma walk_chain (model : Model) :
    ∀ chain c fuel r i, chain.head? = some c → stepsToB model chain = true →
    lastNoParentB model chain = true → chain.length ≤ fuel →
    (∀ cl ∈ chain, ∀ x ∈ cl.properties, (dictGet model.properties x.2.fqname).isSome = true) →
    walk_inherit model fuel (some c) r i =
      .ok (some (r.or (nearestReferenceable chain), i.or (chainIdOpt model chain))) := by
  intro chain
  induction chain with
  | nil => intro c fuel r i hhead _ _ _ _; cases hhead
  | cons c₀ rest ih =>
    intro c fuel r i hhead hsteps hlast hfuel hprops
    have hc₀ : c₀ = c := by simpa using hhead
    subst hc₀
    cases fuel with
    | zero => simp at hfuel
    | succ f =>
      have hscan : ∀ j : Option String, (if j.isNone && !c₀.properties.isEmpty then
          scan_id_property model c₀.properties j else .ok j) =
          .ok (j.or (scan_total model c₀.properties none)) := by
        intro j
        cases j with
        | some v => rfl
        | none =>
          cases hp : c₀.properties with
          | nil => simp [hp, scan_total]
          | cons y ys =>
            have hne : c₀.properties.isEmpty = false := by rw [hp]; rfl
            simp only [Option.isNone_none, hne, Bool.not_false, Bool.true_and, if_true,
              Option.none_or]
            exact scan_id_property_ok model _ _ (hp ▸ hprops c₀ (by simp))
      cases rest with
      | nil =>
        have hgp : get_parent c₀ model = .ok none := by
          simp only [lastNoParentB] at hlast
          cases hg : get_parent c₀ model with
          | error e => rw [hg] at hlast; cases hlast
          | ok o =>
            cases o with
            | none => rfl
            | some _ => rw [hg] at hlast; cases hlast
        simp only [walk_inherit, hscan, hgp, ite_isNone_or]
        simp [nearestReferenceable, chainIdOpt, walk_inherit]
      | cons c₁ rest₁ =>
        simp only [stepsToB, Bool.and_eq_true] at hsteps
        obtain ⟨hok, hsteps₁⟩ := hsteps
        have hlast₁ : lastNoParentB model (c₁ :: rest₁) = true := by
          simpa only [lastNoParentB] using hlast
        have hgp : get_parent c₀ model = .ok (some c₁) := by
          cases hg : get_parent c₀ model with
          | error e => rw [hg] at hok; cases hok
          | ok o =>
            cases o with
            | none => rw [hg] at hok; cases hok
            | some q =>
              rw [hg] at hok
              simp only [isOkSome, decide_eq_true_eq] at hok
              rw [hok]
        simp only [walk_inherit, hscan, hgp, ite_isNone_or]
        rw [ih c₁ f _ _ (by rfl) hsteps₁ hlast₁ (by simpa using hfuel)
          (fun cl hcl => hprops cl (List.mem_cons_of_mem _ hcl))]
        simp only [nearestReferenceable, chainIdOpt, Option.or_assoc]

lemma chainId_eq_spec (model : Model) :
    ∀ chain, (∀ cl ∈ chain, atMostOneId model cl.properties) →
    chainIdOpt model chain = spec_id_name model chain := by
  intro chain
  induction chain with
  | nil => intro _; rfl
  | cons c rest ih =>
    intro hone
    have h1 : scan_total model c.properties none = spec_class_id_name model c.properties := by
      rw [scan_total_eq_getLast, spec_class_eq_head, Option.or_none]
      have hle : (idEntries model c.properties).length ≤ 1 := hone c (by simp)
      cases he : idEntries model c.properties with
      | nil => rfl
      | cons a t =>
        rw [he] at hle
        cases t with
        | nil => rfl
        | cons b t₂ => simp at hle
    simp only [chainIdOpt, spec_id_name, h1]
    cases h2 : spec_class_id_name model c.properties with
    | some v => rfl
    | none => simpa using ih (fun cl hcl => hone cl (List.mem_cons_of_mem _ hcl))

/-- C1.  For every class whose parent chain is finite (hence acyclic)
and fully resolvable, the Inheritance Walker resolves referenceable to
the value declared by the nearest ancestor (inclusive) that declares
one, defaulting to "optional", and the identifying-property name to
the namespace-qualified name of the IdProperty of the first ancestor
(inclusive) that declares one. -/
theorem C1_inheritance_walker (model : Model) (c : SPClass) (chain : List SPClass)
    (fuel : Nat) (hchain : chainFromB model c chain = true)
    (hfuel : chain.length ≤ fuel)
    (hprops : ∀ cl ∈ chain, ∀ x ∈ cl.properties,
      (dictGet model.properties x.2.fqname).isSome = true)
    (hone : ∀ cl ∈ chain, atMostOneId model cl.properties) :
    resolve_class_inherit model c fuel =
      .ok (some (spec_referenceable chain, spec_id_name model chain)) := by
  simp only [chainFromB, Bool.and_eq_true, decide_eq_true_eq] at hchain
  obtain ⟨⟨hhead, hsteps⟩, hlast⟩ := hchain
  unfold resolve_class_inherit
  rw [walk_chain model chain c fuel none none hhead hsteps hlast hfuel hprops]
  rw [chainId_eq_spec model chain hone]
  simp [spec_referenceable]

/-- C1 witness: in Scenario A, Person resolves referenceable "yes" and
identifying-property name "name". -/
theorem C1_inheritance_walker_witness :
    chainFromB scenarioA clsPerson [clsPerson, clsAgent] = true ∧
    resolve_class_inherit scenarioA clsPerson 3 = .ok (some ("yes", some "name")) := by
  refine ⟨by decide, ?_⟩
  rw [C1_inheritance_walker scenarioA clsPerson [clsPerson, clsAgent] 3 (by decide)
    (by decide) (by decide) (by decide)]
  rfl

/-- C10.  When the first ancestor consulted declares several
IdProperties, the walker resolves the name of the LAST one in
declaration order: each match inside a class overwrites the previous
one instead of stopping at the first. -/
theorem C10_last_id_property_wins (model : Model) (c : SPClass) (chain : List SPClass)
    (fuel : Nat) (hchain : chainFromB model c chain = true)
    (hfuel : chain.length ≤ fuel)
    (hprops : ∀ cl ∈ chain, ∀ x ∈ cl.properties,
      (dictGet model.properties x.2.fqname).isSome = true)
    (hmany : 2 ≤ (idEntries model c.properties).length) :
    resolve_class_inherit model c fuel =
      .ok (some (spec_referenceable chain, (idEntries model c.properties).getLast?)) := by
  simp only [chainFromB, Bool.and_eq_true, decide_eq_true_eq] at hchain
  obtain ⟨⟨hhead, hsteps⟩, hlast⟩ := hchain
  unfold resolve_class_inherit
  rw [walk_chain model chain c fuel none none hhead hsteps hlast hfuel hprops]
  have hchain_id : chainIdOpt model chain = (idEntries model c.properties).getLast? := by
    cases chain with
    | nil => cases hhead
    | cons c₀ rest =>
      have hc₀ : c₀ = c := by simpa using hhead
      subst hc₀
      simp only [chainIdOpt, scan_total_eq_getLast, Option.or_none]
      cases hg : (idEntries model c₀.properties).getLast? with
      | none =>
        rw [List.getLast?_eq_none_iff] at hg
        rw [hg] at hmany
        simp at hmany
      | some v => rfl
  rw [hchain_id]
  simp [spec_referenceable]

/-- C10 witness: a class declaring IdProperties "first" then "second"
resolves its identifying-property name to "second". -/
theorem C10_last_id_property_wins_witness :
    resolve_class_inherit twoIdModel clsTwoIds 2 = .ok (some ("optional", some "second")) := by
  rw [C10_last_id_property_wins twoIdModel clsTwoIds [clsTwoIds] 2 (by decide) (by decide)
    (by decide) (by decide)]
  rfl

/-! ## C9: termination of the inheritance walk -/

lemma dictGet_mem_values {α : Type} :
    ∀ (d : List (String × α)) (k : String) (v : α), dictGet d k = some v →
    v ∈ d.map (fun y => y.2) := by
  intro d
  induction d with
  | nil => intro k v h; cases h
  | cons x rest ih =>
    intro k v h
    obtain ⟨xk, xv⟩ := x
    simp only [dictGet] at h
    by_cases he : xk = k
    · rw [if_pos he] at h
      injection h with h
      simp [h]
    · rw [if_neg he] at h
      simp only [List.map_cons, List.mem_cons]
      exact Or.inr (ih k v h)

lemma get_parent_mem (model : Model) (x p : SPClass)
    (h : get_parent x model = .ok (some p)) :
    p ∈ model.classes.map (fun y => y.2) := by
  unfold get_parent at h
  split at h
  · cases h
  · split at h
    · rename_i q hq
      injection h with h
      injection h with h
      rw [← h]
      exact dictGet_mem_values _ _ _ hq
    · cases h

lemma iterParentE_mem (model : Model) (c : SPClass)
    (hc : c ∈ model.classes.map (fun y => y.2)) :
    ∀ n x, iterParentE model c n = .ok (some x) → x ∈ model.classes.map (fun y => y.2) := by
  intro n
  induction n with
  | zero =>
    intro x h
    simp only [iterParentE] at h
    injection h with h
    injection h with h
    rwa [← h]
  | succ n ih =>
    intro x h
    simp only [iterParentE] at h
    cases hi : iterParentE model c n with
    | error e => rw [hi] at h; cases h
    | ok o =>
      cases o with
      | none => rw [hi] at h; cases h
      | some p => rw [hi] at h; exact get_parent_mem model p x h

lemma iterParentE_no_error (model : Model) (c : SPClass)
    (hc : c ∈ model.classes.map (fun y => y.2))
    (hpv : ∀ p ∈ model.classes.map (fun y => y.2), ∃ r, get_parent p model = .ok r) :
    ∀ n, ∃ o, iterParentE model c n = .ok o := by
  intro n
  induction n with
  | zero => exact ⟨some c, rfl⟩
  | succ n ih =>
    obtain ⟨o, ho⟩ := ih
    cases o with
    | none => exact ⟨none, by simp [iterParentE, ho]⟩
    | some p =>
      obtain ⟨r, hr⟩ := hpv p (iterParentE_mem model c hc n p ho)
      exact ⟨r, by simp [iterParentE, ho, hr]⟩

/-- Pigeonhole: an acyclic walk inside a finite class table reaches a
class with no parent within #classes steps. -/
lemma iter_reaches_none (model : Model) (c : SPClass)
    (hc : c ∈ model.classes.map (fun y => y.2))
    (hpv : ∀ p ∈ model.classes.map (fun y => y.2), ∃ r, get_parent p model = .ok r)
    (hacyc : ∀ m n x, m < n → iterParentE model c m = .ok (some x) →
      iterParentE model c n ≠ .ok (some x)) :
    ∃ n, n ≤ model.classes.length ∧ iterParentE model c n = .ok none := by
  by_contra hno
  push_neg at hno
  have hsome : ∀ k : Fin (model.classes.length + 1),
      ∃ x, iterParentE model c k.1 = .ok (some x) := by
    intro k
    obtain ⟨o, ho⟩ := iterParentE_no_error model c hc hpv k.1
    cases o with
    | none => exact absurd ho (hno k.1 (Nat.lt_succ_iff.mp k.2))
    | some x => exact ⟨x, ho⟩
  choose f hf using hsome
  have hinj : Function.Injective f := by
    intro a b hab
    by_contra hne
    rcases Nat.lt_or_ge a.1 b.1 with hlt | hge
    · exact hacyc a.1 b.1 (f a) hlt (hf a) (hab ▸ hf b)
    · have hlt : b.1 < a.1 := by
        rcases Nat.lt_or_ge b.1 a.1 with h | h
        · exact h
        · exact absurd (Fin.ext (Nat.le_antisymm h hge)) hne
      exact hacyc b.1 a.1 (f b) hlt (hf b) (hab ▸ hf a)
  have hnodup : ((List.finRange (model.classes.length + 1)).map f).Nodup :=
    (List.nodup_finRange _).map hinj
  have hsub : ((List.finRange (model.classes.length + 1)).map f) ⊆
      model.classes.map (fun y => y.2) := by
    intro y hy
    obtain ⟨k, _, rfl⟩ := List.mem_map.mp hy
    exact iterParentE_mem model c hc k.1 (f k) (hf k)
  have hle := (hnodup.subperm hsub).length_le
  simp only [List.length_map, List.length_finRange] at hle
  omega

/-- The step-indexed iterate unfolds from the front. -/
lemma iterParentE_succ_front (model : Model) :
    ∀ n c, iterParentE model c (n + 1) =
      (match get_parent c model with
       | .error e => .error e
       | .ok none => .ok none
       | .ok (some p) => iterParentE model p n) := by
  intro n
  induction n with
  | zero =>
    intro c
    simp only [iterParentE]
    cases get_parent c model with
    | error e => rfl
    | ok o => cases o <;> rfl
  | succ n ih =>
    intro c
    have hstep : iterParentE model c (n + 1 + 1) =
        (match iterParentE model c (n + 1) with
         | .error e => .error e
         | .ok none => .ok none
         | .ok (some p) => get_parent p model) := rfl
    rw [hstep, ih c]
    cases hg : get_parent c model with
    | error e => rfl
    | ok o =>
      cases o with
      | none => rfl
      | some p => rfl

/-- A walk whose iterate reaches none yields a concrete chain. -/
lemma chain_of_iter_none (model : Model) :
    ∀ k c, iterParentE model c k = .ok none →
    ∃ chain, chainFromB model c chain = true ∧ chain.length ≤ k := by
  intro k
  induction k with
  | zero => intro c h; cases h
  | succ k ih =>
    intro c h
    rw [iterParentE_succ_front] at h
    cases hg : get_parent c model with
    | error e => rw [hg] at h; cases h
    | ok o =>
      cases o with
      | none =>
        refine ⟨[c], ?_, by simp⟩
        simp [chainFromB, stepsToB, lastNoParentB, isOkNone, hg]
      | some p =>
        rw [hg] at h
        obtain ⟨chain, hch, hlen⟩ := ih p h
        cases chain with
        | nil => simp [chainFromB] at hch
        | cons p₀ tail =>
          simp only [chainFromB, Bool.and_eq_true, decide_eq_true_eq] at hch
          obtain ⟨⟨hh, hs⟩, hl⟩ := hch
          have hp₀ : p₀ = p := by simpa using hh
          subst hp₀
          refine ⟨c :: p₀ :: tail, ?_, by simpa using Nat.succ_le_succ hlen⟩
          simp only [chainFromB, Bool.and_eq_true, decide_eq_true_eq]
          refine ⟨⟨by simp, ?_⟩, ?_⟩
          · simp only [stepsToB, Bool.and_eq_true]
            exact ⟨by simp [isOkSome, hg], hs⟩
          · simpa only [lastNoParentB] using hl

/-- Along a finite chain the walker never exhausts its fuel: it either
completes or surfaces a lookup error, but never loops. -/
lemma walk_no_exhaust (model : Model) :
    ∀ chain c fuel r i, chain.head? = some c → stepsToB model chain = true →
    lastNoParentB model chain = true → chain.length ≤ fuel →
    walk_inherit model fuel (some c) r i ≠ .ok none := by
  intro chain
  induction chain with
  | nil => intro c fuel r i h; cases h
  | cons c₀ rest ih =>
    intro c fuel r i hhead hsteps hlast hfuel
    have hc₀ : c₀ = c := by simpa using hhead
    subst hc₀
    cases fuel with
    | zero => simp at hfuel
    | succ f =>
      cases hsc : (if i.isNone && !c₀.properties.isEmpty then
          scan_id_property model c₀.properties i else .ok i) with
      | error e =>
        simp only [walk_inherit, hsc]
        intro hcontra; cases hcontra
      | ok idp =>
        cases rest with
        | nil =>
          have hgp : get_parent c₀ model = .ok none := by
            simp only [lastNoParentB] at hlast
            cases hg : get_parent c₀ model with
            | error e => rw [hg] at hlast; cases hlast
            | ok o =>
              cases o with
              | none => rfl
              | some _ => rw [hg] at hlast; cases hlast
          simp only [walk_inherit, hsc, hgp]
          intro hcontra; cases hcontra
        | cons c₁ rest₁ =>
          simp only [stepsToB, Bool.and_eq_true] at hsteps
          obtain ⟨hok, hsteps₁⟩ := hsteps
          have hgp : get_parent c₀ model = .ok (some c₁) := by
            cases hg : get_parent c₀ model with
            | error e => rw [hg] at hok; cases hok
            | ok o =>
              cases o with
              | none => rw [hg] at hok; cases hok
              | some q =>
                rw [hg] at hok
                simp only [isOkSome, decide_eq_true_eq] at hok
                rw [hok]
          simp only [walk_inherit, hsc, hgp]
          exact ih c₁ f _ _ rfl hsteps₁
            (by simpa only [lastNoParentB] using hlast) (by simpa using hfuel)

/-- C9.  For a class of the model whose parent references all resolve
and whose parent iteration never revisits a class (no SubclassOf
cycle), the inheritance walk terminates: a finite chain ending at the
first class with no parent exists, and the walker (at the fuel
gen_rdf_ontology uses) never exhausts it. -/
theorem C9_walk_termination (model : Model) (fq : String) (c : SPClass)
    (hc : (fq, c) ∈ model.classes)
    (hparents : ∀ x ∈ model.classes, ∃ r, get_parent x.2 model = .ok r)
    (hacyc : ∀ m n x, m < n → iterParentE model c m = .ok (some x) →
      iterParentE model c n ≠ .ok (some x)) :
    ∃ chain, chainFromB model c chain = true ∧
      chain.length ≤ model.classes.length ∧
      ∀ r i, walk_inherit model (model.classes.length + 1) (some c) r i ≠ .ok none := by
  have hcv : c ∈ model.classes.map (fun y => y.2) := List.mem_map.mpr ⟨(fq, c), hc, rfl⟩
  have hpv : ∀ p ∈ model.classes.map (fun y => y.2), ∃ r, get_parent p model = .ok r := by
    intro p hp
    obtain ⟨x, hx, rfl⟩ := List.mem_map.mp hp
    exact hparents x hx
  obtain ⟨n, hn, hnone⟩ := iter_reaches_none model c hcv hpv hacyc
  obtain ⟨chain, hch, hlen⟩ := chain_of_iter_none model n c hnone
  refine ⟨chain, hch, hlen.trans hn, ?_⟩
  intro r i
  simp only [chainFromB, Bool.and_eq_true, decide_eq_true_eq] at hch
  obtain ⟨⟨hh, hs⟩, hl⟩ := hch
  exact walk_no_exhaust model chain c _ r i hh hs hl
    ((hlen.trans hn).trans (Nat.le_succ _))

/-- C9 witness: in Scenario A the hypotheses hold for Person and the
walk terminates. -/
theorem C9_walk_termination_witness :
    ∃ chain, chainFromB scenarioA clsPerson chain = true ∧
      chain.length ≤ scenarioA.classes.length ∧
      ∀ r i, walk_inherit scenarioA (scenarioA.classes.length + 1)
        (some clsPerson) r i ≠ .ok none := by
  have habs : ∀ k, iterParentE scenarioA clsPerson (k + 2) = .ok none := by
    intro k
    induction k with
    | zero => rfl
    | succ k ih =>
      have hstep : iterParentE scenarioA clsPerson (k + 2 + 1) =
          (match iterParentE scenarioA clsPerson (k + 2) with
           | .error e => .error e
           | .ok none => .ok none
           | .ok (some p) => get_parent p scenarioA) := rfl
      rw [hstep, ih]
  refine C9_walk_termination scenarioA "/Core/Person" clsPerson (by decide) ?_ ?_
  · intro x hx
    simp only [scenarioA, List.mem_cons, List.not_mem_nil, or_false] at hx
    rcases hx with h | h
    · subst h; exact ⟨none, rfl⟩
    · subst h; exact ⟨some clsAgent, rfl⟩
  · intro m n x hmn hm hn
    match n, hn with
    | 1, hn =>
      have hm0 : m = 0 := by omega
      subst hm0
      have h1 : iterParentE scenarioA clsPerson 0 = .ok (some clsPerson) := rfl
      rw [h1] at hm
      injection hm with hm
      injection hm with hm
      have h2 : iterParentE scenarioA clsPerson 1 = .ok (some clsAgent) := rfl
      rw [h2] at hn
      injection hn with hn
      injection hn with hn
      rw [← hm] at hn
      exact absurd hn (by decide)
    | (k + 2), hn =>
      rw [habs k] at hn
      cases hn

/-! ## C8: the Reference Resolver -/

/-- C8.  The resolver returns strings with a leading slash unchanged
and prefixes all others with slash, namespace, slash; a colon-bearing
reference is never namespace-resolved (the shape typename keeps it
verbatim) and the property section routes it to the XSD Range Mapper,
whose outcome is the only range statement and the only diagnostics. -/
theorem C8_reference_resolver :
    (∀ s ns, pyStartsWith s "/" = true → resolve_ref s ns = s) ∧
    (∀ s ns, pyStartsWith s "/" = false → resolve_ref s ns = "/" ++ ns ++ "/" ++ s) ∧
    (∀ prop : SPProperty, pyContains prop.range ':' = true →
      shape_typename prop = prop.range) ∧
    (∀ (model : Model) (p : SPProperty) T D, pyContains p.range ':' = true →
      p.nature ≠ "IdProperty" → property_triples model p = .ok (T, D) →
      T.filter (fun t => t.2.1 = tRDFS_range) =
        (match (xsd_range p.range p.name).1 with
         | some tm => [(Term.uri p.iri, tRDFS_range, tm)]
         | none => []) ∧
      D = (xsd_range p.range p.name).2) := by
  refine ⟨?_, ?_, ?_, ?_⟩
  · intro s ns h
    simp [resolve_ref, h]
  · intro s ns h
    simp [resolve_ref, h, String.append_assoc]
  · intro prop h
    simp [shape_typename, h]
  · intro model p T D hcolon hnat hok
    unfold property_triples at hok
    rw [if_neg hnat, if_pos hcolon] at hok
    cases hx : xsd_range p.range p.name with
    | mk t d =>
      rw [hx] at hok
      simp only at hok
      injection hok with hok
      injection hok with hT hD
      subst hT
      subst hD
      refine ⟨?_, rfl⟩
      cases hsum : pyTruthy p.summary <;>
      cases t <;>
      by_cases ho : p.nature = "ObjectProperty" <;>
      by_cases hd2 : p.nature = "DataProperty" <;>
      simp +decide [ho, hd2, List.filter_append]

/-- C8 witness: absolute and relative references, a colon-bearing shape
typename, and the routed range statement of Core/str (Range
xsd:string). -/
theorem C8_reference_resolver_witness :
    resolve_ref "/Core/Agent" "Software" = "/Core/Agent" ∧
    resolve_ref "Agent" "Software" = "/Software/Agent" ∧
    shape_typename propDataStr = "xsd:string" ∧
    ∃ T D, property_triples emptyModel propDataStr = .ok (T, D) ∧
      T.filter (fun t => t.2.1 = tRDFS_range) =
        [(Term.uri "https://rdf.spdx.org/v3/Core/str", tRDFS_range,
          Term.uri "http://www.w3.org/2001/XMLSchema#string")] ∧
      D = [] := by
  refine ⟨C8_reference_resolver.1 "/Core/Agent" "Software" (by decide), ?_,
    C8_reference_resolver.2.2.1 propDataStr (by decide), ?_⟩
  · rw [C8_reference_resolver.2.1 "Agent" "Software" (by decide)]
    decide
  · obtain ⟨T, D, hok⟩ : ∃ T D, property_triples emptyModel propDataStr = .ok (T, D) := by
      exact ⟨_, _, rfl⟩
    obtain ⟨h1, h2⟩ := C8_reference_resolver.2.2.2 emptyModel propDataStr T D
      (by decide) (by decide) hok
    refine ⟨T, D, hok, ?_, ?_⟩
    · rw [h1]; decide
    · rw [h2]; decide

/-! ## C4: cardinality constraints in property shapes -/

/-- Every triple of the range-constraint part of a shape uses one of
the predicates sh:class, sh:pattern, sh:datatype. -/
lemma rng_triples_shape (model : Model) (bnode : Term) (prop : SPProperty) :
    ∀ t ∈ (rng_triples model bnode prop).1,
      t.1 = bnode ∧ (t.2.1 = tSH_class ∨ t.2.1 = tSH_pattern ∨ t.2.1 = tSH_datatype) := by
  intro t ht
  unfold rng_triples at ht
  dsimp only at ht
  cases h1 : dictGet model.classes (shape_typename prop) with
  | some dt => rw [h1] at ht; simp at ht; subst ht; simp
  | none =>
    rw [h1] at ht
    cases h2 : dictGet model.vocabularies (shape_typename prop) with
    | some dt => rw [h2] at ht; simp at ht; subst ht; simp
    | none =>
      rw [h2] at ht
      cases h3 : dictGet model.datatypes (shape_typename prop) with
      | some dt =>
        rw [h3] at ht
        dsimp only at ht
        cases hfp : dt.formatPattern with
        | some pat =>
          rw [hfp] at ht
          cases hx : (xsd_range dt.subclassOf prop.iri).1 with
          | some tm =>
            rw [hx] at ht
            simp at ht
            rcases ht with ht | ht <;> subst ht <;> simp
          | none => rw [hx] at ht; simp at ht; subst ht; simp
        | none =>
          rw [hfp] at ht
          cases hx : (xsd_range dt.subclassOf prop.iri).1 with
          | some tm => rw [hx] at ht; simp at ht; subst ht; simp
          | none => rw [hx] at ht; simp at ht
      | none =>
        rw [h3] at ht
        cases hx : (xsd_range (shape_typename prop) prop.iri).1 with
        | some tm => rw [hx] at ht; simp at ht; subst ht; simp
        | none => rw [hx] at ht; simp at ht

/-- C4.  In every emitted property shape: the minimum-count constraint
is present iff the declared minCount is a nonzero integer, the
maximum-count constraint is present iff the declared maxCount is not
the unbounded marker, and each carries the declared value. -/
theorem C4_min_max_counts (model : Model) (node : Term) (ctr : Nat) (pr : PropRef)
    (prop : SPProperty) (hlookup : dictGet model.properties pr.fqname = some prop)
    (hnat : prop.nature ≠ "IdProperty")
    (T : List Triple) (D : List String) (ctr₂ : Nat)
    (hok : shape_prop model node ctr pr = .ok (T, D, ctr₂)) :
    (∃ mc, pyInt? pr.minCount = some mc ∧
      T.filter (fun t => t.2.1 = tSH_minCount) =
        (if mc ≠ 0 then [(Term.blank ctr, tSH_minCount, Term.litInt mc)] else [])) ∧
    (if pr.maxCount = "*" then T.filter (fun t => t.2.1 = tSH_maxCount) = []
     else ∃ mx, pyInt? pr.maxCount = some mx ∧
       T.filter (fun t => t.2.1 = tSH_maxCount) =
         [(Term.blank ctr, tSH_maxCount, Term.litInt mx)]) := by
  unfold shape_prop at hok
  simp only [dictGetE, hlookup] at hok
  rw [if_neg hnat] at hok
  cases hrng : rng_triples model (Term.blank ctr) prop with
  | mk rngT rngD =>
    rw [hrng] at hok
    have hrngmin : rngT.filter (fun t => t.2.1 = tSH_minCount) = [] := by
      rw [List.filter_eq_nil_iff]
      intro a ha
      have := (rng_triples_shape model (Term.blank ctr) prop a (by rw [hrng]; exact ha)).2
      rcases this with h | h | h <;> simp +decide [h]
    have hrngmax : rngT.filter (fun t => t.2.1 = tSH_maxCount) = [] := by
      rw [List.filter_eq_nil_iff]
      intro a ha
      have := (rng_triples_shape model (Term.blank ctr) prop a (by rw [hrng]; exact ha)).2
      rcases this with h | h | h <;> simp +decide [h]
    cases hmc : pyInt? pr.minCount with
    | none => simp only [pyIntE, hmc] at hok; cases hok
    | some mc =>
      simp only [pyIntE, hmc] at hok
      by_cases hmax : pr.maxCount = "*"
      · rw [if_neg (by simp [hmax])] at hok
        injection hok with hok
        injection hok with hT hrest
        subst hT
        rw [if_pos hmax]
        refine ⟨⟨mc, rfl, ?_⟩, ?_⟩ <;>
        · by_cases hmc0 : mc = 0 <;>
          simp +decide [List.filter_append, hrngmin, hrngmax, hmc0]
      · rw [if_pos (by simp [hmax])] at hok
        cases hmx : pyInt? pr.maxCount with
        | none => simp only [pyIntE, hmx] at hok; cases hok
        | some mx =>
          simp only [pyIntE, hmx] at hok
          injection hok with hok
          injection hok with hT hrest
          subst hT
          rw [if_neg hmax]
          refine ⟨⟨mc, rfl, ?_⟩, mx, rfl, ?_⟩ <;>
          · by_cases hmc0 : mc = 0 <;>
            simp +decide [List.filter_append, hrngmin, hrngmax, hmc0]

/-- C4 witness: a shape with minCount "2" and unbounded maxCount gets
exactly one sh:minCount (value 2) and no sh:maxCount. -/
theorem C4_min_max_counts_witness :
    ∃ T D c₂, shape_prop strModel (Term.uri "https://rdf.spdx.org/v3/Core/S") 0
        ⟨"/Core/str", "2", "*"⟩ = .ok (T, D, c₂) ∧
      T.filter (fun t => t.2.1 = tSH_minCount) =
        [(Term.blank 0, tSH_minCount, Term.litInt 2)] ∧
      T.filter (fun t => t.2.1 = tSH_maxCount) = [] := by
  obtain ⟨T, D, c₂, hok⟩ : ∃ T D c₂,
      shape_prop strModel (Term.uri "https://rdf.spdx.org/v3/Core/S") 0
        ⟨"/Core/str", "2", "*"⟩ = .ok (T, D, c₂) := ⟨_, _, _, rfl⟩
  obtain ⟨⟨mc, hmc, hfmin⟩, hfmax⟩ := C4_min_max_counts strModel
    (Term.uri "https://rdf.spdx.org/v3/Core/S") 0 ⟨"/Core/str", "2", "*"⟩ propDataStr
    (by decide) (by decide) T D c₂ hok
  have hmc2 : mc = 2 := by
    rw [show pyInt? "2" = some 2 from by decide] at hmc
    injection hmc with h
    exact h.symm
  subst hmc2
  rw [if_pos rfl] at hfmax
  rw [if_pos (by decide)] at hfmin
  exact ⟨T, D, c₂, hok, hfmin, hfmax⟩

/-! ## C5: unrecognized primitive ranges -/

/-- C5 counterexample: for Core/color with Range xsd:hue the built
graph DOES contain a range statement (XMLSchema#hue) and NO diagnostic
is logged, contrary to the claim. -/
theorem C5_counterexample :
    (Term.uri "https://rdf.spdx.org/v3/Core/color", tRDFS_range,
      Term.uri "http://www.w3.org/2001/XMLSchema#hue") ∈ genGraph c5model ∧
    genDiags c5model = [] := by decide

/-- C5 amended.  xsd_range checks only the namespace marker: any
colon-bearing range starting with "xsd:" yields a range statement for
XMLSchema#suffix (whether or not the suffix names a real datatype) and
no diagnostic; a colon-bearing range with any other marker yields no
range statement and exactly one diagnostic, and construction continues
(the property section still returns successfully). -/
theorem C5_unknown_range_amended (model : Model) (p : SPProperty)
    (hcolon : pyContains p.range ':' = true) (hnat : p.nature ≠ "IdProperty") :
    ∃ T D, property_triples model p = .ok (T, D) ∧
      (pyStartsWith p.range "xsd:" = true →
        T.filter (fun t => t.2.1 = tRDFS_range) =
          [(Term.uri p.iri, tRDFS_range,
            Term.uri (XSD_BASE ++ String.mk (p.range.data.drop 4)))] ∧ D = []) ∧
      (pyStartsWith p.range "xsd:" = false →
        T.filter (fun t => t.2.1 = tRDFS_range) = [] ∧
        D = ["Uknown namespace in range <" ++ p.range ++ "> of property " ++ p.name]) := by
  unfold property_triples
  rw [if_neg hnat, if_pos hcolon]
  by_cases hx : pyStartsWith p.range "xsd:" = true
  · have hxr : xsd_range p.range p.name =
        (some (Term.uri (XSD_BASE ++ String.mk (p.range.data.drop 4))), []) := by
      unfold xsd_range; rw [if_pos hx]
    rw [hxr]
    dsimp only
    refine ⟨_, _, rfl, ?_, ?_⟩
    · intro _
      refine ⟨?_, rfl⟩
      cases pyTruthy p.summary <;>
      by_cases ho : p.nature = "ObjectProperty" <;>
      by_cases hd2 : p.nature = "DataProperty" <;>
      simp +decide [ho, hd2, List.filter_append]
    · intro hc
      rw [hx] at hc
      cases hc
  · have hx' : pyStartsWith p.range "xsd:" = false := by
      cases hb : pyStartsWith p.range "xsd:" with
      | true => exact absurd hb hx
      | false => rfl
    have hxr : xsd_range p.range p.name =
        (none, ["Uknown namespace in range <" ++ p.range ++ "> of property " ++ p.name]) := by
      unfold xsd_range; rw [if_neg (by rw [hx']; exact fun h => Bool.noConfusion h)]
    rw [hxr]
    dsimp only
    refine ⟨_, _, rfl, ?_, ?_⟩
    · intro hc
      rw [hx'] at hc
      cases hc
    · intro _
      refine ⟨?_, rfl⟩
      cases pyTruthy p.summary <;>
      by_cases ho : p.nature = "ObjectProperty" <;>
      by_cases hd2 : p.nature = "DataProperty" <;>
      simp +decide [ho, hd2, List.filter_append]

/-- C5 amended witness: the xsd:hue range emits XMLSchema#hue with no
diagnostic; the foo:hue range emits nothing with one diagnostic. -/
theorem C5_unknown_range_amended_witness :
    (∃ T D, property_triples c5model propColor = .ok (T, D) ∧
      T.filter (fun t => t.2.1 = tRDFS_range) =
        [(Term.uri "https://rdf.spdx.org/v3/Core/color", tRDFS_range,
          Term.uri "http://www.w3.org/2001/XMLSchema#hue")] ∧ D = []) ∧
    (∃ T D, property_triples c5model propWeird = .ok (T, D) ∧
      T.filter (fun t => t.2.1 = tRDFS_range) = [] ∧
      D = ["Uknown namespace in range <foo:hue> of property weird"]) := by
  constructor
  · obtain ⟨T, D, hok, hxsd, _⟩ :=
      C5_unknown_range_amended c5model propColor (by decide) (by decide)
    obtain ⟨hf, hD⟩ := hxsd (by decide)
    exact ⟨T, D, hok, by rw [hf]; decide, hD⟩
  · obtain ⟨T, D, hok, _, hun⟩ :=
      C5_unknown_range_amended c5model propWeird (by decide) (by decide)
    obtain ⟨hf, hD⟩ := hun (by decide)
    exact ⟨T, D, hok, hf, by rw [hD]; decide⟩

/-! ## Backbone: every emitted triple matches its section's form -/

lemma mem_joinMap {α β : Type} (f : α → List β) :
    ∀ (l : List α) (b : β), b ∈ joinMap f l ↔ ∃ a ∈ l, b ∈ f a := by
  intro l b
  induction l with
  | nil => simp [joinMap]
  | cons x rest ih => simp [joinMap, ih, List.mem_append]

lemma shape_prop_form (model : Model) (node : Term) (ctr : Nat) (pr : PropRef)
    (T : List Triple) (D : List String) (ctr₂ : Nat)
    (hok : shape_prop model node ctr pr = .ok (T, D, ctr₂)) :
    ∀ t ∈ T, ∃ prop, dictGet model.properties pr.fqname = some prop ∧
      prop.nature ≠ "IdProperty" ∧
      (t = (node, tSH_property, Term.blank ctr) ∨
       t = (Term.blank ctr, tSH_path, Term.uri prop.iri) ∨
       ((∃ k, t.1 = Term.blank k) ∧
        (t.2.1 = tSH_class ∨ t.2.1 = tSH_pattern ∨ t.2.1 = tSH_datatype ∨
         t.2.1 = tSH_minCount ∨ t.2.1 = tSH_maxCount))) := by
  unfold shape_prop at hok
  cases hl : dictGet model.properties pr.fqname with
  | none => simp only [dictGetE, hl] at hok; cases hok
  | some prop =>
    simp only [dictGetE, hl] at hok
    by_cases hnat : prop.nature = "IdProperty"
    · rw [if_pos hnat] at hok
      injection hok with hok
      injection hok with hT hrest
      subst hT
      intro t ht
      cases ht
    · rw [if_neg hnat] at hok
      cases hrng : rng_triples model (Term.blank ctr) prop with
      | mk rngT rngD =>
        rw [hrng] at hok
        cases hmc : pyInt? pr.minCount with
        | none => simp only [pyIntE, hmc] at hok; cases hok
        | some mc =>
          simp only [pyIntE, hmc] at hok
          have hrngok : ∀ t ∈ rngT, (∃ k, t.1 = Term.blank k) ∧
              (t.2.1 = tSH_class ∨ t.2.1 = tSH_pattern ∨ t.2.1 = tSH_datatype ∨
               t.2.1 = tSH_minCount ∨ t.2.1 = tSH_maxCount) := by
            intro t ht
            have := rng_triples_shape model (Term.blank ctr) prop t (by rw [hrng]; exact ht)
            exact ⟨⟨ctr, this.1⟩, by tauto⟩
          have hminok : ∀ t, t ∈ (if mc ≠ 0 then
              [(Term.blank ctr, tSH_minCount, Term.litInt mc)] else []) →
              (∃ k, t.1 = Term.blank k) ∧
              (t.2.1 = tSH_class ∨ t.2.1 = tSH_pattern ∨ t.2.1 = tSH_datatype ∨
               t.2.1 = tSH_minCount ∨ t.2.1 = tSH_maxCount) := by
            intro t ht
            by_cases hmc0 : mc ≠ 0
            · rw [if_pos hmc0] at ht
              simp only [List.mem_singleton] at ht
              subst ht
              exact ⟨⟨ctr, rfl⟩, by simp⟩
            · rw [if_neg hmc0] at ht
              exact absurd ht (List.not_mem_nil t)
          by_cases hmax : pr.maxCount ≠ "*"
          · rw [if_pos hmax] at hok
            cases hmx : pyInt? pr.maxCount with
            | none => simp only [pyIntE, hmx] at hok; cases hok
            | some mx =>
              simp only [pyIntE, hmx] at hok
              injection hok with hok
              injection hok with hT hrest
              subst hT
              intro t ht
              refine ⟨prop, rfl, hnat, ?_⟩
              simp only [List.cons_append, List.nil_append, List.mem_cons,
                List.mem_append, List.mem_singleton, List.not_mem_nil, or_false,
                or_assoc] at ht
              rcases ht with ht | ht | ht | ht | ht
              · exact Or.inl ht
              · exact Or.inr (Or.inl ht)
              · exact Or.inr (Or.inr (hrngok t ht))
              · exact Or.inr (Or.inr (hminok t ht))
              · subst ht
                exact Or.inr (Or.inr ⟨⟨ctr, rfl⟩, by simp⟩)
          · rw [if_neg hmax] at hok
            injection hok with hok
            injection hok with hT hrest
            subst hT
            intro t ht
            refine ⟨prop, rfl, hnat, ?_⟩
            simp only [List.cons_append, List.nil_append, List.mem_cons,
              List.mem_append, List.mem_singleton, List.not_mem_nil, or_false,
              or_assoc] at ht
            rcases ht with ht | ht | ht | ht
            · exact Or.inl ht
            · exact Or.inr (Or.inl ht)
            · exact Or.inr (Or.inr (hrngok t ht))
            · exact Or.inr (Or.inr (hminok t ht))

lemma shape_props_form (model : Model) (node : Term) :
    ∀ (props : List (String × PropRef)) (ctr : Nat) (T : List Triple)
      (D : List String) (ctr₂ : Nat),
    shape_props model node ctr props = .ok (T, D, ctr₂) →
    ∀ t ∈ T, ∃ nm pr prop, (nm, pr) ∈ props ∧
      dictGet model.properties pr.fqname = some prop ∧ prop.nature ≠ "IdProperty" ∧
      ((∃ k, t = (node, tSH_property, Term.blank k)) ∨
       (∃ k, t = (Term.blank k, tSH_path, Term.uri prop.iri)) ∨
       ((∃ k, t.1 = Term.blank k) ∧
        (t.2.1 = tSH_class ∨ t.2.1 = tSH_pattern ∨ t.2.1 = tSH_datatype ∨
         t.2.1 = tSH_minCount ∨ t.2.1 = tSH_maxCount))) := by
  intro props
  induction props with
  | nil =>
    intro ctr T D ctr₂ hok t ht
    injection hok with hok
    injection hok with hT hrest
    subst hT
    cases ht
  | cons x rest ih =>
    intro ctr T D ctr₂ hok t ht
    obtain ⟨nm, pr⟩ := x
    unfold shape_props at hok
    cases h1 : shape_prop model node ctr pr with
    | error e => rw [h1] at hok; cases hok
    | ok r1 =>
      obtain ⟨T1, D1, c1⟩ := r1
      rw [h1] at hok
      dsimp only at hok
      cases h2 : shape_props model node c1 rest with
      | error e => rw [h2] at hok; cases hok
      | ok r2 =>
        obtain ⟨T2, D2, c2⟩ := r2
        rw [h2] at hok
        injection hok with hok
        injection hok with hT hrest
        subst hT
        rcases List.mem_append.mp ht with ht1 | ht2
        · obtain ⟨prop, hl, hnat, hform⟩ := shape_prop_form model node ctr pr T1 D1 c1 h1 t ht1
          refine ⟨nm, pr, prop, by simp, hl, hnat, ?_⟩
          rcases hform with h | h | h
          · exact Or.inl ⟨ctr, h⟩
          · exact Or.inr (Or.inl ⟨ctr, h⟩)
          · exact Or.inr (Or.inr h)
        · obtain ⟨nm2, pr2, prop, hmem, hl, hnat, hform⟩ := ih c1 T2 D2 c2 h2 t ht2
          exact ⟨nm2, pr2, prop, List.mem_cons_of_mem _ hmem, hl, hnat, hform⟩

lemma class_triples_form (model : Model) (c : SPClass) (ctr : Nat)
    (T : List Triple) (D : List String) (ctr₂ : Nat)
    (hok : class_triples model c ctr = .ok (T, D, ctr₂)) :
    ∀ t ∈ T, ClassTripleForm model c t := by
  have h_t1 : ∀ t ∈ (match pyTruthy c.summary with
      | some s => [(Term.uri c.iri, tRDFS_comment, Term.litLang s "en")]
      | none => ([] : List Triple)),
      ∃ s, t = (Term.uri c.iri, tRDFS_comment, Term.litLang s "en") := by
    intro t ht
    cases h : pyTruthy c.summary with
    | some s => rw [h] at ht; simp only [List.mem_singleton] at ht; exact ⟨s, ht⟩
    | none => rw [h] at ht; simp at ht
  have h_t3 : ∀ (idp : Option String) t,
      t ∈ (match idp with
      | some n => [(Term.uri c.iri, tSPDXS_idPropertyName, Term.lit n)]
      | none => ([] : List Triple)) →
      ∃ v, t = (Term.uri c.iri, tSPDXS_idPropertyName, Term.lit v) := by
    intro idp t ht
    cases idp with
    | some n => simp only [List.mem_singleton] at ht; exact ⟨n, ht⟩
    | none => simp at ht
  unfold class_triples at hok
  cases hgp : get_parent c model with
  | error e => rw [hgp] at hok; cases hok
  | ok parentRes =>
    rw [hgp] at hok
    dsimp only at hok
    have h_t2 : ∀ t ∈ (match parentRes with
        | some p => [(Term.uri c.iri, tRDFS_subClassOf, Term.uri p.iri)]
        | none => ([] : List Triple)),
        ∃ i, t = (Term.uri c.iri, tRDFS_subClassOf, Term.uri i) := by
      intro t ht
      cases parentRes with
      | some p => simp only [List.mem_singleton] at ht; exact ⟨p.iri, ht⟩
      | none => simp at ht
    cases hri : resolve_class_inherit model c (model.classes.length + 1) with
    | error e => rw [hri] at hok; cases hok
    | ok res =>
      rw [hri] at hok
      cases res with
      | none => cases hok
      | some rp =>
        obtain ⟨refble, idp⟩ := rp
        cases hpe : c.properties.isEmpty with
        | true =>
          rw [hpe] at hok
          injection hok with hok
          injection hok with hT hrest
          subst hT
          intro t ht
          simp only [List.cons_append, List.nil_append, List.mem_cons,
            List.mem_append, List.not_mem_nil, or_false, or_assoc] at ht
          rcases ht with ht | ht | ht | ht | ht | ht
          · exact Or.inl ht
          · exact Or.inr (Or.inl ht)
          · obtain ⟨s, hs⟩ := h_t1 t ht
            exact Or.inr (Or.inr (Or.inr (Or.inl ⟨s, hs⟩)))
          · obtain ⟨i, hi⟩ := h_t2 t ht
            exact Or.inr (Or.inr (Or.inr (Or.inr (Or.inl ⟨i, hi⟩))))
          · exact Or.inr (Or.inr (Or.inr (Or.inr (Or.inr (Or.inl ⟨refble, ht⟩)))))
          · obtain ⟨v, hv⟩ := h_t3 idp t ht
            exact Or.inr (Or.inr (Or.inr (Or.inr (Or.inr (Or.inr (Or.inl ⟨v, hv⟩))))))
        | false =>
          rw [hpe] at hok
          cases hsp : shape_props model (Term.uri c.iri) ctr c.properties with
          | error e => rw [hsp] at hok; cases hok
          | ok r =>
            obtain ⟨ts, ds, ctr₁⟩ := r
            rw [hsp] at hok
            dsimp only at hok
            injection hok with hok
            injection hok with hT hrest
            subst hT
            have hne : c.properties ≠ [] := by
              intro h
              rw [h] at hpe
              cases hpe
            intro t ht
            simp only [List.cons_append, List.nil_append, List.mem_cons,
              List.mem_append, List.not_mem_nil, or_false, or_assoc] at ht
            rcases ht with ht | ht | ht | ht | ht | ht | ht | ht
            · exact Or.inl ht
            · exact Or.inr (Or.inl ht)
            · obtain ⟨s, hs⟩ := h_t1 t ht
              exact Or.inr (Or.inr (Or.inr (Or.inl ⟨s, hs⟩)))
            · obtain ⟨i, hi⟩ := h_t2 t ht
              exact Or.inr (Or.inr (Or.inr (Or.inr (Or.inl ⟨i, hi⟩))))
            · exact Or.inr (Or.inr (Or.inr (Or.inr (Or.inr (Or.inl ⟨refble, ht⟩)))))
            · obtain ⟨v, hv⟩ := h_t3 idp t ht
              exact Or.inr (Or.inr (Or.inr (Or.inr (Or.inr (Or.inr (Or.inl ⟨v, hv⟩))))))
            · exact Or.inr (Or.inr (Or.inl ⟨ht, hne⟩))
            · obtain ⟨nm, pr, prop, hmem, hl, hnat, hform⟩ :=
                shape_props_form model (Term.uri c.iri) c.properties ctr ts ds ctr₁ hsp t ht
              rcases hform with ⟨k, hk⟩ | ⟨k, hk⟩ | hk
              · exact Or.inr (Or.inr (Or.inr (Or.inr (Or.inr (Or.inr (Or.inr
                  (Or.inl ⟨k, hk⟩)))))))
              · exact Or.inr (Or.inr (Or.inr (Or.inr (Or.inr (Or.inr (Or.inr
                  (Or.inr ⟨pr, prop, ⟨nm, hmem⟩, hl, hnat, Or.inl ⟨k, hk⟩⟩)))))))
              · exact Or.inr (Or.inr (Or.inr (Or.inr (Or.inr (Or.inr (Or.inr
                  (Or.inr ⟨pr, prop, ⟨nm, hmem⟩, hl, hnat, Or.inr hk⟩)))))))

lemma classes_triples_form (model : Model) :
    ∀ (cs : List (String × SPClass)) (ctr : Nat) (T : List Triple)
      (D : List String) (ctr₂ : Nat),
    classes_triples model ctr cs = .ok (T, D, ctr₂) →
    ∀ t ∈ T, ∃ x ∈ cs, ClassTripleForm model x.2 t := by
  intro cs
  induction cs with
  | nil =>
    intro ctr T D ctr₂ hok t ht
    injection hok with hok
    injection hok with hT hrest
    subst hT
    cases ht
  | cons x rest ih =>
    intro ctr T D ctr₂ hok t ht
    obtain ⟨nm, c⟩ := x
    unfold classes_triples at hok
    cases h1 : class_triples model c ctr with
    | error e => rw [h1] at hok; cases hok
    | ok r1 =>
      obtain ⟨T1, D1, c1⟩ := r1
      rw [h1] at hok
      dsimp only at hok
      cases h2 : classes_triples model c1 rest with
      | error e => rw [h2] at hok; cases hok
      | ok r2 =>
        obtain ⟨T2, D2, c2⟩ := r2
        rw [h2] at hok
        injection hok with hok
        injection hok with hT hrest
        subst hT
        rcases List.mem_append.mp ht with ht1 | ht2
        · exact ⟨(nm, c), by simp, class_triples_form model c ctr T1 D1 c1 h1 t ht1⟩
        · obtain ⟨y, hy, hf⟩ := ih c1 T2 D2 c2 h2 t ht2
          exact ⟨y, List.mem_cons_of_mem _ hy, hf⟩

lemma property_triples_form (model : Model) (p : SPProperty)
    (T : List Triple) (D : List String)
    (hok : property_triples model p = .ok (T, D)) :
    ∀ t ∈ T, PropTripleForm p t := by
  unfold property_triples at hok
  by_cases hnat : p.nature = "IdProperty"
  · rw [if_pos hnat] at hok
    injection hok with hok
    injection hok with hT hrest
    subst hT
    intro t ht
    cases ht
  · rw [if_neg hnat] at hok
    have h_t1 : ∀ t ∈ (match pyTruthy p.summary with
        | some s => [(Term.uri p.iri, tRDFS_comment, Term.litLang s "en")]
        | none => ([] : List Triple)),
        ∃ s, t = (Term.uri p.iri, tRDFS_comment, Term.litLang s "en") := by
      intro t ht
      cases h : pyTruthy p.summary with
      | some s => rw [h] at ht; simp only [List.mem_singleton] at ht; exact ⟨s, ht⟩
      | none => rw [h] at ht; simp at ht
    have h_t2 : ∀ t, t ∈ (if p.nature = "ObjectProperty" then
          [(Term.uri p.iri, tRDF_type, tOWL_ObjectProperty)]
        else if p.nature = "DataProperty" then
          [(Term.uri p.iri, tRDF_type, tOWL_DatatypeProperty)]
        else []) →
        t = (Term.uri p.iri, tRDF_type, tOWL_ObjectProperty) ∨
        t = (Term.uri p.iri, tRDF_type, tOWL_DatatypeProperty) := by
      intro t ht
      by_cases ho : p.nature = "ObjectProperty"
      · rw [if_pos ho] at ht
        simp only [List.mem_singleton] at ht
        exact Or.inl ht
      · rw [if_neg ho] at ht
        by_cases hd2 : p.nature = "DataProperty"
        · rw [if_pos hd2] at ht
          simp only [List.mem_singleton] at ht
          exact Or.inr ht
        · rw [if_neg hd2] at ht
          exact absurd ht (List.not_mem_nil t)
    have h_rng : ∀ (o : Option Term) (t : Triple), t ∈ ((match o with
        | some tm => [(Term.uri p.iri, tRDFS_range, tm)]
        | none => []) : List Triple) →
        ∃ ob, t = (Term.uri p.iri, tRDFS_range, ob) := by
      intro o t ht
      cases o with
      | some tm => simp only [List.mem_singleton] at ht; exact ⟨tm, ht⟩
      | none => simp at ht
    have hfin : ∀ (rngpart : List Triple),
        (∀ t ∈ rngpart, ∃ ob, t = (Term.uri p.iri, tRDFS_range, ob)) →
        ∀ t, t ∈ ([(Term.uri p.iri, tRDF_type, tRDF_Property)] ++
          (match pyTruthy p.summary with
           | some s => [(Term.uri p.iri, tRDFS_comment, Term.litLang s "en")]
           | none => ([] : List Triple)) ++
          (if p.nature = "ObjectProperty" then
            [(Term.uri p.iri, tRDF_type, tOWL_ObjectProperty)]
          else if p.nature = "DataProperty" then
            [(Term.uri p.iri, tRDF_type, tOWL_DatatypeProperty)]
          else []) ++ rngpart) → PropTripleForm p t := by
      intro rngpart hrp t ht
      simp only [List.cons_append, List.nil_append, List.mem_cons,
        List.mem_append, or_assoc] at ht
      rcases ht with ht | ht | ht | ht
      · exact ⟨hnat, Or.inl ht⟩
      · obtain ⟨s, hs⟩ := h_t1 t ht
        exact ⟨hnat, Or.inr (Or.inl ⟨s, hs⟩)⟩
      · rcases h_t2 t ht with h | h
        · exact ⟨hnat, Or.inr (Or.inr (Or.inl h))⟩
        · exact ⟨hnat, Or.inr (Or.inr (Or.inr (Or.inl h)))⟩
      · obtain ⟨ob, hob⟩ := hrp t ht
        exact ⟨hnat, Or.inr (Or.inr (Or.inr (Or.inr ⟨ob, hob⟩)))⟩
    by_cases hcolon : pyContains p.range ':' = true
    · rw [if_pos hcolon] at hok
      cases hx : xsd_range p.range p.name with
      | mk tOpt dd =>
        rw [hx] at hok
        dsimp only at hok
        injection hok with hok
        injection hok with hT hrest
        subst hT
        exact hfin _ (h_rng tOpt)
    · rw [if_neg hcolon] at hok
      dsimp only at hok
      cases hdt : dictGet model.datatypes (resolve_ref p.range p.ns.name) with
      | some dt =>
        rw [hdt] at hok
        dsimp only at hok
        cases hx : xsd_range dt.subclassOf p.name with
        | mk tOpt dd =>
          rw [hx] at hok
          dsimp only at hok
          injection hok with hok
          injection hok with hT hrest
          subst hT
          exact hfin _ (h_rng tOpt)
      | none =>
        rw [hdt] at hok
        dsimp only at hok
        cases hti : dictGet model.types (resolve_ref p.range p.ns.name) with
        | none => simp only [dictGetE, hti] at hok; cases hok
        | some iri =>
          simp only [dictGetE, hti] at hok
          injection hok with hok
          injection hok with hT hrest
          subst hT
          refine hfin _ ?_
          intro t ht
          simp only [List.mem_singleton] at ht
          exact ⟨Term.uri iri, ht⟩

lemma properties_triples_form (model : Model) :
    ∀ (ps : List (String × SPProperty)) (T : List Triple) (D : List String),
    properties_triples model ps = .ok (T, D) →
    ∀ t ∈ T, ∃ x ∈ ps, PropTripleForm x.2 t := by
  intro ps
  induction ps with
  | nil =>
    intro T D hok t ht
    injection hok with hok
    injection hok with hT hrest
    subst hT
    cases ht
  | cons x rest ih =>
    intro T D hok t ht
    obtain ⟨nm, p⟩ := x
    unfold properties_triples at hok
    cases h1 : property_triples model p with
    | error e => rw [h1] at hok; cases hok
    | ok r1 =>
      obtain ⟨T1, D1⟩ := r1
      rw [h1] at hok
      dsimp only at hok
      cases h2 : properties_triples model rest with
      | error e => rw [h2] at hok; cases hok
      | ok r2 =>
        obtain ⟨T2, D2⟩ := r2
        rw [h2] at hok
        injection hok with hok
        injection hok with hT hrest
        subst hT
        rcases List.mem_append.mp ht with ht1 | ht2
        · exact ⟨(nm, p), by simp, property_triples_form model p T1 D1 h1 t ht1⟩
        · obtain ⟨y, hy, hf⟩ := ih T2 D2 h2 t ht2
          exact ⟨y, List.mem_cons_of_mem _ hy, hf⟩

lemma vocab_triples_form (v : SPVocab) :
    ∀ t ∈ vocab_triples v, VocabTripleForm v t := by
  intro t ht
  unfold vocab_triples at ht
  simp only [List.cons_append, List.nil_append, List.mem_cons, List.mem_append,
    or_assoc] at ht
  rcases ht with ht | ht | ht | ht
  · exact Or.inl ht
  · exact Or.inr (Or.inl ht)
  · cases h : pyTruthy v.summary with
    | some s =>
      rw [h] at ht
      simp only [List.mem_singleton] at ht
      exact Or.inr (Or.inr (Or.inl ⟨s, ht⟩))
    | none => rw [h] at ht; simp at ht
  · obtain ⟨e, he, hte⟩ := (mem_joinMap _ v.entries t).mp ht
    obtain ⟨en, de⟩ := e
    unfold entry_triples at hte
    simp only [List.mem_cons, List.not_mem_nil, or_false] at hte
    rcases hte with h | h | h | h
    · exact Or.inr (Or.inr (Or.inr (Or.inl ⟨en, h⟩)))
    · exact Or.inr (Or.inr (Or.inr (Or.inr (Or.inl ⟨en, h⟩))))
    · exact Or.inr (Or.inr (Or.inr (Or.inr (Or.inr (Or.inl ⟨en, h⟩)))))
    · exact Or.inr (Or.inr (Or.inr (Or.inr (Or.inr (Or.inr ⟨en, de, h⟩)))))

lemma vocabs_triples_form (vs : List (String × SPVocab)) :
    ∀ t ∈ vocabs_triples vs, ∃ x ∈ vs, VocabTripleForm x.2 t := by
  intro t ht
  obtain ⟨x, hx, hform⟩ := (mem_joinMap _ vs t).mp ht
  exact ⟨x, hx, vocab_triples_form x.2 t hform⟩

lemma individual_triples_form (model : Model) (i : SPIndividual)
    (T : List Triple) (hok : individual_triples model i = .ok T) :
    ∀ t ∈ T, IndivTripleForm i t := by
  unfold individual_triples at hok
  cases hti : dictGet model.types (resolve_ref i.typeRef i.ns.name) with
  | none => simp only [dictGetE, hti] at hok; cases hok
  | some iri =>
    simp only [dictGetE, hti] at hok
    injection hok with hT
    subst hT
    intro t ht
    simp only [List.cons_append, List.nil_append, List.mem_cons, List.mem_append,
      or_assoc] at ht
    rcases ht with ht | ht | ht | ht
    · exact Or.inl ht
    · cases h : pyTruthy i.summary with
      | some s =>
        rw [h] at ht
        simp only [List.mem_singleton] at ht
        exact Or.inr (Or.inl ⟨s, ht⟩)
      | none => rw [h] at ht; simp at ht
    · exact Or.inr (Or.inr (Or.inl ⟨Term.uri iri, ht⟩))
    · cases h : pyTruthy i.customIri with
      | some ci =>
        rw [h] at ht
        simp at ht
        exact Or.inr (Or.inr (Or.inr ⟨Term.uri ci, ht⟩))
      | none => rw [h] at ht; simp at ht

lemma individuals_triples_form (model : Model) :
    ∀ (is_ : List (String × SPIndividual)) (T : List Triple),
    individuals_triples model is_ = .ok T →
    ∀ t ∈ T, ∃ x ∈ is_, IndivTripleForm x.2 t := by
  intro is_
  induction is_ with
  | nil =>
    intro T hok t ht
    injection hok with hT
    subst hT
    cases ht
  | cons x rest ih =>
    intro T hok t ht
    obtain ⟨nm, i⟩ := x
    unfold individuals_triples at hok
    cases h1 : individual_triples model i with
    | error e => rw [h1] at hok; cases hok
    | ok T1 =>
      rw [h1] at hok
      dsimp only at hok
      cases h2 : individuals_triples model rest with
      | error e => rw [h2] at hok; cases hok
      | ok T2 =>
        rw [h2] at hok
        injection hok with hT
        subst hT
        rcases List.mem_append.mp ht with ht1 | ht2
        · exact ⟨(nm, i), by simp, individual_triples_form model i T1 h1 t ht1⟩
        · obtain ⟨y, hy, hf⟩ := ih T2 h2 t ht2
          exact ⟨y, List.mem_cons_of_mem _ hy, hf⟩

/-- Backbone: every triple of the built graph matches one of the
section forms. -/
lemma gen_form (model : Model) (g : List Triple) (d : List String)
    (hok : gen_rdf_ontology model = .ok (g, d)) :
    ∀ t ∈ g, GenTripleForm model t := by
  unfold gen_rdf_ontology at hok
  cases hc : classes_triples model 0 model.classes with
  | error e => rw [hc] at hok; cases hok
  | ok rc =>
    obtain ⟨Tc, Dc, cc⟩ := rc
    rw [hc] at hok
    dsimp only at hok
    cases hp : properties_triples model model.properties with
    | error e => rw [hp] at hok; cases hok
    | ok rp =>
      obtain ⟨Tp, Dp⟩ := rp
      rw [hp] at hok
      dsimp only at hok
      cases hi : individuals_triples model model.individuals with
      | error e => rw [hi] at hok; cases hok
      | ok Ti =>
        rw [hi] at hok
        injection hok with hok
        injection hok with hg hd
        subst hg
        intro t ht
        simp only [List.cons_append, List.nil_append, List.mem_cons,
          List.mem_append, or_assoc] at ht
        rcases ht with ht | ht | ht | ht | ht | ht
        · exact Or.inl ht
        · exact Or.inr (Or.inl ht)
        · obtain ⟨x, hx, hf⟩ := classes_triples_form model model.classes 0 Tc Dc cc hc t ht
          exact Or.inr (Or.inr (Or.inl ⟨x, hx, hf⟩))
        · obtain ⟨x, hx, hf⟩ := properties_triples_form model model.properties Tp Dp hp t ht
          exact Or.inr (Or.inr (Or.inr (Or.inl ⟨x, hx, hf⟩)))
        · obtain ⟨x, hx, hf⟩ := vocabs_triples_form model.vocabularies t ht
          exact Or.inr (Or.inr (Or.inr (Or.inr (Or.inl ⟨x, hx, hf⟩))))
        · obtain ⟨x, hx, hf⟩ := individuals_triples_form model model.individuals Ti hi t ht
          exact Or.inr (Or.inr (Or.inr (Or.inr (Or.inr ⟨x, hx, hf⟩))))

/-! ## Positive decomposition of the built graph -/

lemma gen_sections (model : Model) (g : List Triple) (d : List String)
    (hok : gen_rdf_ontology model = .ok (g, d)) :
    ∃ Tc Dc cc Tp Dp Ti,
      classes_triples model 0 model.classes = .ok (Tc, Dc, cc) ∧
      properties_triples model model.properties = .ok (Tp, Dp) ∧
      individuals_triples model model.individuals = .ok Ti ∧
      g = [(Term.uri URI_BASE, tRDF_type, tOWL_Ontology),
           (Term.uri URI_BASE, tOWL_versionIRI, Term.uri URI_BASE)] ++ Tc ++ Tp ++
          vocabs_triples model.vocabularies ++ Ti := by
  unfold gen_rdf_ontology at hok
  cases hc : classes_triples model 0 model.classes with
  | error e => rw [hc] at hok; cases hok
  | ok rc =>
    obtain ⟨Tc, Dc, cc⟩ := rc
    rw [hc] at hok
    dsimp only at hok
    cases hp : properties_triples model model.properties with
    | error e => rw [hp] at hok; cases hok
    | ok rp =>
      obtain ⟨Tp, Dp⟩ := rp
      rw [hp] at hok
      dsimp only at hok
      cases hi : individuals_triples model model.individuals with
      | error e => rw [hi] at hok; cases hok
      | ok Ti =>
        rw [hi] at hok
        injection hok with hok
        injection hok with hg hd
        subst hg
        exact ⟨Tc, Dc, cc, Tp, Dp, Ti, rfl, rfl, rfl, by simp⟩

lemma classes_triples_sub (model : Model) :
    ∀ (cs : List (String × SPClass)) (ctr : Nat) (T : List Triple)
      (D : List String) (ctr₂ : Nat),
    classes_triples model ctr cs = .ok (T, D, ctr₂) →
    ∀ x ∈ cs, ∃ ctr0 T0 D0 ctr1, class_triples model x.2 ctr0 = .ok (T0, D0, ctr1) ∧
      ∀ t ∈ T0, t ∈ T := by
  intro cs
  induction cs with
  | nil => intro ctr T D ctr₂ _ x hx; cases hx
  | cons y rest ih =>
    intro ctr T D ctr₂ hok x hx
    obtain ⟨nm, c⟩ := y
    unfold classes_triples at hok
    cases h1 : class_triples model c ctr with
    | error e => rw [h1] at hok; cases hok
    | ok r1 =>
      obtain ⟨T1, D1, c1⟩ := r1
      rw [h1] at hok
      dsimp only at hok
      cases h2 : classes_triples model c1 rest with
      | error e => rw [h2] at hok; cases hok
      | ok r2 =>
        obtain ⟨T2, D2, c2⟩ := r2
        rw [h2] at hok
        injection hok with hok
        injection hok with hT hrest
        subst hT
        rcases List.mem_cons.mp hx with hx1 | hx2
        · subst hx1
          exact ⟨ctr, T1, D1, c1, h1, fun t ht => List.mem_append.mpr (Or.inl ht)⟩
        · obtain ⟨ctr0, T0, D0, ctr1, hok0, hsub⟩ := ih c1 T2 D2 c2 h2 x hx2
          exact ⟨ctr0, T0, D0, ctr1, hok0,
            fun t ht => List.mem_append.mpr (Or.inr (hsub t ht))⟩

lemma class_triples_nodeshape (model : Model) (c : SPClass) (ctr : Nat)
    (T : List Triple) (D : List String) (ctr₂ : Nat)
    (hok : class_triples model c ctr = .ok (T, D, ctr₂))
    (hne : c.properties ≠ []) :
    (Term.uri c.iri, tRDF_type, tSH_NodeShape) ∈ T := by
  unfold class_triples at hok
  cases hgp : get_parent c model with
  | error e => rw [hgp] at hok; cases hok
  | ok parentRes =>
    rw [hgp] at hok
    dsimp only at hok
    cases hri : resolve_class_inherit model c (model.classes.length + 1) with
    | error e => rw [hri] at hok; cases hok
    | ok res =>
      rw [hri] at hok
      cases res with
      | none => cases hok
      | some rp =>
        obtain ⟨refble, idp⟩ := rp
        dsimp only at hok
        have hpe : c.properties.isEmpty = false := by
          cases hcp : c.properties with
          | nil => exact absurd hcp hne
          | cons _ _ => rfl
        rw [hpe] at hok
        cases hsp : shape_props model (Term.uri c.iri) ctr c.properties with
        | error e => rw [hsp] at hok; cases hok
        | ok r =>
          obtain ⟨ts, ds, ctr₁⟩ := r
          rw [hsp] at hok
          dsimp only at hok
          injection hok with hok
          injection hok with hT hrest
          subst hT
          simp

lemma ClassTripleForm_subject (model : Model) (c : SPClass) (t : Triple)
    (h : ClassTripleForm model c t) :
    t.1 = Term.uri c.iri ∨ ∃ k, t.1 = Term.blank k := by
  rcases h with h | h | ⟨h, _⟩ | ⟨s, h⟩ | ⟨i, h⟩ | ⟨v, h⟩ | ⟨v, h⟩ | ⟨k, h⟩ |
    ⟨pr, prop, _, _, _, ⟨k, h⟩ | ⟨⟨k, h⟩, _⟩⟩
  all_goals first
    | (subst h; exact Or.inl rfl)
    | (subst h; exact Or.inr ⟨k, rfl⟩)
    | exact Or.inr ⟨k, h⟩

/-! ## The per-class property shapes, counted and ordered -/

lemma shape_prop_id (model : Model) (node : Term) (ctr : Nat) (pr : PropRef)
    (prop : SPProperty) (T : List Triple) (D : List String) (ctr₂ : Nat)
    (hok : shape_prop model node ctr pr = .ok (T, D, ctr₂))
    (hl : dictGet model.properties pr.fqname = some prop)
    (hnat : prop.nature = "IdProperty") :
    T = [] ∧ ctr₂ = ctr := by
  unfold shape_prop at hok
  simp only [dictGetE, hl] at hok
  rw [if_pos hnat] at hok
  injection hok with hok
  injection hok with hT hrest
  injection hrest with hD hctr
  exact ⟨hT.symm, hctr.symm⟩

lemma shape_prop_nonid (model : Model) (node : Term) (ctr : Nat) (pr : PropRef)
    (prop : SPProperty) (T : List Triple) (D : List String) (ctr₂ : Nat)
    (hok : shape_prop model node ctr pr = .ok (T, D, ctr₂))
    (hl : dictGet model.properties pr.fqname = some prop)
    (hnat : prop.nature ≠ "IdProperty")
    (hnode : ∀ k, node ≠ Term.blank k) :
    ctr₂ = ctr + 1 ∧
    T.filter (fun t => t.1 = node ∧ t.2.1 = tSH_property) =
      [(node, tSH_property, Term.blank ctr)] ∧
    (Term.blank ctr, tSH_path, Term.uri prop.iri) ∈ T := by
  unfold shape_prop at hok
  simp only [dictGetE, hl] at hok
  rw [if_neg hnat] at hok
  cases hrng : rng_triples model (Term.blank ctr) prop with
  | mk rngT rngD =>
    rw [hrng] at hok
    have hbne : ∀ k, (Term.blank k = node) = False :=
      fun k => eq_false (fun h => hnode k h.symm)
    have hrngf : rngT.filter (fun t => t.1 = node ∧ t.2.1 = tSH_property) = [] := by
      rw [List.filter_eq_nil_iff]
      intro a ha
      have hra := rng_triples_shape model (Term.blank ctr) prop a (by rw [hrng]; exact ha)
      simp [hra.1, hbne ctr]
    cases hmc : pyInt? pr.minCount with
    | none => simp only [pyIntE, hmc] at hok; cases hok
    | some mc =>
      simp only [pyIntE, hmc] at hok
      have hminf : ∀ (l : List Triple), (∀ t ∈ l, t.1 = Term.blank ctr) →
          l.filter (fun t => t.1 = node ∧ t.2.1 = tSH_property) = [] := by
        intro l hl2
        rw [List.filter_eq_nil_iff]
        intro a ha
        simp [hl2 a ha, hbne ctr]
      by_cases hmax : pr.maxCount ≠ "*"
      · rw [if_pos hmax] at hok
        cases hmx : pyInt? pr.maxCount with
        | none => simp only [pyIntE, hmx] at hok; cases hok
        | some mx =>
          simp only [pyIntE, hmx] at hok
          injection hok with hok
          injection hok with hT hrest
          injection hrest with hD hctr
          subst hT
          refine ⟨hctr.symm, ?_, ?_⟩
          · simp only [List.cons_append, List.nil_append, List.filter_cons,
              List.filter_append, hrngf]
            rw [hminf (if mc ≠ 0 then
                [(Term.blank ctr, tSH_minCount, Term.litInt mc)] else [])
              (by intro t ht
                  by_cases h0 : mc ≠ 0
                  · rw [if_pos h0] at ht
                    simp only [List.mem_singleton] at ht
                    subst ht; rfl
                  · rw [if_neg h0] at ht
                    exact absurd ht (List.not_mem_nil t))]
            simp +decide [hbne ctr]
          · simp
      · rw [if_neg hmax] at hok
        injection hok with hok
        injection hok with hT hrest
        injection hrest with hD hctr
        subst hT
        refine ⟨hctr.symm, ?_, ?_⟩
        · simp only [List.cons_append, List.nil_append, List.filter_cons,
            List.filter_append, hrngf]
          rw [hminf (if mc ≠ 0 then
              [(Term.blank ctr, tSH_minCount, Term.litInt mc)] else [])
            (by intro t ht
                by_cases h0 : mc ≠ 0
                · rw [if_pos h0] at ht
                  simp only [List.mem_singleton] at ht
                  subst ht; rfl
                · rw [if_neg h0] at ht
                  exact absurd ht (List.not_mem_nil t))]
          simp +decide [hbne ctr]
        · simp

lemma shape_props_filter (model : Model) (node : Term)
    (hnode : ∀ k, node ≠ Term.blank k) :
    ∀ (props : List (String × PropRef)) (ctr : Nat) (T : List Triple)
      (D : List String) (ctr₂ : Nat),
    shape_props model node ctr props = .ok (T, D, ctr₂) →
    ctr₂ = ctr + (nonIdProps model props).length ∧
    T.filter (fun t => t.1 = node ∧ t.2.1 = tSH_property) =
      (List.range (nonIdProps model props).length).map
        (fun j => (node, tSH_property, Term.blank (ctr + j))) ∧
    ∀ j (hj : j < (nonIdProps model props).length),
      (Term.blank (ctr + j), tSH_path,
        Term.uri ((nonIdProps model props).get ⟨j, hj⟩).iri) ∈ T := by
  intro props
  induction props with
  | nil =>
    intro ctr T D ctr₂ hok
    injection hok with hok
    injection hok with hT hrest
    injection hrest with hD hctr
    refine ⟨by rw [← hctr]; simp [nonIdProps], ?_, ?_⟩
    · rw [← hT]; simp [nonIdProps]
    · intro j hj
      simp [nonIdProps] at hj
  | cons x rest ih =>
    intro ctr T D ctr₂ hok
    obtain ⟨nm, pr⟩ := x
    unfold shape_props at hok
    cases h1 : shape_prop model node ctr pr with
    | error e => rw [h1] at hok; cases hok
    | ok r1 =>
      obtain ⟨T1, D1, c1⟩ := r1
      rw [h1] at hok
      dsimp only at hok
      cases h2 : shape_props model node c1 rest with
      | error e => rw [h2] at hok; cases hok
      | ok r2 =>
        obtain ⟨T2, D2, c2⟩ := r2
        rw [h2] at hok
        injection hok with hok
        injection hok with hT hrest
        injection hrest with hD hctr
        subst hT
        cases hl : dictGet model.properties pr.fqname with
        | none =>
          exfalso
          unfold shape_prop at h1
          simp only [dictGetE, hl] at h1
          cases h1
        | some prop =>
          by_cases hnat : prop.nature = "IdProperty"
          · obtain ⟨hT1, hc1⟩ := shape_prop_id model node ctr pr prop T1 D1 c1 h1 hl hnat
            subst hT1
            obtain ⟨ihc, ihf, ihp⟩ := ih ctr T2 D2 c2 (by rw [← hc1]; exact h2)
            have hnid : nonIdProps model ((nm, pr) :: rest) = nonIdProps model rest := by
              simp [nonIdProps, hl, hnat]
            rw [hnid]
            refine ⟨by rw [← hctr]; exact ihc, by simpa using ihf, ?_⟩
            intro j hj
            simpa using ihp j hj
          · obtain ⟨hc1, hf1, hp1⟩ :=
              shape_prop_nonid model node ctr pr prop T1 D1 c1 h1 hl hnat hnode
            subst hc1
            obtain ⟨ihc, ihf, ihp⟩ := ih (ctr + 1) T2 D2 c2 h2
            have hnid : nonIdProps model ((nm, pr) :: rest) = prop :: nonIdProps model rest := by
              simp [nonIdProps, hl, hnat]
            rw [hnid]
            have harith : ∀ j : Nat, ctr + 1 + j = ctr + (j + 1) := fun j => by omega
            refine ⟨by simp only [List.length_cons]; omega, ?_, ?_⟩
            · simp only [List.length_cons]
              rw [List.filter_append, hf1, ihf, List.range_succ_eq_map, List.map_cons,
                List.map_map]
              simp only [Nat.add_zero, List.cons.injEq, Function.comp, harith]
              rfl
            · intro j hj
              cases j with
              | zero =>
                simp only [List.get, Nat.add_zero]
                exact List.mem_append.mpr (Or.inl hp1)
              | succ jj =>
                have hjj : jj < (nonIdProps model rest).length := by
                  simpa using hj
                have := ihp jj hjj
                rw [harith jj] at this
                exact List.mem_append.mpr (Or.inr this)

lemma filter_shprop_nil (c : SPClass) (l : List Triple)
    (h : ∀ t ∈ l, t.2.1 ≠ tSH_property) :
    l.filter (fun t => t.1 = Term.uri c.iri ∧ t.2.1 = tSH_property) = [] := by
  rw [List.filter_eq_nil_iff]
  intro a ha
  simp [h a ha]

lemma class_triples_filter (model : Model) (c : SPClass) (ctr : Nat)
    (T : List Triple) (D : List String) (ctr₂ : Nat)
    (hok : class_triples model c ctr = .ok (T, D, ctr₂)) :
    T.filter (fun t => t.1 = Term.uri c.iri ∧ t.2.1 = tSH_property) =
      (List.range (nonIdProps model c.properties).length).map
        (fun j => (Term.uri c.iri, tSH_property, Term.blank (ctr + j))) ∧
    ∀ j (hj : j < (nonIdProps model c.properties).length),
      (Term.blank (ctr + j), tSH_path,
        Term.uri ((nonIdProps model c.properties).get ⟨j, hj⟩).iri) ∈ T := by
  have h_t0f := filter_shprop_nil c
    [(Term.uri c.iri, tRDF_type, tRDFS_Class), (Term.uri c.iri, tRDF_type, tOWL_Class)]
    (by intro t ht
        simp only [List.mem_cons, List.not_mem_nil, or_false] at ht
        rcases ht with rfl | rfl <;> simp +decide)
  have h_t1f := filter_shprop_nil c (((match pyTruthy c.summary with
      | some s => [(Term.uri c.iri, tRDFS_comment, Term.litLang s "en")]
      | none => []) : List Triple))
    (by intro t ht
        cases h : pyTruthy c.summary with
        | some s =>
          rw [h] at ht
          simp only [List.mem_singleton] at ht
          subst ht; simp +decide
        | none => rw [h] at ht; simp at ht)
  unfold class_triples at hok
  cases hgp : get_parent c model with
  | error e => rw [hgp] at hok; cases hok
  | ok parentRes =>
    rw [hgp] at hok
    dsimp only at hok
    have h_t2f := filter_shprop_nil c (((match parentRes with
        | some p => [(Term.uri c.iri, tRDFS_subClassOf, Term.uri p.iri)]
        | none => []) : List Triple))
      (by intro t ht
          cases parentRes with
          | some p =>
            simp only [List.mem_singleton] at ht
            subst ht; simp +decide
          | none => simp at ht)
    cases hri : resolve_class_inherit model c (model.classes.length + 1) with
    | error e => rw [hri] at hok; cases hok
    | ok res =>
      rw [hri] at hok
      cases res with
      | none => cases hok
      | some rp =>
        obtain ⟨refble, idp⟩ := rp
        dsimp only at hok
        have h_reff := filter_shprop_nil c
          [(Term.uri c.iri, tSPDXS_referenceable, Term.lit refble)]
          (by intro t ht
              simp only [List.mem_singleton] at ht
              subst ht; simp +decide)
        have h_t3f := filter_shprop_nil c (((match idp with
            | some n => [(Term.uri c.iri, tSPDXS_idPropertyName, Term.lit n)]
            | none => []) : List Triple))
          (by intro t ht
              cases idp with
              | some n =>
                simp only [List.mem_singleton] at ht
                subst ht; simp +decide
              | none => simp at ht)
        cases hpe : c.properties.isEmpty with
        | true =>
          rw [hpe] at hok
          injection hok with hok
          injection hok with hT hrest
          subst hT
          have hcp : c.properties = [] := by
            cases hcp2 : c.properties with
            | nil => rfl
            | cons _ _ => rw [hcp2] at hpe; cases hpe
          rw [hcp]
          refine ⟨?_, ?_⟩
          · simp only [List.filter_append, h_t0f, h_t1f, h_reff,
              List.nil_append, List.append_nil, nonIdProps, List.length_nil,
              List.range_zero, List.map_nil]
            cases parentRes <;> cases idp <;> simp +decide [List.filter]
          · intro j hj
            simp [nonIdProps] at hj
        | false =>
          rw [hpe] at hok
          cases hsp : shape_props model (Term.uri c.iri) ctr c.properties with
          | error e => rw [hsp] at hok; cases hok
          | ok r =>
            obtain ⟨ts, ds, ctr₁⟩ := r
            rw [hsp] at hok
            dsimp only at hok
            injection hok with hok
            injection hok with hT hrest
            subst hT
            obtain ⟨hc2, hf2, hp2⟩ := shape_props_filter model (Term.uri c.iri)
              (fun k => by intro h; cases h) c.properties ctr ts ds ctr₁ hsp
            have h_nsf := filter_shprop_nil c
              [(Term.uri c.iri, tRDF_type, tSH_NodeShape)]
              (by intro t ht
                  simp only [List.mem_singleton] at ht
                  subst ht; simp +decide)
            refine ⟨?_, ?_⟩
            · simp only [List.filter_append, h_t0f, h_t1f, h_reff,
                h_nsf, hf2, List.nil_append]
              cases parentRes <;> cases idp <;> simp +decide [List.filter]
            · intro j hj
              have hmem := hp2 j hj
              rw [List.get_eq_getElem] at hmem
              simp only [List.mem_append]
              exact Or.inr (by simp [List.mem_append, hmem])

lemma classes_triples_filter_zero (model : Model) (c : SPClass)
    (cs : List (String × SPClass)) (ctr : Nat) (T : List Triple)
    (D : List String) (ctr₂ : Nat)
    (hok : classes_triples model ctr cs = .ok (T, D, ctr₂))
    (hne : ∀ x ∈ cs, x.2.iri ≠ c.iri) :
    T.filter (fun t => t.1 = Term.uri c.iri ∧ t.2.1 = tSH_property) = [] := by
  rw [List.filter_eq_nil_iff]
  intro a ha
  obtain ⟨x, hx, hf⟩ := classes_triples_form model cs ctr T D ctr₂ hok a ha
  rcases ClassTripleForm_subject model x.2 a hf with h | ⟨k, h⟩
  · simp only [h, decide_eq_true_eq, not_and, Term.uri.injEq]
    intro hiri
    exact absurd hiri.symm (by simpa using fun hh => hne x hx hh.symm)
  · simp [h]

lemma classes_triples_filter_unique (model : Model) (c : SPClass) :
    ∀ (cs : List (String × SPClass)) (ctr : Nat) (T : List Triple)
      (D : List String) (ctr₂ : Nat),
    classes_triples model ctr cs = .ok (T, D, ctr₂) →
    (∀ x ∈ cs, x.2.iri = c.iri → x.2 = c) →
    cs.countP (fun x => decide (x.2.iri = c.iri)) = 1 →
    ∃ ctr0,
      T.filter (fun t => t.1 = Term.uri c.iri ∧ t.2.1 = tSH_property) =
        (List.range (nonIdProps model c.properties).length).map
          (fun j => (Term.uri c.iri, tSH_property, Term.blank (ctr0 + j))) ∧
      ∀ j (hj : j < (nonIdProps model c.properties).length),
        (Term.blank (ctr0 + j), tSH_path,
          Term.uri ((nonIdProps model c.properties).get ⟨j, hj⟩).iri) ∈ T := by
  intro cs
  induction cs with
  | nil =>
    intro ctr T D ctr₂ _ _ hcount
    simp [List.countP, List.countP.go] at hcount
  | cons y rest ih =>
    intro ctr T D ctr₂ hok huniq hcount
    obtain ⟨nm, x⟩ := y
    unfold classes_triples at hok
    cases h1 : class_triples model x ctr with
    | error e => rw [h1] at hok; cases hok
    | ok r1 =>
      obtain ⟨T1, D1, c1⟩ := r1
      rw [h1] at hok
      dsimp only at hok
      cases h2 : classes_triples model c1 rest with
      | error e => rw [h2] at hok; cases hok
      | ok r2 =>
        obtain ⟨T2, D2, c2⟩ := r2
        rw [h2] at hok
        injection hok with hok
        injection hok with hT hrest
        subst hT
        by_cases hx : x.iri = c.iri
        · have hxc : x = c := huniq (nm, x) (by simp) hx
          subst hxc
          have hrest0 : rest.countP (fun z => decide (z.2.iri = x.iri)) = 0 := by
            rw [List.countP_cons, if_pos (by simp)] at hcount
            omega
          have hne : ∀ z ∈ rest, z.2.iri ≠ x.iri := by
            intro z hz
            have := List.countP_eq_zero.mp hrest0 z hz
            simpa using this
          obtain ⟨hf1, hp1⟩ := class_triples_filter model x ctr T1 D1 c1 h1
          refine ⟨ctr, ?_, ?_⟩
          · rw [List.filter_append, hf1,
              classes_triples_filter_zero model x rest c1 T2 D2 c2 h2 hne]
            simp
          · intro j hj
            exact List.mem_append.mpr (Or.inl (hp1 j hj))
        · have hf1 : T1.filter (fun t => t.1 = Term.uri c.iri ∧ t.2.1 = tSH_property)
              = [] := by
            rw [List.filter_eq_nil_iff]
            intro a ha
            have hform := class_triples_form model x ctr T1 D1 c1 h1 a ha
            rcases ClassTripleForm_subject model x a hform with h | ⟨k, h⟩
            · simp only [h, decide_eq_true_eq, not_and, Term.uri.injEq]
              intro hiri
              exact absurd hiri.symm (by simpa using fun hh => hx hh.symm)
            · simp [h]
          have hcount2 : rest.countP (fun z => decide (z.2.iri = c.iri)) = 1 := by
            rw [List.countP_cons, if_neg (by simp [hx])] at hcount
            omega
          obtain ⟨ctr0, hfr, hpr⟩ := ih c1 T2 D2 c2 h2
            (fun z hz => huniq z (List.mem_cons_of_mem _ hz)) hcount2
          refine ⟨ctr0, ?_, ?_⟩
          · rw [List.filter_append, hf1, hfr]
            simp
          · intro j hj
            exact List.mem_append.mpr (Or.inr (hpr j hj))

/-! ## No other section emits node-shape or property-shape triples -/

lemma PropTripleForm_no_nodeshape (p : SPProperty) (c : SPClass)
    (h : PropTripleForm p (Term.uri c.iri, tRDF_type, tSH_NodeShape)) : False := by
  obtain ⟨-, h⟩ := h
  rcases h with h | ⟨x, h⟩ | h | h | ⟨o, h⟩ <;> simp +decide [Prod.ext_iff] at h

lemma VocabTripleForm_no_nodeshape (v : SPVocab) (c : SPClass)
    (hv : Term.uri v.iri ≠ tSH_NodeShape)
    (h : VocabTripleForm v (Term.uri c.iri, tRDF_type, tSH_NodeShape)) : False := by
  rcases h with h | h | ⟨s, h⟩ | ⟨e, h⟩ | ⟨e, h⟩ | ⟨e, h⟩ | ⟨e, d2, h⟩
  · simp +decide [Prod.ext_iff] at h
  · simp +decide [Prod.ext_iff] at h
  · simp +decide [Prod.ext_iff] at h
  · simp +decide [Prod.ext_iff] at h
  · have h3 : tSH_NodeShape = Term.uri v.iri := congrArg (fun t => t.2.2) h
    exact hv h3.symm
  · simp +decide [Prod.ext_iff] at h
  · simp +decide [Prod.ext_iff] at h

lemma IndivTripleForm_no_nodeshape (i : SPIndividual) (c : SPClass)
    (h : IndivTripleForm i (Term.uri c.iri, tRDF_type, tSH_NodeShape)) : False := by
  rcases h with h | ⟨s, h⟩ | ⟨o, h⟩ | ⟨o, h⟩ <;> simp +decide [Prod.ext_iff] at h

lemma PropTripleForm_no_shprop (p : SPProperty) (t : Triple)
    (h : PropTripleForm p t) : t.2.1 ≠ tSH_property := by
  obtain ⟨-, h⟩ := h
  rcases h with h | ⟨x, h⟩ | h | h | ⟨o, h⟩ <;> subst h <;> simp +decide

lemma VocabTripleForm_no_shprop (v : SPVocab) (t : Triple)
    (h : VocabTripleForm v t) : t.2.1 ≠ tSH_property := by
  rcases h with h | h | ⟨s, h⟩ | ⟨e, h⟩ | ⟨e, h⟩ | ⟨e, h⟩ | ⟨e, d2, h⟩ <;>
    subst h <;> simp +decide

lemma IndivTripleForm_no_shprop (i : SPIndividual) (t : Triple)
    (h : IndivTripleForm i t) : t.2.1 ≠ tSH_property := by
  rcases h with h | ⟨s, h⟩ | ⟨o, h⟩ | ⟨o, h⟩ <;> subst h <;> simp +decide

lemma ClassTripleForm_nodeshape_inv (model : Model) (x c : SPClass)
    (h : ClassTripleForm model x (Term.uri c.iri, tRDF_type, tSH_NodeShape)) :
    x.iri = c.iri ∧ x.properties ≠ [] := by
  rcases h with h | h | ⟨h, hne⟩ | ⟨s, h⟩ | ⟨i, h⟩ | ⟨v, h⟩ | ⟨v, h⟩ | ⟨k, h⟩ |
    ⟨pr, prop, hh1, hh2, hh3, ⟨k, h⟩ | ⟨⟨k, h⟩, hh4⟩⟩
  · simp +decide [Prod.ext_iff] at h
  · simp +decide [Prod.ext_iff] at h
  · have h1 : Term.uri c.iri = Term.uri x.iri := congrArg (fun t => t.1) h
    exact ⟨(Term.uri.injEq _ _ ▸ h1 : c.iri = x.iri).symm, hne⟩
  · simp +decide [Prod.ext_iff] at h
  · simp +decide [Prod.ext_iff] at h
  · simp +decide [Prod.ext_iff] at h
  · simp +decide [Prod.ext_iff] at h
  · simp +decide [Prod.ext_iff] at h
  · simp +decide [Prod.ext_iff] at h
  · simp at h

/-- C2 counterexample: Core/Agent declares only the IdProperty-natured
property name, so it has no non-identifying property, yet the built
graph still marks it sh:NodeShape — the node-shape marker tracks
"declares any property at all", not "declares a non-identifying one". -/
theorem C2_counterexample :
    (Term.uri "https://rdf.spdx.org/v3/Core/Agent", tRDF_type, tSH_NodeShape)
      ∈ genGraph scenarioA ∧
    nonIdProps scenarioA clsAgent.properties = [] := by decide

/-- C2 amended.  A class node is marked sh:NodeShape iff the class
declares at least one property (identifying properties included, contra
the claim); its emitted property shapes are exactly one per declared
NON-identifying property, in declaration order, each carrying that
property's canonical IRI as its sh:path. -/
theorem C2_node_shape_amended (model : Model) (g : List Triple) (d : List String)
    (fq : String) (c : SPClass)
    (hok : gen_rdf_ontology model = .ok (g, d))
    (hmem : (fq, c) ∈ model.classes)
    (huniq : ∀ x ∈ model.classes, x.2.iri = c.iri → x.2 = c)
    (hcount : model.classes.countP (fun x => x.2.iri = c.iri) = 1)
    (hv : ∀ x ∈ model.vocabularies, Term.uri x.2.iri ≠ tSH_NodeShape) :
    ((Term.uri c.iri, tRDF_type, tSH_NodeShape) ∈ g ↔ c.properties ≠ []) ∧
    ∃ ctr0,
      g.filter (fun t => t.1 = Term.uri c.iri ∧ t.2.1 = tSH_property) =
        (List.range (nonIdProps model c.properties).length).map
          (fun j => (Term.uri c.iri, tSH_property, Term.blank (ctr0 + j))) ∧
      ∀ j (hj : j < (nonIdProps model c.properties).length),
        (Term.blank (ctr0 + j), tSH_path,
          Term.uri ((nonIdProps model c.properties).get ⟨j, hj⟩).iri) ∈ g := by
  obtain ⟨Tc, Dc, cc, Tp, Dp, Ti, hc, hp, hi, hg⟩ := gen_sections model g d hok
  refine ⟨⟨?_, ?_⟩, ?_⟩
  · intro htr
    rw [hg] at htr
    simp only [List.cons_append, List.nil_append, List.mem_cons, List.mem_append,
      or_assoc] at htr
    rcases htr with h0 | h0 | htc | htp | htv | hti2
    · exact absurd h0 (by simp +decide [Prod.ext_iff])
    · exact absurd h0 (by simp +decide [Prod.ext_iff])
    · obtain ⟨x, hx, hform⟩ :=
        classes_triples_form model model.classes 0 Tc Dc cc hc _ htc
      obtain ⟨hiri, hne⟩ := ClassTripleForm_nodeshape_inv model x.2 c hform
      rw [huniq x hx hiri] at hne
      exact hne
    · obtain ⟨x, hx, hform⟩ :=
        properties_triples_form model model.properties Tp Dp hp _ htp
      exact absurd hform (fun hh => PropTripleForm_no_nodeshape x.2 c hh)
    · obtain ⟨x, hx, hform⟩ := vocabs_triples_form model.vocabularies _ htv
      exact absurd hform (fun hh => VocabTripleForm_no_nodeshape x.2 c (hv x hx) hh)
    · obtain ⟨x, hx, hform⟩ :=
        individuals_triples_form model model.individuals Ti hi _ hti2
      exact absurd hform (fun hh => IndivTripleForm_no_nodeshape x.2 c hh)
  · intro hne
    obtain ⟨ctr0, T0, D0, ctr1, hok0, hsub⟩ :=
      classes_triples_sub model model.classes 0 Tc Dc cc hc (fq, c) hmem
    have hmemTc : (Term.uri c.iri, tRDF_type, tSH_NodeShape) ∈ Tc :=
      hsub _ (class_triples_nodeshape model c ctr0 T0 D0 ctr1 hok0 hne)
    rw [hg]
    simp only [List.cons_append, List.nil_append, List.mem_cons, List.mem_append]
    tauto
  · obtain ⟨ctr0, hfilt, hpath⟩ := classes_triples_filter_unique model c
      model.classes 0 Tc Dc cc hc huniq hcount
    have hTpf : Tp.filter (fun t => t.1 = Term.uri c.iri ∧ t.2.1 = tSH_property)
        = [] := by
      rw [List.filter_eq_nil_iff]
      intro a ha
      obtain ⟨x, hx, hform⟩ :=
        properties_triples_form model model.properties Tp Dp hp a ha
      have := PropTripleForm_no_shprop x.2 a hform
      simp [this]
    have hTvf : (vocabs_triples model.vocabularies).filter
        (fun t => t.1 = Term.uri c.iri ∧ t.2.1 = tSH_property) = [] := by
      rw [List.filter_eq_nil_iff]
      intro a ha
      obtain ⟨x, hx, hform⟩ := vocabs_triples_form model.vocabularies a ha
      have := VocabTripleForm_no_shprop x.2 a hform
      simp [this]
    have hTif : Ti.filter (fun t => t.1 = Term.uri c.iri ∧ t.2.1 = tSH_property)
        = [] := by
      rw [List.filter_eq_nil_iff]
      intro a ha
      obtain ⟨x, hx, hform⟩ :=
        individuals_triples_form model model.individuals Ti hi a ha
      have := IndivTripleForm_no_shprop x.2 a hform
      simp [this]
    refine ⟨ctr0, ?_, ?_⟩
    · rw [hg]
      simp only [List.cons_append, List.nil_append, List.filter_append,
        List.filter_cons, List.filter_nil, hfilt, hTpf, hTvf, hTif]
      simp +decide [List.filter]
    · intro j hj
      have hmemTc := hpath j hj
      rw [hg]
      simp only [List.cons_append, List.nil_append, List.mem_cons, List.mem_append]
      tauto

/-- C2 amended witness: Core/Item with the single non-identifying
property str is marked sh:NodeShape and gets exactly one property
shape whose sh:path is the str IRI. -/
theorem C2_node_shape_amended_witness :
    (("/Core/Item", clsItem) ∈ c2model.classes) ∧
    (((Term.uri clsItem.iri, tRDF_type, tSH_NodeShape) ∈ genGraph c2model ↔
        clsItem.properties ≠ []) ∧
      ∃ ctr0,
        (genGraph c2model).filter
            (fun t => t.1 = Term.uri clsItem.iri ∧ t.2.1 = tSH_property) =
          (List.range (nonIdProps c2model clsItem.properties).length).map
            (fun j => (Term.uri clsItem.iri, tSH_property, Term.blank (ctr0 + j))) ∧
        ∀ j (hj : j < (nonIdProps c2model clsItem.properties).length),
          (Term.blank (ctr0 + j), tSH_path,
            Term.uri ((nonIdProps c2model clsItem.properties).get ⟨j, hj⟩).iri) ∈
            genGraph c2model) :=
  ⟨by decide,
   C2_node_shape_amended c2model (genGraph c2model) (genDiags c2model)
     "/Core/Item" clsItem rfl (by decide) (by decide) (by decide) (by decide)⟩

/-! ## Subject, predicate and type-object inventories per section -/

lemma PropTripleForm_subject (q : SPProperty) (t : Triple) (h : PropTripleForm q t) :
    t.1 = Term.uri q.iri ∧ q.nature ≠ "IdProperty" := by
  obtain ⟨hn, h⟩ := h
  rcases h with h | ⟨x, h⟩ | h | h | ⟨o, h⟩ <;> subst h <;> exact ⟨rfl, hn⟩

lemma PropTripleForm_pred (q : SPProperty) (t : Triple) (h : PropTripleForm q t) :
    t.2.1 = tRDF_type ∨ t.2.1 = tRDFS_comment ∨ t.2.1 = tRDFS_range := by
  obtain ⟨-, h⟩ := h
  rcases h with h | ⟨x, h⟩ | h | h | ⟨o, h⟩ <;> subst h
  · exact Or.inl rfl
  · exact Or.inr (Or.inl rfl)
  · exact Or.inl rfl
  · exact Or.inl rfl
  · exact Or.inr (Or.inr rfl)

lemma VocabTripleForm_pred (v : SPVocab) (t : Triple) (h : VocabTripleForm v t) :
    t.2.1 = tRDF_type ∨ t.2.1 = tRDFS_comment ∨ t.2.1 = tRDFS_label := by
  rcases h with h | h | ⟨s, h⟩ | ⟨e, h⟩ | ⟨e, h⟩ | ⟨e, h⟩ | ⟨e, d2, h⟩ <;> subst h
  · exact Or.inl rfl
  · exact Or.inl rfl
  · exact Or.inr (Or.inl rfl)
  · exact Or.inl rfl
  · exact Or.inl rfl
  · exact Or.inr (Or.inr rfl)
  · exact Or.inr (Or.inl rfl)

lemma VocabTripleForm_type_object (v : SPVocab) (s o : Term)
    (h : VocabTripleForm v (s, tRDF_type, o)) :
    o = tRDFS_Class ∨ o = tOWL_Class ∨ o = tOWL_NamedIndividual ∨
      o = Term.uri v.iri := by
  rcases h with h | h | ⟨s2, h⟩ | ⟨e, h⟩ | ⟨e, h⟩ | ⟨e, h⟩ | ⟨e, d2, h⟩
  · simp only [Prod.mk.injEq] at h; exact Or.inl h.2.2
  · simp only [Prod.mk.injEq] at h; exact Or.inr (Or.inl h.2.2)
  · simp +decide [Prod.ext_iff] at h
  · simp only [Prod.mk.injEq] at h; exact Or.inr (Or.inr (Or.inl h.2.2))
  · simp only [Prod.mk.injEq] at h; exact Or.inr (Or.inr (Or.inr h.2.2))
  · simp +decide [Prod.ext_iff] at h
  · simp +decide [Prod.ext_iff] at h

lemma IndivTripleForm_subject (i : SPIndividual) (t : Triple)
    (h : IndivTripleForm i t) : t.1 = Term.uri i.iri := by
  rcases h with h | ⟨s, h⟩ | ⟨o, h⟩ | ⟨o, h⟩ <;> subst h <;> rfl

lemma IndivTripleForm_pred (i : SPIndividual) (t : Triple)
    (h : IndivTripleForm i t) :
    t.2.1 = tRDF_type ∨ t.2.1 = tRDFS_comment ∨ t.2.1 = tRDFS_range ∨
      t.2.1 = tOWL_sameAs := by
  rcases h with h | ⟨s, h⟩ | ⟨o, h⟩ | ⟨o, h⟩ <;> subst h
  · exact Or.inl rfl
  · exact Or.inr (Or.inl rfl)
  · exact Or.inr (Or.inr (Or.inl rfl))
  · exact Or.inr (Or.inr (Or.inr rfl))

lemma IndivTripleForm_type_object (i : SPIndividual) (s o : Term)
    (h : IndivTripleForm i (s, tRDF_type, o)) : o = tOWL_NamedIndividual := by
  rcases h with h | ⟨s2, h⟩ | ⟨o2, h⟩ | ⟨o2, h⟩
  · simp only [Prod.mk.injEq] at h; exact h.2.2
  · simp +decide [Prod.ext_iff] at h
  · simp +decide [Prod.ext_iff] at h
  · simp +decide [Prod.ext_iff] at h

lemma ClassTripleForm_type_object (model : Model) (x : SPClass) (s o : Term)
    (h : ClassTripleForm model x (s, tRDF_type, o)) :
    o = tRDFS_Class ∨ o = tOWL_Class ∨ o = tSH_NodeShape := by
  rcases h with h | h | ⟨h, hne⟩ | ⟨s2, h⟩ | ⟨i, h⟩ | ⟨v, h⟩ | ⟨v, h⟩ | ⟨k, h⟩ |
    ⟨pr, prop, hnm, hdg, hnid, ⟨k, h⟩ | ⟨⟨k, h⟩, h4⟩⟩
  · simp only [Prod.mk.injEq] at h; exact Or.inl h.2.2
  · simp only [Prod.mk.injEq] at h; exact Or.inr (Or.inl h.2.2)
  · simp only [Prod.mk.injEq] at h; exact Or.inr (Or.inr h.2.2)
  · simp +decide [Prod.ext_iff] at h
  · simp +decide [Prod.ext_iff] at h
  · simp +decide [Prod.ext_iff] at h
  · simp +decide [Prod.ext_iff] at h
  · simp +decide [Prod.ext_iff] at h
  · simp +decide [Prod.ext_iff] at h
  · simp +decide at h4

lemma ClassTripleForm_no_range (model : Model) (x : SPClass) (t : Triple)
    (h : ClassTripleForm model x t) : t.2.1 ≠ tRDFS_range := by
  rcases h with h | h | ⟨h, hne⟩ | ⟨s2, h⟩ | ⟨i, h⟩ | ⟨v, h⟩ | ⟨v, h⟩ | ⟨k, h⟩ |
    ⟨pr, prop, hnm, hdg, hnid, ⟨k, h⟩ | ⟨⟨k, h⟩, h4⟩⟩
  · subst h; simp +decide
  · subst h; simp +decide
  · subst h; simp +decide
  · subst h; simp +decide
  · subst h; simp +decide
  · subst h; simp +decide
  · subst h; simp +decide
  · subst h; simp +decide
  · subst h; simp +decide
  · rcases h4 with h4 | h4 | h4 | h4 | h4 <;> simp +decide [h4]

lemma ClassTripleForm_path_prop (model : Model) (x : SPClass) (s : Term)
    (q : String) (h : ClassTripleForm model x (s, tSH_path, Term.uri q)) :
    ∃ prop, prop ∈ model.properties.map (fun y => y.2) ∧ prop.iri = q ∧
      prop.nature ≠ "IdProperty" := by
  rcases h with h | h | ⟨h, hne⟩ | ⟨s2, h⟩ | ⟨i, h⟩ | ⟨v, h⟩ | ⟨v, h⟩ | ⟨k, h⟩ |
    ⟨pr, prop, hnm, hdg, hnid, ⟨k, h⟩ | ⟨⟨k, h⟩, h4⟩⟩
  · simp +decide [Prod.ext_iff] at h
  · simp +decide [Prod.ext_iff] at h
  · simp +decide [Prod.ext_iff] at h
  · simp +decide [Prod.ext_iff] at h
  · simp +decide [Prod.ext_iff] at h
  · simp +decide [Prod.ext_iff] at h
  · simp +decide [Prod.ext_iff] at h
  · simp +decide [Prod.ext_iff] at h
  · have h3 : Term.uri q = Term.uri prop.iri := congrArg (fun t => t.2.2) h
    exact ⟨prop, dictGet_mem_values _ _ _ hdg,
      (Term.uri.injEq _ _ ▸ h3 : q = prop.iri).symm, hnid⟩
  · simp +decide at h4

/-- C3.  An identifying property is invisible in the built graph:
provided no other model entity reuses its IRI (same-IRI properties are
all IdProperty-natured, no individual shares its IRI, no vocabulary IRI
collides with the property-type URIs), the graph holds no property-type
declaration for it, no range statement about it, no typing statement of
the prohibited property kinds, and no property shape anywhere carries
it as sh:path — inherited or not. -/
theorem C3_id_property_excluded (model : Model) (g : List Triple) (d : List String)
    (p : SPProperty)
    (hok : gen_rdf_ontology model = .ok (g, d))
    (hnat : p.nature = "IdProperty")
    (hP : ∀ x ∈ model.properties, x.2.iri = p.iri → x.2.nature = "IdProperty")
    (hI : ∀ x ∈ model.individuals, x.2.iri ≠ p.iri)
    (hV : ∀ x ∈ model.vocabularies, Term.uri x.2.iri ≠ tRDF_Property ∧
      Term.uri x.2.iri ≠ tOWL_ObjectProperty ∧
      Term.uri x.2.iri ≠ tOWL_DatatypeProperty) :
    ((Term.uri p.iri, tRDF_type, tRDF_Property) ∉ g) ∧
    ((Term.uri p.iri, tRDF_type, tOWL_ObjectProperty) ∉ g) ∧
    ((Term.uri p.iri, tRDF_type, tOWL_DatatypeProperty) ∉ g) ∧
    (∀ o, (Term.uri p.iri, tRDFS_range, o) ∉ g) ∧
    (∀ s, (s, tSH_path, Term.uri p.iri) ∉ g) := by
  have hform := gen_form model g d hok
  have hprop_sub : ∀ t ∈ g, (∃ x ∈ model.properties, PropTripleForm x.2 t) →
      t.1 ≠ Term.uri p.iri := by
    intro t _ ⟨x, hx, hf⟩ hteq
    obtain ⟨hs, hn⟩ := PropTripleForm_subject x.2 t hf
    rw [hteq] at hs
    exact hn (hP x hx (Term.uri.injEq _ _ ▸ hs : p.iri = x.2.iri).symm)
  have htype : ∀ o, o = tRDF_Property ∨ o = tOWL_ObjectProperty ∨
      o = tOWL_DatatypeProperty → (Term.uri p.iri, tRDF_type, o) ∉ g := by
    intro o ho hmem
    rcases hform _ hmem with h | h | ⟨x, hx, hf⟩ | hpf | ⟨x, hx, hf⟩ | ⟨x, hx, hf⟩
    · have h3 : o = tOWL_Ontology := congrArg (fun t => t.2.2) h
      rcases ho with rfl | rfl | rfl <;> simp +decide at h3
    · have h2 : tRDF_type = tOWL_versionIRI := congrArg (fun t => t.2.1) h
      simp +decide at h2
    · have h3 := ClassTripleForm_type_object model x.2 _ _ hf
      rcases ho with rfl | rfl | rfl <;> rcases h3 with h3 | h3 | h3 <;>
        simp +decide at h3
    · exact hprop_sub _ hmem hpf rfl
    · have h3 := VocabTripleForm_type_object x.2 _ _ hf
      obtain ⟨hv1, hv2, hv3⟩ := hV x hx
      rcases h3 with h3 | h3 | h3 | h3
      · rcases ho with rfl | rfl | rfl <;> simp +decide at h3
      · rcases ho with rfl | rfl | rfl <;> simp +decide at h3
      · rcases ho with rfl | rfl | rfl <;> simp +decide at h3
      · rcases ho with rfl | rfl | rfl
        · exact hv1 h3.symm
        · exact hv2 h3.symm
        · exact hv3 h3.symm
    · have h3 := IndivTripleForm_type_object x.2 _ _ hf
      rcases ho with rfl | rfl | rfl <;> simp +decide at h3
  refine ⟨htype _ (Or.inl rfl), htype _ (Or.inr (Or.inl rfl)),
    htype _ (Or.inr (Or.inr rfl)), ?_, ?_⟩
  · intro o hmem
    rcases hform _ hmem with h | h | ⟨x, hx, hf⟩ | hpf | ⟨x, hx, hf⟩ | ⟨x, hx, hf⟩
    · have h2 : tRDFS_range = tRDF_type := congrArg (fun t => t.2.1) h
      simp +decide at h2
    · have h2 : tRDFS_range = tOWL_versionIRI := congrArg (fun t => t.2.1) h
      simp +decide at h2
    · exact ClassTripleForm_no_range model x.2 _ hf rfl
    · exact hprop_sub _ hmem hpf rfl
    · rcases VocabTripleForm_pred x.2 _ hf with h2 | h2 | h2 <;> simp +decide at h2
    · have hs := IndivTripleForm_subject x.2 _ hf
      have : x.2.iri = p.iri := (Term.uri.injEq _ _ ▸ hs.symm : x.2.iri = p.iri)
      exact hI x hx this
  · intro s hmem
    rcases hform _ hmem with h | h | ⟨x, hx, hf⟩ | ⟨x, hx, hf⟩ | ⟨x, hx, hf⟩ |
      ⟨x, hx, hf⟩
    · have h2 : tSH_path = tRDF_type := congrArg (fun t => t.2.1) h
      simp +decide at h2
    · have h2 : tSH_path = tOWL_versionIRI := congrArg (fun t => t.2.1) h
      simp +decide at h2
    · obtain ⟨prop, hpm, hpi, hpn⟩ := ClassTripleForm_path_prop model x.2 s p.iri hf
      obtain ⟨y, hy, hyeq⟩ := List.mem_map.mp hpm
      exact hpn (hyeq ▸ hP y hy (hyeq ▸ hpi))
    · rcases PropTripleForm_pred x.2 _ hf with h2 | h2 | h2 <;> simp +decide at h2
    · rcases VocabTripleForm_pred x.2 _ hf with h2 | h2 | h2 <;> simp +decide at h2
    · rcases IndivTripleForm_pred x.2 _ hf with h2 | h2 | h2 | h2 <;>
        simp +decide at h2

/-- C3 witness: the IdProperty-natured Core/name of Scenario A gets no
type, range or path statement anywhere in the built graph. -/
theorem C3_id_property_excluded_witness :
    propName.nature = "IdProperty" ∧
    (((Term.uri propName.iri, tRDF_type, tRDF_Property) ∉ genGraph scenarioA) ∧
     ((Term.uri propName.iri, tRDF_type, tOWL_ObjectProperty) ∉ genGraph scenarioA) ∧
     ((Term.uri propName.iri, tRDF_type, tOWL_DatatypeProperty) ∉ genGraph scenarioA) ∧
     (∀ o, (Term.uri propName.iri, tRDFS_range, o) ∉ genGraph scenarioA) ∧
     (∀ s, (s, tSH_path, Term.uri propName.iri) ∉ genGraph scenarioA)) :=
  ⟨by decide,
   C3_id_property_excluded scenarioA (genGraph scenarioA) (genDiags scenarioA)
     propName rfl (by decide) (by decide) (by decide) (by decide)⟩

/-! ## Dict-assignment lemmas for the context table -/

lemma ctxGet_append (d : List (CtxKey × CtxVal)) (k0 : CtxKey) (v0 : CtxVal)
    (key : CtxKey) :
    ctxGet (d ++ [(k0, v0)]) key =
      match ctxGet d key with
      | some v => some v
      | none => if k0 = key then some v0 else none := by
  induction d with
  | nil => simp [ctxGet]
  | cons e rest ih =>
    obtain ⟨k1, v1⟩ := e
    by_cases h : k1 = key
    · simp [ctxGet, h]
    · simp [ctxGet, h, ih]

lemma ctxGet_map_overwrite (k : CtxKey) (v : CtxVal) :
    ∀ (d : List (CtxKey × CtxVal)), (ctxGet d k).isSome →
    ctxGet (d.map (fun kv => if kv.1 = k then (k, v) else kv)) k = some v := by
  intro d
  induction d with
  | nil => intro h; simp [ctxGet] at h
  | cons e rest ih =>
    intro h
    obtain ⟨k1, v1⟩ := e
    rw [List.map_cons]
    by_cases h1 : k1 = k
    · rw [if_pos h1]
      simp [ctxGet]
    · rw [if_neg h1]
      simp only [ctxGet, if_neg h1] at h
      simp only [ctxGet, if_neg h1]
      exact ih h

lemma ctxGet_map_other (k k0 : CtxKey) (v : CtxVal) (h : k0 ≠ k) :
    ∀ (d : List (CtxKey × CtxVal)),
    ctxGet (d.map (fun kv => if kv.1 = k0 then (k0, v) else kv)) k = ctxGet d k := by
  intro d
  induction d with
  | nil => simp [ctxGet]
  | cons e rest ih =>
    obtain ⟨k1, v1⟩ := e
    rw [List.map_cons]
    by_cases h1 : k1 = k0
    · rw [if_pos h1]
      subst h1
      simp only [ctxGet, if_neg h, ih]
    · rw [if_neg h1]
      simp only [ctxGet, ih]

lemma ctxGet_insert_self (d : List (CtxKey × CtxVal)) (k : CtxKey) (v : CtxVal) :
    ctxGet (ctxInsert d k v) k = some v := by
  unfold ctxInsert
  by_cases h : (ctxGet d k).isSome
  · rw [if_pos h]
    exact ctxGet_map_overwrite k v d h
  · rw [if_neg h, ctxGet_append]
    cases hg : ctxGet d k with
    | some v0 => rw [hg] at h; simp at h
    | none => simp

lemma ctxGet_insert_other (d : List (CtxKey × CtxVal)) (k0 k : CtxKey)
    (v : CtxVal) (h : k0 ≠ k) :
    ctxGet (ctxInsert d k0 v) k = ctxGet d k := by
  unfold ctxInsert
  by_cases hs : (ctxGet d k0).isSome
  · rw [if_pos hs]
    exact ctxGet_map_other k k0 v h d
  · rw [if_neg hs, ctxGet_append]
    cases ctxGet d k with
    | some v0 => simp
    | none => simp [if_neg h]

/-! ## Stepping and splitting the main subject loop -/

lemma process_subjects_step_skip (g : List Triple) (hni : List Term) (s : Term)
    (rest : List Term) (terms : List (CtxKey × CtxVal)) (diags : List String)
    (h : eligKey g s = none) :
    process_subjects g hni (s :: rest) terms diags =
      process_subjects g hni rest terms diags := by
  unfold eligKey at h
  by_cases hm : (s, tRDF_type, tOWL_NamedIndividual) ∈ g
  · simp only [process_subjects, if_pos hm]
  · rw [if_neg hm] at h
    simp only [process_subjects, if_neg hm, h]

lemma process_subjects_step_insert (g : List Triple) (hni : List Term) (s : Term)
    (rest : List Term) (terms : List (CtxKey × CtxVal)) (diags : List String)
    (k : String)
    (hm : (s, tRDF_type, tOWL_NamedIndividual) ∉ g)
    (hdk : derive_key s = some k)
    (hlook : ctxGet terms (CtxKey.str k) = none) :
    process_subjects g hni (s :: rest) terms diags =
      process_subjects g hni rest
        (ctxInsert terms (CtxKey.str k) (get_subject_term g hni s)) diags := by
  simp only [process_subjects, if_neg hm, hdk, hlook]

lemma process_subjects_step_dup (g : List Triple) (hni : List Term) (s : Term)
    (rest : List Term) (terms : List (CtxKey × CtxVal)) (diags : List String)
    (k : String) (cur : CtxVal)
    (hm : (s, tRDF_type, tOWL_NamedIndividual) ∉ g)
    (hdk : derive_key s = some k)
    (hlook : ctxGet terms (CtxKey.str k) = some cur) :
    process_subjects g hni (s :: rest) terms diags =
      process_subjects g hni rest terms
        (diags ++ [dupMsg k s (currentOf cur)]) := by
  simp only [process_subjects, if_neg hm, hdk, hlook]

lemma process_subjects_append (g : List Triple) (hni : List Term) :
    ∀ (A B : List Term) (terms : List (CtxKey × CtxVal)) (diags : List String),
    process_subjects g hni (A ++ B) terms diags =
      process_subjects g hni B
        (process_subjects g hni A terms diags).1
        (process_subjects g hni A terms diags).2 := by
  intro A
  induction A with
  | nil => intro B terms diags; rfl
  | cons s rest ih =>
    intro B terms diags
    by_cases hm : (s, tRDF_type, tOWL_NamedIndividual) ∈ g
    · have hstep : eligKey g s = none := by simp [eligKey, if_pos hm]
      rw [List.cons_append, process_subjects_step_skip g hni s (rest ++ B) terms
        diags hstep, process_subjects_step_skip g hni s rest terms diags hstep]
      exact ih B terms diags
    · cases hdk : derive_key s with
      | none =>
        have hstep : eligKey g s = none := by simp [eligKey, if_neg hm, hdk]
        rw [List.cons_append, process_subjects_step_skip g hni s (rest ++ B) terms
          diags hstep, process_subjects_step_skip g hni s rest terms diags hstep]
        exact ih B terms diags
      | some key =>
        cases hlook : ctxGet terms (CtxKey.str key) with
        | none =>
          rw [List.cons_append,
            process_subjects_step_insert g hni s (rest ++ B) terms diags key hm hdk hlook,
            process_subjects_step_insert g hni s rest terms diags key hm hdk hlook]
          exact ih B _ diags
        | some cur =>
          rw [List.cons_append,
            process_subjects_step_dup g hni s (rest ++ B) terms diags key cur hm hdk hlook,
            process_subjects_step_dup g hni s rest terms diags key cur hm hdk hlook]
          exact ih B terms _

/-- On a stretch of subjects whose eligible keys are fresh and pairwise
distinct, the loop logs nothing, preserves existing table entries, and
leaves untouched keys absent. -/
lemma process_subjects_fresh (g : List Triple) (hni : List Term) :
    ∀ (L : List Term) (terms : List (CtxKey × CtxVal)) (diags : List String),
    (∀ x ∈ L, ∀ kx, eligKey g x = some kx →
      ctxGet terms (CtxKey.str kx) = none) →
    List.Pairwise (distinctKeys g) L →
    (process_subjects g hni L terms diags).2 = diags ∧
    (∀ key v, ctxGet terms key = some v →
      ctxGet (process_subjects g hni L terms diags).1 key = some v) ∧
    (∀ k2, ctxGet terms (CtxKey.str k2) = none →
      (∀ x ∈ L, eligKey g x ≠ some k2) →
      ctxGet (process_subjects g hni L terms diags).1 (CtxKey.str k2) = none) := by
  intro L
  induction L with
  | nil =>
    intro terms diags _ _
    exact ⟨rfl, fun key v h => h, fun k2 h _ => h⟩
  | cons s rest ih =>
    intro terms diags hfresh hpair
    obtain ⟨hhead, htail⟩ := List.pairwise_cons.mp hpair
    cases helig : eligKey g s with
    | none =>
      rw [process_subjects_step_skip g hni s rest terms diags helig]
      obtain ⟨ha, hb, hc⟩ := ih terms diags
        (fun x hx => hfresh x (List.mem_cons_of_mem _ hx)) htail
      exact ⟨ha, hb, fun k2 h hall =>
        hc k2 h (fun x hx => hall x (List.mem_cons_of_mem _ hx))⟩
    | some key =>
      have hm : (s, tRDF_type, tOWL_NamedIndividual) ∉ g := by
        intro hmem
        rw [eligKey, if_pos hmem] at helig
        cases helig
      have hdk : derive_key s = some key := by
        rw [eligKey, if_neg hm] at helig
        exact helig
      have hnone : ctxGet terms (CtxKey.str key) = none :=
        hfresh s (List.mem_cons_self _ _) key helig
      rw [process_subjects_step_insert g hni s rest terms diags key hm hdk hnone]
      have hfresh2 : ∀ x ∈ rest, ∀ kx, eligKey g x = some kx →
          ctxGet (ctxInsert terms (CtxKey.str key) (get_subject_term g hni s))
            (CtxKey.str kx) = none := by
        intro x hx kx hk
        have hne : kx ≠ key := by
          intro he
          exact (hhead x hx key helig) (he ▸ hk)
        rw [ctxGet_insert_other terms (CtxKey.str key) (CtxKey.str kx) _
          (by intro hh; exact hne (by injection hh with hh2; exact hh2.symm))]
        exact hfresh x (List.mem_cons_of_mem _ hx) kx hk
      obtain ⟨ha, hb, hc⟩ := ih
        (ctxInsert terms (CtxKey.str key) (get_subject_term g hni s)) diags
        hfresh2 htail
      refine ⟨ha, ?_, ?_⟩
      · intro k0 v h
        refine hb k0 v ?_
        by_cases he : (CtxKey.str key : CtxKey) = k0
        · rw [← he] at h
          rw [h] at hnone
          cases hnone
        · rw [ctxGet_insert_other terms (CtxKey.str key) k0 _ he]
          exact h
      · intro k2 h hall
        have hne : key ≠ k2 := by
          intro he
          exact (hall s (List.mem_cons_self _ _)) (he ▸ helig)
        refine hc k2 ?_ (fun x hx => hall x (List.mem_cons_of_mem _ hx))
        rw [ctxGet_insert_other terms (CtxKey.str key) (CtxKey.str k2) _
          (by simpa using hne)]
        exact h

/-- The initial table holds only the two seed keys and term-typed keys,
so any other str key is absent. -/
lemma ctxGet_str_init (g : List Triple) (kx : String)
    (h1 : kx ≠ "spdx") (h2 : kx ≠ "type") :
    ctxGet ((id_prop_names g).foldl
      (fun ts o => ctxInsert ts (CtxKey.term o) (CtxVal.str "@id")) seed_terms)
      (CtxKey.str kx) = none := by
  have hgen : ∀ (os : List Term) (ts : List (CtxKey × CtxVal)),
      ctxGet ts (CtxKey.str kx) = none →
      ctxGet (os.foldl (fun ts o => ctxInsert ts (CtxKey.term o) (CtxVal.str "@id")) ts)
        (CtxKey.str kx) = none := by
    intro os
    induction os with
    | nil => intro ts h; exact h
    | cons o rest ih =>
      intro ts h
      rw [List.foldl_cons]
      refine ih _ ?_
      rw [ctxGet_insert_other ts (CtxKey.term o) (CtxKey.str kx) _
        (by intro hh; cases hh)]
      exact h
  refine hgen _ _ ?_
  simp [seed_terms, ctxGet, Ne.symm h1, Ne.symm h2]

/-- C6.  When exactly two eligible subjects — s1 first, s2 later in
sorted-subject order — derive the same compact key k, and every other
eligible subject derives a distinct key outside the seeds, derivation
logs exactly one diagnostic naming the colliding subject s2 and the
already-mapped target, skips the later mapping, and the key stays
mapped to the first subject's term; the run still returns a table. -/
theorem C6_duplicate_context_key (g : List Triple) (k : String)
    (A B C : List Term) (s1 s2 : Term)
    (hsort : subjects_sorted g = A ++ s1 :: (B ++ s2 :: C))
    (h1 : eligKey g s1 = some k)
    (h2 : eligKey g s2 = some k)
    (hother : ∀ x ∈ A ++ B ++ C, eligKey g x ≠ some k)
    (hpair : List.Pairwise (distinctKeys g) (A ++ B ++ C))
    (hseed : ∀ x ∈ A ++ B ++ C, ∀ kx, eligKey g x = some kx →
      kx ≠ "spdx" ∧ kx ≠ "type")
    (hk1 : k ≠ "spdx") (hk2 : k ≠ "type") :
    (jsonld_context g).2 =
      [dupMsg k s2 (currentOf (get_subject_term g (has_named_individuals g) s1))] ∧
    ctxGet (jsonld_context g).1 (CtxKey.str k) =
      some (get_subject_term g (has_named_individuals g) s1) := by
  have hjc : jsonld_context g = process_subjects g (has_named_individuals g)
      (subjects_sorted g)
      ((id_prop_names g).foldl
        (fun ts o => ctxInsert ts (CtxKey.term o) (CtxVal.str "@id")) seed_terms)
      [] := rfl
  rw [List.pairwise_append] at hpair
  obtain ⟨hpAB, hpC, hxABC⟩ := hpair
  rw [List.pairwise_append] at hpAB
  obtain ⟨hpA, hpB, hxAB⟩ := hpAB
  have hm1 : (s1, tRDF_type, tOWL_NamedIndividual) ∉ g := by
    intro hmem
    rw [eligKey, if_pos hmem] at h1
    cases h1
  have hdk1 : derive_key s1 = some k := by
    rw [eligKey, if_neg hm1] at h1
    exact h1
  have hm2 : (s2, tRDF_type, tOWL_NamedIndividual) ∉ g := by
    intro hmem
    rw [eligKey, if_pos hmem] at h2
    cases h2
  have hdk2 : derive_key s2 = some k := by
    rw [eligKey, if_neg hm2] at h2
    exact h2
  have hfreshA : ∀ x ∈ A, ∀ kx, eligKey g x = some kx →
      ctxGet ((id_prop_names g).foldl
        (fun ts o => ctxInsert ts (CtxKey.term o) (CtxVal.str "@id")) seed_terms)
        (CtxKey.str kx) = none := by
    intro x hx kx hk
    obtain ⟨hs1, hs2⟩ := hseed x (by simp [List.mem_append, hx]) kx hk
    exact ctxGet_str_init g kx hs1 hs2
  obtain ⟨hdA, hpresA, hnoneA⟩ := process_subjects_fresh g
    (has_named_individuals g) A _ [] hfreshA hpA
  have hTAk : ctxGet
      (process_subjects g (has_named_individuals g) A
        ((id_prop_names g).foldl
          (fun ts o => ctxInsert ts (CtxKey.term o) (CtxVal.str "@id")) seed_terms)
        []).1 (CtxKey.str k) = none := by
    refine hnoneA k (ctxGet_str_init g k hk1 hk2) ?_
    intro a ha
    exact hother a (by simp [List.mem_append, ha])
  have hfresh1 : ∀ x, x ∈ B ∨ x ∈ C → ∀ kx, eligKey g x = some kx →
      ctxGet (ctxInsert
        (process_subjects g (has_named_individuals g) A
          ((id_prop_names g).foldl
            (fun ts o => ctxInsert ts (CtxKey.term o) (CtxVal.str "@id")) seed_terms)
          []).1 (CtxKey.str k)
        (get_subject_term g (has_named_individuals g) s1))
        (CtxKey.str kx) = none := by
    intro x hx kx hk
    have hmemBC : x ∈ A ++ B ++ C := by
      rcases hx with hx | hx <;> simp [List.mem_append, hx]
    have hkne : kx ≠ k := by
      intro he
      exact hother x hmemBC (he ▸ hk)
    rw [ctxGet_insert_other _ _ _ _ (by simpa using Ne.symm hkne)]
    obtain ⟨hs1, hs2⟩ := hseed x hmemBC kx hk
    refine hnoneA kx (ctxGet_str_init g kx hs1 hs2) ?_
    intro a ha hak
    rcases hx with hx | hx
    · exact (hxAB a ha x hx kx hak) hk
    · exact (hxABC a (by simp [List.mem_append, ha]) x hx kx hak) hk
  obtain ⟨hdB, hpresB, hnoneB⟩ := process_subjects_fresh g
    (has_named_individuals g) B _ []
    (fun x hx => hfresh1 x (Or.inl hx)) hpB
  have hfreshC : ∀ x ∈ C, ∀ kx, eligKey g x = some kx →
      ctxGet (process_subjects g (has_named_individuals g) B
        (ctxInsert
          (process_subjects g (has_named_individuals g) A
            ((id_prop_names g).foldl
              (fun ts o => ctxInsert ts (CtxKey.term o) (CtxVal.str "@id")) seed_terms)
            []).1 (CtxKey.str k)
          (get_subject_term g (has_named_individuals g) s1))
        []).1 (CtxKey.str kx) = none := by
    intro x hx kx hk
    refine hnoneB kx (hfresh1 x (Or.inr hx) kx hk) ?_
    intro b hb hbk
    exact (hxABC b (by simp [List.mem_append, hb]) x hx kx hbk) hk
  obtain ⟨hdC, hpresC, hnoneC⟩ := process_subjects_fresh g
    (has_named_individuals g) C _
    [dupMsg k s2 (currentOf (get_subject_term g (has_named_individuals g) s1))]
    hfreshC hpC
  rw [hjc, hsort, process_subjects_append, hdA,
    process_subjects_step_insert g (has_named_individuals g) s1 _ _ [] k hm1
      hdk1 hTAk,
    process_subjects_append, hdB,
    process_subjects_step_dup g (has_named_individuals g) s2 C _ [] k
      (get_subject_term g (has_named_individuals g) s1) hm2 hdk2
      (hpresB _ _ (ctxGet_insert_self _ _ _)), List.nil_append]
  refine ⟨?_, ?_⟩
  · exact hdC
  · exact hpresC _ _ (hpresB _ _ (ctxGet_insert_self _ _ _))

/-- C6 witness: Core/x_y and X/y both derive the key x_y; derivation
logs one duplicate diagnostic for the later subject and keeps the first
mapping. -/
theorem C6_duplicate_context_key_witness :
    subjects_sorted c6graph = [] ++ subjX :: ([] ++ subjY :: []) ∧
    eligKey c6graph subjX = some "x_y" ∧
    eligKey c6graph subjY = some "x_y" ∧
    ((jsonld_context c6graph).2 =
      [dupMsg "x_y" subjY
        (currentOf (get_subject_term c6graph (has_named_individuals c6graph) subjX))] ∧
     ctxGet (jsonld_context c6graph).1 (CtxKey.str "x_y") =
       some (get_subject_term c6graph (has_named_individuals c6graph) subjX)) :=
  ⟨by decide, by decide, by decide,
   C6_duplicate_context_key c6graph "x_y" [] [] [] subjX subjY (by decide)
     (by decide) (by decide) (by intro x hx; cases hx) List.Pairwise.nil
     (by intro x hx; cases hx) (by decide) (by decide)⟩

/-! ## The subject sort order: total, transitive, antisymmetric -/

lemma listLeChars_total : ∀ a b : List Char,
    listLeChars a b = true ∨ listLeChars b a = true
  | [], _ => Or.inl rfl
  | _ :: _, [] => Or.inr rfl
  | a :: as, b :: bs => by
    by_cases hab : a = b
    · subst hab
      rcases listLeChars_total as bs with h | h
      · exact Or.inl (by simp [listLeChars, h])
      · exact Or.inr (by simp [listLeChars, h])
    · rcases lt_trichotomy a b with h | h | h
      · exact Or.inl (by simp [listLeChars, hab, h])
      · exact absurd h hab
      · exact Or.inr (by simp [listLeChars, Ne.symm hab, h])

lemma listLeChars_trans : ∀ a b c : List Char,
    listLeChars a b = true → listLeChars b c = true → listLeChars a c = true
  | [], _, _, _, _ => rfl
  | _ :: _, [], _, h1, _ => by cases h1
  | _ :: _, _ :: _, [], _, h2 => by cases h2
  | a :: as, b :: bs, c :: cs, h1, h2 => by
    by_cases hab : a = b <;> by_cases hbc : b = c
    · subst hab; subst hbc
      simp only [listLeChars, if_pos rfl] at h1 h2 ⊢
      exact listLeChars_trans as bs cs h1 h2
    · subst hab
      simp only [listLeChars, if_neg hbc, decide_eq_true_eq] at h2
      simp [listLeChars, hbc, h2]
    · subst hbc
      simp only [listLeChars, if_neg hab, decide_eq_true_eq] at h1
      simp [listLeChars, hab, h1]
    · simp only [listLeChars, if_neg hab, decide_eq_true_eq] at h1
      simp only [listLeChars, if_neg hbc, decide_eq_true_eq] at h2
      have hac : a < c := lt_trans h1 h2
      simp [listLeChars, ne_of_lt hac, hac]

lemma listLeChars_antisymm : ∀ a b : List Char,
    listLeChars a b = true → listLeChars b a = true → a = b
  | [], [], _, _ => rfl
  | [], _ :: _, _, h2 => by cases h2
  | _ :: _, [], h1, _ => by cases h1
  | a :: as, b :: bs, h1, h2 => by
    by_cases hab : a = b
    · subst hab
      simp only [listLeChars, if_pos rfl] at h1 h2
      rw [listLeChars_antisymm as bs h1 h2]
    · simp only [listLeChars, if_neg hab, decide_eq_true_eq] at h1
      simp only [listLeChars, if_neg (Ne.symm hab), decide_eq_true_eq] at h2
      exact absurd (lt_trans h1 h2) (lt_irrefl a)

lemma pyStrLe_total (a b : String) : pyStrLe a b = true ∨ pyStrLe b a = true :=
  listLeChars_total a.data b.data

lemma pyStrLe_trans (a b c : String) (h1 : pyStrLe a b = true)
    (h2 : pyStrLe b c = true) : pyStrLe a c = true :=
  listLeChars_trans a.data b.data c.data h1 h2

lemma pyStrLe_antisymm (a b : String) (h1 : pyStrLe a b = true)
    (h2 : pyStrLe b a = true) : a = b := by
  cases a with
  | mk da =>
    cases b with
    | mk db =>
      have := listLeChars_antisymm da db h1 h2
      rw [this]

instance : IsTotal Term termLe := ⟨by
  intro a b
  unfold termLe termLeB
  by_cases h : termRank a = termRank b
  · rw [if_pos h, if_pos h.symm]
    exact pyStrLe_total a.pyStr b.pyStr
  · rw [if_neg h, if_neg (fun hh => h hh.symm)]
    rcases Nat.lt_or_ge (termRank a) (termRank b) with hlt | hge
    · exact Or.inl (by simpa using hlt)
    · exact Or.inr (by simp; omega)⟩

instance : IsTrans Term termLe := ⟨by
  intro a b c h1 h2
  unfold termLe termLeB at h1 h2 ⊢
  by_cases hab : termRank a = termRank b <;>
    by_cases hbc : termRank b = termRank c
  · rw [if_pos hab] at h1
    rw [if_pos hbc] at h2
    rw [if_pos (hab.trans hbc)]
    exact pyStrLe_trans _ _ _ h1 h2
  · rw [if_neg hbc] at h2
    rw [if_neg (fun hh => hbc (hab ▸ hh : termRank b = termRank c))]
    simp only [decide_eq_true_eq] at h2 ⊢
    omega
  · rw [if_neg hab] at h1
    rw [if_neg (fun hh => hab (hh.trans hbc.symm))]
    simp only [decide_eq_true_eq] at h1 ⊢
    omega
  · rw [if_neg hab] at h1
    rw [if_neg hbc] at h2
    simp only [decide_eq_true_eq] at h1 h2
    rw [if_neg (by omega)]
    simp only [decide_eq_true_eq]
    omega⟩

lemma termLe_antisymm_of_inj (a b : Term)
    (hinj : termRank a = termRank b → a.pyStr = b.pyStr → a = b)
    (h1 : termLe a b) (h2 : termLe b a) : a = b := by
  unfold termLe termLeB at h1 h2
  by_cases h : termRank a = termRank b
  · rw [if_pos h] at h1
    rw [if_pos h.symm] at h2
    exact hinj h (pyStrLe_antisymm _ _ h1 h2)
  · rw [if_neg h] at h1
    rw [if_neg (fun hh => h hh.symm)] at h2
    simp only [decide_eq_true_eq] at h1 h2
    omega

instance : IsTotal (CtxKey × CtxVal) ctxEntryLe := ⟨by
  intro a b
  exact pyStrLe_total (renderKey a.1) (renderKey b.1)⟩

instance : IsTrans (CtxKey × CtxVal) ctxEntryLe := ⟨by
  intro a b c h1 h2
  exact pyStrLe_trans _ _ _ h1 h2⟩

/-- Two sorted lists that are permutations of each other and whose
elements are pairwise order-distinguishable are equal. -/
lemma sorted_perm_eq {α : Type} (r : α → α → Prop) :
    ∀ (l1 l2 : List α), l1.Perm l2 → l1.Sorted r → l2.Sorted r →
    (∀ a ∈ l1, ∀ b ∈ l1, r a b → r b a → a = b) → l1 = l2
  | [], l2, hp, _, _, _ => hp.nil_eq
  | a :: t1, [], hp, _, _, _ => by
    have := hp.length_eq
    simp at this
  | a :: t1, b :: t2, hp, hs1, hs2, hanti => by
    have hab : a = b := by
      have hamem : a ∈ b :: t2 := hp.mem_iff.mp (List.mem_cons_self _ _)
      have hbmem : b ∈ a :: t1 := hp.mem_iff.mpr (List.mem_cons_self _ _)
      rcases List.mem_cons.mp hamem with h | hat2
      · exact h
      · rcases List.mem_cons.mp hbmem with h | hbt1
        · exact h.symm
        · have hrab : r a b := List.rel_of_sorted_cons hs1 b hbt1
          have hrba : r b a := List.rel_of_sorted_cons hs2 a hat2
          exact hanti a (List.mem_cons_self _ _) b (List.mem_cons_of_mem _ hbt1)
            hrab hrba
    subst hab
    have hp2 : t1.Perm t2 := hp.cons_inv
    rw [sorted_perm_eq r t1 t2 hp2 hs1.of_cons hs2.of_cons
      (fun x hx y hy => hanti x (List.mem_cons_of_mem _ hx)
        y (List.mem_cons_of_mem _ hy))]

/-- Same triple membership and order-distinguishable subjects give the
same sorted subject list. -/
lemma subjects_sorted_eq (g1 g2 : List Triple)
    (hmem : ∀ t, t ∈ g1 ↔ t ∈ g2)
    (hinj : ∀ a ∈ g1.map (fun t => t.1), ∀ b ∈ g1.map (fun t => t.1),
      termRank a = termRank b → a.pyStr = b.pyStr → a = b) :
    subjects_sorted g1 = subjects_sorted g2 := by
  have hsubj : ∀ s, s ∈ g1.map (fun t => t.1) ↔ s ∈ g2.map (fun t => t.1) := by
    intro s
    simp only [List.mem_map]
    exact ⟨fun ⟨t, ht, he⟩ => ⟨t, (hmem t).mp ht, he⟩,
      fun ⟨t, ht, he⟩ => ⟨t, (hmem t).mpr ht, he⟩⟩
  have hperm : ((g1.map (fun t => t.1)).dedup).Perm ((g2.map (fun t => t.1)).dedup) := by
    rw [List.perm_ext_iff_of_nodup (List.nodup_dedup _) (List.nodup_dedup _)]
    intro s
    rw [List.mem_dedup, List.mem_dedup]
    exact hsubj s
  unfold subjects_sorted
  refine sorted_perm_eq termLe _ _ ?_ ?_ ?_ ?_
  · exact (List.perm_insertionSort termLe _).trans
      (hperm.trans (List.perm_insertionSort termLe _).symm)
  · exact List.sorted_insertionSort termLe _
  · exact List.sorted_insertionSort termLe _
  · intro a ha b hb hrab hrba
    have ha2 : a ∈ g1.map (fun t => t.1) := by
      have := (List.perm_insertionSort termLe ((g1.map (fun t => t.1)).dedup)).mem_iff.mp ha
      exact List.mem_dedup.mp this
    have hb2 : b ∈ g1.map (fun t => t.1) := by
      have := (List.perm_insertionSort termLe ((g1.map (fun t => t.1)).dedup)).mem_iff.mp hb
      exact List.mem_dedup.mp this
    exact termLe_antisymm_of_inj a b (hinj a ha2 b hb2) hrab hrba

/-! ## Membership characterizations of the derived collections -/

lemma mem_ni_subjects (g : List Triple) (s : Term) :
    s ∈ g.filterMap (fun t =>
        if t.2.1 = tRDF_type ∧ t.2.2 = tOWL_NamedIndividual then some t.1 else none) ↔
      (s, tRDF_type, tOWL_NamedIndividual) ∈ g := by
  rw [List.mem_filterMap]
  constructor
  · rintro ⟨t, ht, hteq⟩
    split at hteq
    · rename_i hc
      injection hteq with h1
      obtain ⟨t1, t2, t3⟩ := t
      obtain ⟨hc1, hc2⟩ := hc
      dsimp only at h1 hc1 hc2
      subst h1; subst hc1; subst hc2
      exact ht
    · cases hteq
  · intro h
    exact ⟨(s, tRDF_type, tOWL_NamedIndividual), h, by simp⟩

lemma mem_type_objects (g : List Triple) (s o : Term) :
    o ∈ g.filterMap (fun t =>
        if t.1 = s ∧ t.2.1 = tRDF_type then some t.2.2 else none) ↔
      (s, tRDF_type, o) ∈ g := by
  rw [List.mem_filterMap]
  constructor
  · rintro ⟨t, ht, hteq⟩
    split at hteq
    · rename_i hc
      injection hteq with h1
      obtain ⟨t1, t2, t3⟩ := t
      obtain ⟨hc1, hc2⟩ := hc
      dsimp only at h1 hc1 hc2
      subst h1; subst hc1; subst hc2
      exact ht
    · cases hteq
  · intro h
    exact ⟨(s, tRDF_type, o), h, by simp⟩

lemma mem_has_named_individuals (g : List Triple) (o : Term) :
    o ∈ has_named_individuals g ↔
      ∃ s, (s, tRDF_type, tOWL_NamedIndividual) ∈ g ∧ (s, tRDF_type, o) ∈ g := by
  unfold has_named_individuals
  rw [mem_joinMap]
  constructor
  · rintro ⟨s, hs, ho⟩
    exact ⟨s, (mem_ni_subjects g s).mp hs, (mem_type_objects g s o).mp ho⟩
  · rintro ⟨s, h1, h2⟩
    exact ⟨s, (mem_ni_subjects g s).mpr h1, (mem_type_objects g s o).mpr h2⟩

lemma mem_id_prop_names (g : List Triple) (o : Term) :
    o ∈ id_prop_names g ↔
      ∃ t ∈ g, t.2.1 = tSPDXS_idPropertyName ∧ t.2.2 = o := by
  unfold id_prop_names
  rw [List.mem_dedup, List.mem_filterMap]
  constructor
  · rintro ⟨t, ht, hteq⟩
    split at hteq
    · rename_i hc
      injection hteq with h1
      exact ⟨t, ht, hc, h1⟩
    · cases hteq
  · rintro ⟨t, ht, hc, ho⟩
    refine ⟨t, ht, ?_⟩
    rw [if_pos hc, ho]

/-! ## Order-independence of the range classification -/

lemma classify_ranges_char (g : List Triple) (hni : List Term) (s : Term)
    (o0 : Term) (huniq : ∀ o, (s, tRDFS_range, o) ∈ g → o = o0) :
    ∀ l : List Triple, (∀ t ∈ l, t ∈ g) →
    classify_ranges g hni s l =
      if (s, tRDFS_range, o0) ∈ l then
        (if o0 ∈ hni then CtxVal.vocabObj s.pyStr (o0.pyStr ++ "/")
         else if (o0, tRDF_type, tRDFS_Class) ∈ g then CtxVal.idObj s.pyStr
         else CtxVal.str s.pyStr)
      else CtxVal.str s.pyStr := by
  intro l
  induction l with
  | nil =>
    intro _
    rw [if_neg (List.not_mem_nil _)]
    rfl
  | cons t rest ih =>
    intro hsub
    obtain ⟨t1, t2, t3⟩ := t
    by_cases hc : t1 = s ∧ t2 = tRDFS_range
    · obtain ⟨hc1, hc2⟩ := hc
      subst hc1; subst hc2
      have ho3 : t3 = o0 := huniq t3 (hsub _ (List.mem_cons_self _ _))
      subst ho3
      rw [if_pos (List.mem_cons_self _ _)]
      show (if t1 = t1 ∧ tRDFS_range = tRDFS_range then
          if t3 ∈ hni then CtxVal.vocabObj t1.pyStr (t3.pyStr ++ "/")
          else if (t3, tRDF_type, tRDFS_Class) ∈ g then CtxVal.idObj t1.pyStr
          else classify_ranges g hni t1 rest
        else classify_ranges g hni t1 rest) = _
      rw [if_pos ⟨rfl, rfl⟩]
      by_cases hh : t3 ∈ hni
      · rw [if_pos hh, if_pos hh]
      · rw [if_neg hh, if_neg hh]
        by_cases hcl : (t3, tRDF_type, tRDFS_Class) ∈ g
        · rw [if_pos hcl, if_pos hcl]
        · rw [if_neg hcl, if_neg hcl]
          rw [ih (fun u hu => hsub u (List.mem_cons_of_mem _ hu))]
          by_cases hm : (t1, tRDFS_range, t3) ∈ rest
          · rw [if_pos hm, if_neg hh, if_neg hcl]
          · rw [if_neg hm]
    · show (if t1 = s ∧ t2 = tRDFS_range then _ else classify_ranges g hni s rest) = _
      rw [if_neg hc, ih (fun u hu => hsub u (List.mem_cons_of_mem _ hu))]
      have hne : (s, tRDFS_range, o0) ≠ (t1, t2, t3) := by
        intro he
        injection he with he1 he2
        injection he2 with he2 he3
        exact hc ⟨he1.symm, he2.symm⟩
      by_cases hm : (s, tRDFS_range, o0) ∈ rest
      · rw [if_pos hm, if_pos (List.mem_cons_of_mem _ hm)]
      · rw [if_neg hm, if_neg (by
          intro hmm
          rcases List.mem_cons.mp hmm with he | hmr
          · exact hne he
          · exact hm hmr)]

lemma get_subject_term_congr (g1 g2 : List Triple) (hni1 hni2 : List Term)
    (s : Term)
    (hmem : ∀ t, t ∈ g1 ↔ t ∈ g2)
    (hhni : ∀ o, o ∈ hni1 ↔ o ∈ hni2)
    (hrange : ∀ o o2, (s, tRDFS_range, o) ∈ g1 → (s, tRDFS_range, o2) ∈ g1 →
      o = o2) :
    get_subject_term g1 hni1 s = get_subject_term g2 hni2 s := by
  unfold get_subject_term
  by_cases hop : (s, tRDF_type, tOWL_ObjectProperty) ∈ g1
  · rw [if_pos hop, if_pos ((hmem _).mp hop)]
    by_cases hex : ∃ o, (s, tRDFS_range, o) ∈ g1
    · obtain ⟨o0, ho0⟩ := hex
      have huniq1 : ∀ o, (s, tRDFS_range, o) ∈ g1 → o = o0 :=
        fun o ho => hrange o o0 ho ho0
      have huniq2 : ∀ o, (s, tRDFS_range, o) ∈ g2 → o = o0 :=
        fun o ho => huniq1 o ((hmem _).mpr ho)
      rw [classify_ranges_char g1 hni1 s o0 huniq1 g1 (fun t ht => ht),
        classify_ranges_char g2 hni2 s o0 huniq2 g2 (fun t ht => ht)]
      rw [if_pos ho0, if_pos ((hmem _).mp ho0)]
      by_cases hh : o0 ∈ hni1
      · rw [if_pos hh, if_pos ((hhni _).mp hh)]
      · rw [if_neg hh, if_neg (fun hh2 => hh ((hhni _).mpr hh2))]
        by_cases hcl : (o0, tRDF_type, tRDFS_Class) ∈ g1
        · rw [if_pos hcl, if_pos ((hmem _).mp hcl)]
        · rw [if_neg hcl, if_neg (fun hc2 => hcl ((hmem _).mpr hc2))]
    · have huniq1 : ∀ o, (s, tRDFS_range, o) ∈ g1 → o = s :=
        fun o ho => absurd ⟨o, ho⟩ hex
      have huniq2 : ∀ o, (s, tRDFS_range, o) ∈ g2 → o = s :=
        fun o ho => huniq1 o ((hmem _).mpr ho)
      rw [classify_ranges_char g1 hni1 s s huniq1 g1 (fun t ht => ht),
        classify_ranges_char g2 hni2 s s huniq2 g2 (fun t ht => ht)]
      rw [if_neg (fun hm => hex ⟨s, hm⟩),
        if_neg (fun hm => hex ⟨s, (hmem _).mpr hm⟩)]
  · rw [if_neg hop, if_neg (fun h2 => hop ((hmem _).mpr h2))]

/-! ## The terms table up to lookup equivalence -/

lemma ctxGet_foldl_const (v : CtxVal) :
    ∀ (os : List Term) (ts : List (CtxKey × CtxVal)) (key : CtxKey),
    ctxGet (os.foldl (fun ts o => ctxInsert ts (CtxKey.term o) v) ts) key =
      if ∃ o ∈ os, CtxKey.term o = key then some v else ctxGet ts key := by
  intro os
  induction os with
  | nil =>
    intro ts key
    rw [if_neg (by rintro ⟨o, ho, _⟩; cases ho)]
    rfl
  | cons o rest ih =>
    intro ts key
    rw [List.foldl_cons, ih]
    by_cases hk : (CtxKey.term o : CtxKey) = key
    · by_cases hr : ∃ o2 ∈ rest, CtxKey.term o2 = key
      · rw [if_pos hr, if_pos ⟨o, List.mem_cons_self _ _, hk⟩]
      · rw [if_neg hr, if_pos ⟨o, List.mem_cons_self _ _, hk⟩, ← hk,
          ctxGet_insert_self]
    · by_cases hr : ∃ o2 ∈ rest, CtxKey.term o2 = key
      · obtain ⟨o2, ho2, he⟩ := hr
        rw [if_pos ⟨o2, ho2, he⟩, if_pos ⟨o2, List.mem_cons_of_mem _ ho2, he⟩]
      · rw [if_neg hr, if_neg (by
          rintro ⟨o2, ho2, he⟩
          rcases List.mem_cons.mp ho2 with h | h
          · exact hk (h ▸ he)
          · exact hr ⟨o2, h, he⟩)]
        exact ctxGet_insert_other ts (CtxKey.term o) key v hk

lemma ctxGet_insert_congr (t1 t2 : List (CtxKey × CtxVal))
    (hext : ∀ key, ctxGet t1 key = ctxGet t2 key) (k : CtxKey) (v : CtxVal) :
    ∀ key, ctxGet (ctxInsert t1 k v) key = ctxGet (ctxInsert t2 k v) key := by
  intro key
  by_cases hk : k = key
  · subst hk
    rw [ctxGet_insert_self, ctxGet_insert_self]
  · rw [ctxGet_insert_other _ _ _ _ hk, ctxGet_insert_other _ _ _ _ hk]
    exact hext key

/-- The subject loop is insensitive to graph storage order: with the
same triples (as sets), lookup-equivalent tables, and unambiguous
ranges, both runs log the same diagnostics and build lookup-equivalent
tables. -/
lemma process_subjects_congr (g1 g2 : List Triple) (hni1 hni2 : List Term)
    (hmem : ∀ t, t ∈ g1 ↔ t ∈ g2)
    (hhni : ∀ o, o ∈ hni1 ↔ o ∈ hni2)
    (hrange : ∀ s o o2, (s, tRDFS_range, o) ∈ g1 → (s, tRDFS_range, o2) ∈ g1 →
      o = o2) :
    ∀ (L : List Term) (t1 t2 : List (CtxKey × CtxVal)) (diags : List String),
    (∀ key, ctxGet t1 key = ctxGet t2 key) →
    (process_subjects g1 hni1 L t1 diags).2 =
      (process_subjects g2 hni2 L t2 diags).2 ∧
    (∀ key, ctxGet (process_subjects g1 hni1 L t1 diags).1 key =
      ctxGet (process_subjects g2 hni2 L t2 diags).1 key) := by
  intro L
  induction L with
  | nil =>
    intro t1 t2 diags hext
    exact ⟨rfl, hext⟩
  | cons s rest ih =>
    intro t1 t2 diags hext
    by_cases hm : (s, tRDF_type, tOWL_NamedIndividual) ∈ g1
    · simp only [process_subjects, if_pos hm, if_pos ((hmem _).mp hm)]
      exact ih t1 t2 diags hext
    · simp only [process_subjects, if_neg hm,
        if_neg (fun h2 => hm ((hmem _).mpr h2))]
      cases hdk : derive_key s with
      | none => exact ih t1 t2 diags hext
      | some key =>
        dsimp only
        rw [← hext (CtxKey.str key)]
        cases hlook : ctxGet t1 (CtxKey.str key) with
        | some cur => exact ih t1 t2 _ hext
        | none =>
          rw [get_subject_term_congr g1 g2 hni1 hni2 s hmem hhni
            (fun o o2 => hrange s o o2)]
          exact ih _ _ diags
            (ctxGet_insert_congr t1 t2 hext (CtxKey.str key)
              (get_subject_term g2 hni2 s))

/-! ## Lookup-equivalent tables serialize identically -/

lemma ctxGet_eq_some_iff_mem :
    ∀ (T : List (CtxKey × CtxVal)), (T.map (fun e => e.1)).Nodup →
    ∀ (k : CtxKey) (v : CtxVal), ctxGet T k = some v ↔ (k, v) ∈ T := by
  intro T
  induction T with
  | nil =>
    intro _ k v
    simp [ctxGet]
  | cons e rest ih =>
    intro hnd k v
    obtain ⟨k1, v1⟩ := e
    rw [List.map_cons, List.nodup_cons] at hnd
    obtain ⟨hk1, hrest⟩ := hnd
    by_cases h : k1 = k
    · subst h
      show (if k1 = k1 then some v1 else ctxGet rest k1) = some v ↔ _
      rw [if_pos rfl]
      constructor
      · intro hv
        injection hv with hv
        rw [← hv]
        exact List.mem_cons_self _ _
      · intro hv
        rcases List.mem_cons.mp hv with he | hm
        · injection he with he1 he2
          rw [he2]
        · exact absurd (by
            rw [List.mem_map]
            exact ⟨(k1, v), hm, rfl⟩) hk1
    · show (if k1 = k then some v1 else ctxGet rest k) = some v ↔ _
      rw [if_neg h, ih hrest k v]
      constructor
      · exact fun hm => List.mem_cons_of_mem _ hm
      · intro hm
        rcases List.mem_cons.mp hm with he | hm2
        · injection he with he1 he2
          exact absurd he1.symm h
        · exact hm2

lemma tables_perm (T1 T2 : List (CtxKey × CtxVal))
    (h1 : (T1.map (fun e => e.1)).Nodup) (h2 : (T2.map (fun e => e.1)).Nodup)
    (hext : ∀ key, ctxGet T1 key = ctxGet T2 key) : T1.Perm T2 := by
  rw [List.perm_ext_iff_of_nodup (h1.of_map) (h2.of_map)]
  intro e
  obtain ⟨k, v⟩ := e
  rw [← ctxGet_eq_some_iff_mem T1 h1 k v, ← ctxGet_eq_some_iff_mem T2 h2 k v,
    hext k]

lemma serialize_context_congr (T1 T2 : List (CtxKey × CtxVal))
    (hrn1 : (T1.map (fun e => renderKey e.1)).Nodup)
    (hrn2 : (T2.map (fun e => renderKey e.1)).Nodup)
    (hext : ∀ key, ctxGet T1 key = ctxGet T2 key) :
    serialize_context T1 = serialize_context T2 := by
  have hmap1 : T1.map (fun e => renderKey e.1) =
      (T1.map (fun e => e.1)).map renderKey := by
    rw [List.map_map]
    rfl
  have hmap2 : T2.map (fun e => renderKey e.1) =
      (T2.map (fun e => e.1)).map renderKey := by
    rw [List.map_map]
    rfl
  have hk1 : (T1.map (fun e => e.1)).Nodup := (hmap1 ▸ hrn1).of_map
  have hk2 : (T2.map (fun e => e.1)).Nodup := (hmap2 ▸ hrn2).of_map
  have hperm : T1.Perm T2 := tables_perm T1 T2 hk1 hk2 hext
  have hsorteq : List.insertionSort ctxEntryLe T1 =
      List.insertionSort ctxEntryLe T2 := by
    refine sorted_perm_eq ctxEntryLe _ _ ?_ ?_ ?_ ?_
    · exact (List.perm_insertionSort ctxEntryLe T1).trans
        (hperm.trans (List.perm_insertionSort ctxEntryLe T2).symm)
    · exact List.sorted_insertionSort ctxEntryLe T1
    · exact List.sorted_insertionSort ctxEntryLe T2
    · intro a ha b hb hab hba
      have ha2 : a ∈ T1 := (List.perm_insertionSort ctxEntryLe T1).mem_iff.mp ha
      have hb2 : b ∈ T1 := (List.perm_insertionSort ctxEntryLe T1).mem_iff.mp hb
      have hkey : renderKey a.1 = renderKey b.1 :=
        pyStrLe_antisymm _ _ hab hba
      exact List.inj_on_of_nodup_map hrn1 ha2 hb2 hkey
  unfold serialize_context
  rw [hsorteq]

/-- C7.  Context derivation is deterministic across runs: two storage
orders of the same statement set (the nondeterminism Python set
iteration introduces) yield identical diagnostics, a lookup-identical
term-mapping table, and byte-identical sorted-key serialization,
provided subjects are order-distinguishable, each subject has at most
one range statement, and the derived tables carry no two entries
rendering the same key. -/
theorem C7_deterministic_context (g1 g2 : List Triple)
    (hmem12 : ∀ t ∈ g1, t ∈ g2) (hmem21 : ∀ t ∈ g2, t ∈ g1)
    (hinj : ∀ a ∈ g1.map (fun t => t.1), ∀ b ∈ g1.map (fun t => t.1),
      termRank a = termRank b → a.pyStr = b.pyStr → a = b)
    (hrange : ∀ t ∈ g1, ∀ u ∈ g1, t.2.1 = tRDFS_range → u.2.1 = tRDFS_range →
      t.1 = u.1 → t.2.2 = u.2.2)
    (hrn1 : ((jsonld_context g1).1.map (fun e => renderKey e.1)).Nodup)
    (hrn2 : ((jsonld_context g2).1.map (fun e => renderKey e.1)).Nodup) :
    (jsonld_context g1).2 = (jsonld_context g2).2 ∧
    (∀ key, ctxGet (jsonld_context g1).1 key = ctxGet (jsonld_context g2).1 key) ∧
    serialize_context (jsonld_context g1).1 =
      serialize_context (jsonld_context g2).1 := by
  have hmem : ∀ t, t ∈ g1 ↔ t ∈ g2 := fun t => ⟨hmem12 t, hmem21 t⟩
  have hhni : ∀ o, o ∈ has_named_individuals g1 ↔
      o ∈ has_named_individuals g2 := by
    intro o
    rw [mem_has_named_individuals, mem_has_named_individuals]
    constructor
    · rintro ⟨s, h1, h2⟩
      exact ⟨s, (hmem _).mp h1, (hmem _).mp h2⟩
    · rintro ⟨s, h1, h2⟩
      exact ⟨s, (hmem _).mpr h1, (hmem _).mpr h2⟩
  have hrange2 : ∀ s o o2, (s, tRDFS_range, o) ∈ g1 →
      (s, tRDFS_range, o2) ∈ g1 → o = o2 := by
    intro s o o2 h1 h2
    exact hrange (s, tRDFS_range, o) h1 (s, tRDFS_range, o2) h2 rfl rfl rfl
  have hinit : ∀ key,
      ctxGet ((id_prop_names g1).foldl
        (fun ts o => ctxInsert ts (CtxKey.term o) (CtxVal.str "@id")) seed_terms)
        key =
      ctxGet ((id_prop_names g2).foldl
        (fun ts o => ctxInsert ts (CtxKey.term o) (CtxVal.str "@id")) seed_terms)
        key := by
    intro key
    rw [ctxGet_foldl_const, ctxGet_foldl_const]
    have hiff : (∃ o ∈ id_prop_names g1, CtxKey.term o = key) ↔
        (∃ o ∈ id_prop_names g2, CtxKey.term o = key) := by
      constructor
      · rintro ⟨o, ho, he⟩
        refine ⟨o, ?_, he⟩
        rw [mem_id_prop_names] at ho ⊢
        obtain ⟨t, ht, hc⟩ := ho
        exact ⟨t, (hmem _).mp ht, hc⟩
      · rintro ⟨o, ho, he⟩
        refine ⟨o, ?_, he⟩
        rw [mem_id_prop_names] at ho ⊢
        obtain ⟨t, ht, hc⟩ := ho
        exact ⟨t, (hmem _).mpr ht, hc⟩
    by_cases hx : ∃ o ∈ id_prop_names g1, CtxKey.term o = key
    · rw [if_pos hx, if_pos (hiff.mp hx)]
    · rw [if_neg hx, if_neg (fun h2 => hx (hiff.mpr h2))]
  have hL : subjects_sorted g1 = subjects_sorted g2 :=
    subjects_sorted_eq g1 g2 hmem hinj
  have hjc1 : jsonld_context g1 = process_subjects g1 (has_named_individuals g1)
      (subjects_sorted g1)
      ((id_prop_names g1).foldl
        (fun ts o => ctxInsert ts (CtxKey.term o) (CtxVal.str "@id")) seed_terms)
      [] := rfl
  have hjc2 : jsonld_context g2 = process_subjects g2 (has_named_individuals g2)
      (subjects_sorted g1)
      ((id_prop_names g2).foldl
        (fun ts o => ctxInsert ts (CtxKey.term o) (CtxVal.str "@id")) seed_terms)
      [] := by rw [hL]; rfl
  obtain ⟨hd, hext⟩ := process_subjects_congr g1 g2
    (has_named_individuals g1) (has_named_individuals g2) hmem hhni hrange2
    (subjects_sorted g1) _ _ [] hinit
  rw [hjc1, hjc2]
  refine ⟨hd, hext, ?_⟩
  refine serialize_context_congr _ _ ?_ ?_ hext
  · rw [← hjc1]; exact hrn1
  · rw [← hjc2]; exact hrn2

/-- C7 witness: the two storage orders of the aaa/bbb statement set
produce equal diagnostics, lookup-identical tables, and the same
serialized context. -/
theorem C7_deterministic_context_witness :
    c7g1 ≠ c7g2 ∧
    ((jsonld_context c7g1).2 = (jsonld_context c7g2).2 ∧
     (∀ key, ctxGet (jsonld_context c7g1).1 key =
       ctxGet (jsonld_context c7g2).1 key) ∧
     serialize_context (jsonld_context c7g1).1 =
       serialize_context (jsonld_context c7g2).1) :=
  ⟨by decide,
   C7_deterministic_context c7g1 c7g2 (by decide) (by decide) (by decide)
     (by decide) (by decide) (by decide)⟩
